import Mathlib

/-!
# Prefix-index lookup engine (`lookup_1.go`)

A shallow embedding of the lookup server of `lookup_1.go`:

* the prefix index, an ordered key-value store (goleveldb) whose keys are
  `value[:min(3,len)] + ":" + value`, written by `loadLookupData`;
* `performLookup`, the prefix scan with the two containment tests;
* `lookupWithCache`, the memoisation layer with its hit/miss counters;
* the batch pipeline of `processInputFile`: sort, splitter, worker pool and
  collector, as a step function driven by a schedule;
* for the properties of the scan: the candidates a lookup examines, and the scan
  over an iterator that an I/O error stops early.

Go strings are byte sequences, so a string is a list of byte values.  The
library functions the program calls (`strings.ToLower`, `strings.TrimSpace`,
the `x/text/search` matcher, `sort.Slice`) are parameters of the embedding;
`refLib` and `refSort` are one concrete instantiation: ASCII lower-casing and
trimming, exact substring search as the matcher, insertion sort.  The properties
are proved for every instantiation and evaluated on this one.
-/

namespace Lookup

/-! ## Strings -/

/-- A Go string: a finite sequence of bytes, each byte given by its value. -/
abbrev Str := List Nat

/-- UTF-8 encoding of one code point, as Go stores the characters of a string literal. -/
def utf8Encode (c : Nat) : Str :=
  if c < 0x80 then [c]
  else if c < 0x800 then [0xC0 + c / 0x40, 0x80 + c % 0x40]
  else if c < 0x10000 then [0xE0 + c / 0x1000, 0x80 + (c / 0x40) % 0x40, 0x80 + c % 0x40]
  else [0xF0 + c / 0x40000, 0x80 + (c / 0x1000) % 0x40, 0x80 + (c / 0x40) % 0x40, 0x80 + c % 0x40]

/-- The bytes of a string literal. -/
def bytes (s : String) : Str := s.toList.flatMap (fun c => utf8Encode c.toNat)

/-- Go's `s < t` on strings, which is also `bytes.Compare(s, t) < 0`, the default
key order of goleveldb: bytewise lexicographic order. -/
def bytesLess : Str → Str → Bool
  | [], [] => false
  | [], _ :: _ => true
  | _ :: _, [] => false
  | a :: as, b :: bs => if a < b then true else if b < a then false else bytesLess as bs

/-- Go's `strings.HasPrefix(s, pre)`. -/
def HasPrefix : Str → Str → Bool
  | _, [] => true
  | [], _ :: _ => false
  | a :: as, b :: bs => if a = b then HasPrefix as bs else false

/-- Go's `strings.TrimPrefix(s, pre)`: `s` without the leading `pre`, or `s`
itself when it does not start with `pre`. -/
def TrimPrefix (s pre : Str) : Str :=
  if HasPrefix s pre then s.drop pre.length else s

/-- The builtin-shadowing helper `min` of the source, on Go `int`s. -/
def min (a b : Int) : Int :=
  if a < b then a else b

/-- Go's slice expression `s[:n]` for `0 ≤ n ≤ len(s)`. -/
def sliceTo (s : Str) (n : Int) : Str := s.take n.toNat

/-! ## Library functions taken as parameters -/

/-- The library functions the lookup engine calls.  `LooseIndexString s pat` is the
start index returned by `search.New(language.English, search.Loose).IndexString(s, pat)`,
`-1` when `pat` does not occur in `s`. -/
structure GoLib where
  ToLower : Str → Str
  TrimSpace : Str → Str
  LooseIndexString : Str → Str → Int

/-! ## Data model -/

structure Config where
  WorkerCount : Int
  BatchSize : Int
  BufferSize : Int
deriving DecidableEq, Repr

/-- The counters of `Metrics` (`int64`); the wall-clock `ProcessingTime` is left out. -/
structure Metrics where
  ProcessedRecords : Int
  MatchedRecords : Int
deriving DecidableEq, Repr

structure Record where
  Name : Str
  Result : Bool
  MatchedValue : Str
  MatchType : Str
deriving DecidableEq, Repr

structure CacheEntry where
  matchedValue : Str
  matchType : Str
deriving DecidableEq, Repr

/-- The two `uint64` counters of the cache. -/
structure CacheStats where
  hits : Nat
  misses : Nat
deriving DecidableEq, Repr

/-- The server: `db` is the content of the goleveldb store, its keys in ascending
bytewise order (every stored value is the one-byte marker `{1}`); `matchCache` is
the content of the `sync.Map`. -/
structure Server where
  db : List Str
  matcher : Str → Str → Int
  config : Config
  matchCache : List (Str × CacheEntry)
  cacheStats : CacheStats

/-! ## The ordered store -/

/-- One `Put` applied to the store: the key is inserted at its place in key order;
a key already present is overwritten (same marker value), so it stays once. -/
def dbPut : List Str → Str → List Str
  | [], key => [key]
  | k :: ks, key =>
    if bytesLess key k then key :: k :: ks
    else if key = k then k :: ks
    else k :: dbPut ks key

/-- `db.Write(batch)`: the puts of the batch, applied in order. -/
def dbWrite (db : List Str) (batch : List Str) : List Str :=
  batch.foldl dbPut db

/-- The limit of `util.BytesPrefix`, computed on the reversed prefix: the last
byte below `0xff` is incremented and everything after it is dropped; no limit
when every byte is `0xff`. -/
def bytesPrefixLimit : List Nat → Option Str
  | [] => none
  | c :: rest => if c < 0xff then some (((c + 1) :: rest).reverse) else bytesPrefixLimit rest

/-- The key range `util.BytesPrefix(prefix)`: start and optional limit. -/
def BytesPrefix (pre : Str) : Str × Option Str :=
  (pre, bytesPrefixLimit pre.reverse)

/-- Whether a key lies in a range: `Start ≤ key` and `key < Limit`. -/
def inRange (r : Str × Option Str) (key : Str) : Bool :=
  !bytesLess key r.1 &&
    (match r.2 with
     | none => true
     | some limit => bytesLess key limit)

/-- The keys `db.NewIterator(range, nil)` yields through `Next`/`Key`: the stored
keys of the range, in ascending key order. -/
def NewIterator (db : List Str) (r : Str × Option Str) : List Str :=
  db.filter (inRange r)

/-! ## `loadLookupData` -/

/-- The body of the scanner loop of `loadLookupData` for one line: the batch
after the line. -/
def loadLine (L : GoLib) (batch : List Str) (line : Str) : List Str :=
  let value := L.ToLower (L.TrimSpace line)
  if value.length > 0 then
    let prefixLen := min 3 value.length
    let pre := sliceTo value prefixLen
    let key := pre ++ bytes ":" ++ value
    batch ++ [key]
  else batch

/-- `loadLookupData` on the lines the scanner yields: one batch, written at the end. -/
def loadLookupData (L : GoLib) (s : Server) (lines : List Str) : Server :=
  let batch := lines.foldl (loadLine L) []
  { s with db := dbWrite s.db batch }

/-- `NewServer`: the store as found on disk, the loose matcher, an empty cache and
zero counters, then the load of the lookup file. -/
def NewServer (L : GoLib) (store : List Str) (lines : List Str) (config : Config) : Server :=
  loadLookupData L
    { db := store, matcher := L.LooseIndexString, config := config,
      matchCache := [], cacheStats := ⟨0, 0⟩ } lines

/-! ## `performLookup` and `lookupWithCache` -/

/-- The iterator loop of `performLookup` over the keys still to come. -/
def scanLoop (s : Server) (searchValue pre : Str) : List Str → Bool × Str × Str
  | [] => (false, [], [])
  | key :: rest =>
    let lookupValue := TrimPrefix key (pre ++ bytes ":")
    if s.matcher searchValue lookupValue ≠ -1 then
      (true, lookupValue, bytes "contains_lookup")
    else if s.matcher lookupValue searchValue ≠ -1 then
      (true, lookupValue, bytes "lookup_contains")
    else scanLoop s searchValue pre rest

def performLookup (L : GoLib) (s : Server) (searchValue : Str) : Bool × Str × Str :=
  let searchValue := L.ToLower searchValue
  if searchValue.length = 0 then (false, [], [])
  else
    let prefixLen := min 3 searchValue.length
    let pre := sliceTo searchValue prefixLen
    scanLoop s searchValue pre (NewIterator s.db (BytesPrefix (pre ++ bytes ":")))

/-- `matchCache.Load`. -/
def cacheLoad : List (Str × CacheEntry) → Str → Option CacheEntry
  | [], _ => none
  | (k, e) :: rest, key => if k = key then some e else cacheLoad rest key

/-- `matchCache.Store`: the entry of the key is set, replacing an older one. -/
def cacheStore (m : List (Str × CacheEntry)) (key : Str) (e : CacheEntry) :
    List (Str × CacheEntry) :=
  (key, e) :: m.filter (fun p => p.1 ≠ key)

/-- `atomic.AddUint64(&c, 1)`. -/
def addUint64 (c : Nat) : Nat := (c + 1) % 2 ^ 64

/-- `lookupWithCache`: the server after the call and the returned triple. -/
def lookupWithCache (L : GoLib) (s : Server) (searchValue : Str) :
    Server × (Bool × Str × Str) :=
  match cacheLoad s.matchCache searchValue with
  | some cacheEntry =>
    ({ s with cacheStats := { s.cacheStats with hits := addUint64 s.cacheStats.hits } },
      (true, cacheEntry.matchedValue, cacheEntry.matchType))
  | none =>
    let s1 := { s with cacheStats := { s.cacheStats with misses := addUint64 s.cacheStats.misses } }
    let r := performLookup L s1 searchValue
    if r.1 then
      ({ s1 with matchCache := cacheStore s1.matchCache searchValue ⟨r.2.1, r.2.2⟩ }, r)
    else (s1, r)

/-! ## A reference instantiation of the library -/

/-- ASCII lower-casing of one byte. -/
def asciiLower (c : Nat) : Nat :=
  if 65 ≤ c ∧ c ≤ 90 then c + 32 else c

/-- ASCII white space, the `asciiSpace` table of package `strings`. -/
def asciiSpace (c : Nat) : Bool :=
  c = 9 || c = 10 || c = 11 || c = 12 || c = 13 || c = 32

/-- First index at which `pat` occurs in `s` as a run of bytes, `-1` if none. -/
def indexBytes : Str → Str → Int
  | [], pat => if pat = [] then 0 else -1
  | a :: as, pat =>
    if HasPrefix (a :: as) pat then 0
    else
      let r := indexBytes as pat
      if r = -1 then -1 else r + 1

/-- The library on ASCII text: byte-wise lower-casing, trimming of ASCII white
space, and exact substring search for the matcher. -/
def refLib : GoLib where
  ToLower := fun s => s.map asciiLower
  TrimSpace := fun s => ((s.dropWhile asciiSpace).reverse.dropWhile asciiSpace).reverse
  LooseIndexString := indexBytes

/-! ## Notions used to state the properties -/

/-- Keys in strictly ascending bytewise order. -/
def Ascending (keys : List Str) : Prop :=
  keys.Pairwise (fun a b => bytesLess a b = true)

/-- The server after a sequence of calls of `lookupWithCache`, one per query. -/
def lookups (L : GoLib) (s : Server) (qs : List Str) : Server :=
  qs.foldl (fun s q => (lookupWithCache L s q).1) s

/-- The stored keys beginning with the first three bytes of `q` (all of `q` when it
is shorter) followed by `":"`, in the order of the store. -/
def bucket (db : List Str) (q : Str) : List Str :=
  db.filter (fun k => HasPrefix k (q.take 3 ++ bytes ":"))

/-- The candidate a key of the bucket of `q` stands for: the key without the
prefix of `q` and the separator. -/
def candidate (q key : Str) : Str :=
  key.drop ((q.take 3).length + 1)

/-- The containment test of the matcher: `pat` occurs in `str`. -/
def Contained (s : Server) (pat str : Str) : Prop :=
  s.matcher str pat ≠ -1

instance (s : Server) (pat str : Str) : Decidable (Contained s pat str) := by
  unfold Contained
  exact inferInstance

/-- Either containment between the query and a candidate. -/
def Matches (s : Server) (q c : Str) : Prop :=
  Contained s c q ∨ Contained s q c

instance (s : Server) (q c : Str) : Decidable (Matches s q c) := by
  unfold Matches
  exact inferInstance

/-- A server with an empty store and cache, on the reference library. -/
def emptyServer (config : Config) : Server :=
  { db := [], matcher := refLib.LooseIndexString, config := config,
    matchCache := [], cacheStats := ⟨0, 0⟩ }

/-- Every cache entry records what `performLookup` returns for its key. -/
def CacheOK (L : GoLib) (s : Server) : Prop :=
  ∀ q e, cacheLoad s.matchCache q = some e →
    performLookup L s q = (true, e.matchedValue, e.matchType)


/-! ## The batch pipeline of `processInputFile` -/

/-- Two's-complement wrap-around of Go `int` and `int64` arithmetic. -/
def wrapInt64 (x : Int) : Int :=
  (x + 2 ^ 63) % 2 ^ 64 - 2 ^ 63

/-- What `sort.Slice(records, func(i, j) bool { return records[i].Name < records[j].Name })`
does to the records: some rearrangement in which no record is followed by one
with a smaller name.  The sort is not stable, so the order of records with equal
names is left open. -/
structure SortSlice where
  sort : List Record → List Record
  perm : ∀ rs, (sort rs).Perm rs
  sorted : ∀ rs, (sort rs).Pairwise (fun a b => bytesLess b.Name a.Name = false)

/-- One evaluation of the splitter loop `for i := 0; i < len(records); i += batchSize`. -/
inductive Iter where
  /-- The loop condition fails: the loop ends and `recordsChan` is closed. -/
  | stop
  /-- The slice expression `records[i:end]` is out of range: run-time panic. -/
  | panic
  /-- The loop body sends `records[i:end]`; `next` is `i` after `i += batchSize`. -/
  | send (chunk : List Record) (next : Int)
deriving DecidableEq, Repr

/-- The loop condition and body of the splitter at loop variable `i`. -/
def splitIter (records : List Record) (batchSize : Int) (i : Int) : Iter :=
  if i < records.length then
    let end0 := wrapInt64 (i + batchSize)
    let end1 := if end0 > records.length then (records.length : Int) else end0
    if 0 ≤ i ∧ i ≤ end1 then
      Iter.send ((records.drop i.toNat).take (end1 - i).toNat) (wrapInt64 (i + batchSize))
    else Iter.panic
  else Iter.stop

/-- How a run of the splitter loop ends within a number of iterations. -/
inductive SplitEnd where
  | closed
  | panicked
  | running
deriving DecidableEq, Repr

/-- The splitter goroutine run for at most `fuel` evaluations of the loop
condition, from loop variable `i`: the chunks sent in order, and whether the loop
ended (`recordsChan` closed), panicked, or is still running. -/
def splitter (records : List Record) (batchSize : Int) : Nat → Int → List (List Record) × SplitEnd
  | 0, _ => ([], SplitEnd.running)
  | fuel + 1, i =>
    match splitIter records batchSize i with
    | Iter.stop => ([], SplitEnd.closed)
    | Iter.panic => ([], SplitEnd.panicked)
    | Iter.send chunk next =>
      (chunk :: (splitter records batchSize fuel next).1,
        (splitter records batchSize fuel next).2)

/-- Lines 134 to 140 of `lookupWithCache`: the probe of the cache.  On a hit the
hit counter is incremented and the cached triple is the result; on a miss the miss
counter is incremented. -/
def cacheProbe (s : Server) (searchValue : Str) : Server × Option (Bool × Str × Str) :=
  match cacheLoad s.matchCache searchValue with
  | some cacheEntry =>
    ({ s with cacheStats := { s.cacheStats with hits := addUint64 s.cacheStats.hits } },
      some (true, cacheEntry.matchedValue, cacheEntry.matchType))
  | none =>
    ({ s with cacheStats := { s.cacheStats with misses := addUint64 s.cacheStats.misses } }, none)

/-- Lines 141 to 150 of `lookupWithCache`: the scan after a miss and the store of
a found result. -/
def lookupAfterMiss (L : GoLib) (s : Server) (searchValue : Str) : Server × (Bool × Str × Str) :=
  let r := performLookup L s searchValue
  if r.1 then
    ({ s with matchCache := cacheStore s.matchCache searchValue ⟨r.2.1, r.2.2⟩ }, r)
  else (s, r)

/-- The assignments of the worker to `processedBatch[i]`. -/
def fillRecord (r : Record) (res : Bool × Str × Str) : Record :=
  { r with Result := res.1, MatchedValue := res.2.1, MatchType := res.2.2 }

/-- The two `atomic.AddInt64` of the worker for one record. -/
def countRecord (m : Metrics) (found : Bool) : Metrics :=
  { ProcessedRecords := wrapInt64 (m.ProcessedRecords + 1)
    MatchedRecords := if found then wrapInt64 (m.MatchedRecords + 1) else m.MatchedRecords }

/-- `processedBatch` with the result written into position `i`. -/
def fillAt (batch : List Record) (i : Nat) (res : Bool × Str × Str) : List Record :=
  match batch[i]? with
  | some r => batch.set i (fillRecord r res)
  | none => batch

/-- The name the worker looks up for position `i`: `strings.ToLower(processedBatch[i].Name)`. -/
def queryAt (L : GoLib) (batch : List Record) (i : Nat) : Str :=
  match batch[i]? with
  | some r => L.ToLower r.Name
  | none => []

/-- Where a worker goroutine stands. -/
inductive Worker where
  /-- At `for batch := range recordsChan`, waiting for a chunk. -/
  | idle
  /-- In the inner loop, before the call of `lookupWithCache` for position `i`;
  with `i = len(processedBatch)`, at the send to `resultsChan`. -/
  | busy (processedBatch : List Record) (i : Nat)
  /-- Inside `lookupWithCache` for position `i`, after the cache missed. -/
  | missed (processedBatch : List Record) (i : Nat)
  /-- The channel loop has ended and `wg.Done()` has run. -/
  | exited
deriving DecidableEq, Repr

/-- One scheduling decision: which goroutine takes its next step. -/
inductive Action where
  | produce
  | work (w : Nat)
  | collect
  | finish
deriving DecidableEq, Repr

/-- The state of one call of `processInputFile`.  `records` is the sorted slice,
`splitI` the loop variable of the splitter, `output` the records the main
goroutine writes to the file, once it has passed `wg.Wait()`. -/
structure Pipeline where
  server : Server
  metrics : Metrics
  records : List Record
  splitI : Int
  panicked : Bool
  recordsChan : List (List Record)
  recordsClosed : Bool
  workers : List Worker
  resultsChan : List (List Record)
  results : List Record
  output : Option (List Record)

/-- Whether a send on a channel of capacity `BufferSize` can complete; an
unbuffered channel hands over one element at a time. -/
def hasRoom (bufferSize : Int) (chan : List (List Record)) : Bool :=
  decide ((chan.length : Int) < max bufferSize 1)

/-- Every worker has left its loop, so `wg.Wait()` returns. -/
def allExited (p : Pipeline) : Bool :=
  p.workers.all (fun w => decide (w = Worker.exited))

/-- The state after `sort.Slice`, the two `make(chan ...)` and the `go` statements.
A negative `BufferSize` makes `make` panic. -/
def initPipeline (S : SortSlice) (s : Server) (records : List Record) : Option Pipeline :=
  if s.config.BufferSize < 0 then none
  else some
    { server := s, metrics := ⟨0, 0⟩, records := S.sort records, splitI := 0,
      panicked := false, recordsChan := [], recordsClosed := false,
      workers := List.replicate s.config.WorkerCount.toNat Worker.idle,
      resultsChan := [], results := [], output := none }

/-- The next step of the splitter goroutine. -/
def stepProduce (p : Pipeline) : Pipeline :=
  if p.recordsClosed then p
  else
    match splitIter p.records p.server.config.BatchSize p.splitI with
    | Iter.stop => { p with recordsClosed := true }
    | Iter.panic => { p with panicked := true }
    | Iter.send chunk next =>
      if hasRoom p.server.config.BufferSize p.recordsChan then
        { p with recordsChan := p.recordsChan ++ [chunk], splitI := next }
      else p

/-- The next step of worker `w`. -/
def stepWork (L : GoLib) (p : Pipeline) (w : Nat) : Pipeline :=
  match p.workers[w]? with
  | none => p
  | some Worker.exited => p
  | some Worker.idle =>
    match p.recordsChan with
    | chunk :: rest =>
      { p with recordsChan := rest, workers := p.workers.set w (Worker.busy chunk 0) }
    | [] =>
      if p.recordsClosed then { p with workers := p.workers.set w Worker.exited } else p
  | some (Worker.busy batch i) =>
    if i < batch.length then
      match cacheProbe p.server (queryAt L batch i) with
      | (s1, some res) =>
        { p with
          server := s1
          metrics := countRecord p.metrics res.1
          workers := p.workers.set w (Worker.busy (fillAt batch i res) (i + 1)) }
      | (s1, none) =>
        { p with server := s1, workers := p.workers.set w (Worker.missed batch i) }
    else if hasRoom p.server.config.BufferSize p.resultsChan then
      { p with resultsChan := p.resultsChan ++ [batch], workers := p.workers.set w Worker.idle }
    else p
  | some (Worker.missed batch i) =>
    match lookupAfterMiss L p.server (queryAt L batch i) with
    | (s1, res) =>
      { p with
        server := s1
        metrics := countRecord p.metrics res.1
        workers := p.workers.set w (Worker.busy (fillAt batch i res) (i + 1)) }

/-- The next step of the collector goroutine: it receives a chunk and appends it
to `results`.  The two are one step here; in the code the append follows the
receive, so between collector and main goroutine the code has the interleavings
of this model and more: every run of this model is a run of the code, and a
chunk the collector of the code has received and not yet appended is, for
`results` and for what the main goroutine writes, like a chunk still in
`resultsChan` here.  Nothing below concludes from an empty `resultsChan` that
`results` is complete. -/
def stepCollect (p : Pipeline) : Pipeline :=
  match p.resultsChan with
  | batch :: rest => { p with resultsChan := rest, results := p.results ++ batch }
  | [] => p

/-- The main goroutine passes `wg.Wait()` and goes on to write `results`. -/
def stepFinish (p : Pipeline) : Pipeline :=
  if allExited p && p.output.isNone then { p with output := some p.results } else p

/-- One step of the goroutine the scheduler picks; a goroutine that is blocked or
has ended leaves the state as it is, and nothing runs after a panic. -/
def step (L : GoLib) (p : Pipeline) (a : Action) : Pipeline :=
  if p.panicked then p
  else
    match a with
    | Action.produce => stepProduce p
    | Action.work w => stepWork L p w
    | Action.collect => stepCollect p
    | Action.finish => stepFinish p

/-- The state after a schedule. -/
def run (L : GoLib) (p : Pipeline) (sched : List Action) : Pipeline :=
  sched.foldl (step L) p

/-- A call of `processInputFile` on the parsed records, its goroutines run under a
schedule: the state reached, or nothing when `make` panics at the start. -/
def processInputFile (L : GoLib) (S : SortSlice) (s : Server) (records : List Record)
    (sched : List Action) : Option Pipeline :=
  (initPipeline S s records).map (fun p0 => run L p0 sched)

/-- The records the workers have sent to `resultsChan` so far, collected or not. -/
def emitted (p : Pipeline) : List Record :=
  p.results ++ p.resultsChan.flatten

/-- The record a worker makes of an input record: the three result fields are
those of the uncached `performLookup` of the lower-cased name. -/
def expected (L : GoLib) (s : Server) (r : Record) : Record :=
  fillRecord r (performLookup L s (L.ToLower r.Name))

/-- Insertion of a record before the first record with a larger name. -/
def insertByName (r : Record) : List Record → List Record
  | [] => [r]
  | x :: xs => if bytesLess r.Name x.Name then r :: x :: xs else x :: insertByName r xs

/-- Insertion sort by name, one admissible result of `sort.Slice`. -/
def sortByName : List Record → List Record
  | [] => []
  | r :: rs => insertByName r (sortByName rs)

/-! ## Counting notions for the pipeline -/

/-- Number of records held in a channel. -/
def lens (chan : List (List Record)) : Nat :=
  chan.flatten.length

/-- Number of records of a list with `Result = true`. -/
def cnt (l : List Record) : Nat :=
  l.countP (fun r => r.Result)

/-- Records of the chunk a worker holds. -/
def wsize : Worker → Nat
  | Worker.busy b _ => b.length
  | Worker.missed b _ => b.length
  | _ => 0

/-- Records of its chunk a worker has processed. -/
def wdone : Worker → Nat
  | Worker.busy _ i => i
  | Worker.missed _ i => i
  | _ => 0

/-- Processed records of its chunk a worker has found a match for. -/
def wmatched : Worker → Nat
  | Worker.busy b i => cnt (b.take i)
  | Worker.missed b i => cnt (b.take i)
  | _ => 0

/-- The loop index of a worker stays within its chunk. -/
def WorkerWF : Worker → Prop
  | Worker.busy b i => i ≤ b.length
  | Worker.missed b i => i < b.length
  | _ => True

/-- The counting invariant of the pipeline, for a configuration `cfg` and the
sorted records `recs`: no record is lost or duplicated on its way from the slice
through the channels and workers to `results`, and the two counters of `Metrics`
count the processed records and those with a match. -/
structure CountInv (cfg : Config) (recs : List Record) (p : Pipeline) : Prop where
  config : p.server.config = cfg
  records : p.records = recs
  notPanicked : p.panicked = false
  split : ∃ i : Nat, p.splitI = (i : Int) ∧ (i = 0 ∨ cfg.BatchSize ≤ i) ∧
    p.results.length + lens p.resultsChan + (p.workers.map wsize).sum + lens p.recordsChan +
        (recs.length - i) = recs.length ∧
    (p.recordsClosed = true → recs.length ≤ i)
  processed : p.metrics.ProcessedRecords =
    ((p.results.length + lens p.resultsChan + (p.workers.map wdone).sum : Nat) : Int)
  matched : p.metrics.MatchedRecords =
    ((cnt p.results + cnt p.resultsChan.flatten + (p.workers.map wmatched).sum : Nat) : Int)
  exited : Worker.exited ∈ p.workers → p.recordsClosed = true ∧ p.recordsChan = []
  wf : ∀ w ∈ p.workers, WorkerWF w
  nworkers : p.workers.length = cfg.WorkerCount.toNat

/-! ## A measure of the work left in the pipeline -/

/-- Weight of the chunks waiting in `recordsChan`. -/
def chanWeight (chan : List (List Record)) : Nat :=
  2 * lens chan + 3 * chan.length

/-- Weight of a worker: the steps it still needs for its chunk, and its exit. -/
def wmu : Worker → Nat
  | Worker.idle => 1
  | Worker.busy b i => 3 + 2 * (b.length - i)
  | Worker.missed b i => 2 + 2 * (b.length - i)
  | Worker.exited => 0

/-- The work left before every worker has exited; each step of a goroutine that
is not blocked makes it smaller. -/
def remaining (p : Pipeline) : Nat :=
  6 * (p.records.length - p.splitI.toNat) + chanWeight p.recordsChan +
    (p.workers.map wmu).sum + p.resultsChan.length + (if p.recordsClosed then 0 else 1)

/-! ## Provenance notions for the pipeline -/

/-- A processed record: an input record with its three result fields filled in
from the uncached lookup of its lower-cased name. -/
def Done (L : GoLib) (s0 : Server) (input : List Record) (r : Record) : Prop :=
  ∃ r0 ∈ input, r = expected L s0 r0

/-- In the chunk of a worker the positions below its loop index are processed
records and the others are input records. -/
def WorkerOut (L : GoLib) (s0 : Server) (input : List Record) : Worker → Prop
  | Worker.busy b i =>
    ∀ (j : Nat) (r : Record), b[j]? = some r → (j < i → Done L s0 input r) ∧ (i ≤ j → r ∈ input)
  | Worker.missed b i =>
    ∀ (j : Nat) (r : Record), b[j]? = some r → (j < i → Done L s0 input r) ∧ (i ≤ j → r ∈ input)
  | _ => True

/-- The provenance invariant of the pipeline: the store and the matcher are those
of the server `s0` the call started with, the cache is sound, every record on the
input side is an input record and every record on the output side is a processed
record. -/
structure OutInv (L : GoLib) (s0 : Server) (input : List Record) (p : Pipeline) : Prop where
  db : p.server.db = s0.db
  matcher : p.server.matcher = s0.matcher
  cache : CacheOK L p.server
  recs : ∀ r ∈ p.records, r ∈ input
  chanIn : ∀ c ∈ p.recordsChan, ∀ r ∈ c, r ∈ input
  workers : ∀ w ∈ p.workers, WorkerOut L s0 input w
  chanOut : ∀ c ∈ p.resultsChan, ∀ r ∈ c, Done L s0 input r
  results : ∀ r ∈ p.results, Done L s0 input r
  output : ∀ out, p.output = some out → ∀ r ∈ out, Done L s0 input r

/-! ## Notions for the index contents, the scan and its faults -/

/-- The normalized value of a line of the lookup file: trimmed, then lower-cased. -/
def normalized (L : GoLib) (line : Str) : Str :=
  L.ToLower (L.TrimSpace line)

/-- The key under which a value belongs: its first three bytes (all of it when it
is shorter), the separator, the value. -/
def keyOf (value : Str) : Str :=
  value.take 3 ++ bytes ":" ++ value

/-- The candidates the prefix scan of `performLookup` yields for a query: the
`lookupValue` of every key of the iterator, in order. -/
def scanCandidates (L : GoLib) (s : Server) (searchValue : Str) : List Str :=
  let searchValue := L.ToLower searchValue
  let prefixLen := min 3 searchValue.length
  let pre := sliceTo searchValue prefixLen
  (NewIterator s.db (BytesPrefix (pre ++ bytes ":"))).map
    (fun key => TrimPrefix key (pre ++ bytes ":"))

/-- The candidates the iterator loop applies the matcher to, in order: the loop
stops at the first candidate that passes a test. -/
def scanExamined (s : Server) (searchValue pre : Str) : List Str → List Str
  | [] => []
  | key :: rest =>
    let lookupValue := TrimPrefix key (pre ++ bytes ":")
    if s.matcher searchValue lookupValue ≠ -1 then [lookupValue]
    else if s.matcher lookupValue searchValue ≠ -1 then [lookupValue]
    else lookupValue :: scanExamined s searchValue pre rest

/-- The candidates a call of `performLookup` examines; none when it returns at the
length test, before the iterator is made. -/
def performLookupExamined (L : GoLib) (s : Server) (searchValue : Str) : List Str :=
  let searchValue := L.ToLower searchValue
  if searchValue.length = 0 then []
  else
    let prefixLen := min 3 searchValue.length
    let pre := sliceTo searchValue prefixLen
    scanExamined s searchValue pre (NewIterator s.db (BytesPrefix (pre ++ bytes ":")))

/-- The candidates a call of `lookupWithCache` examines: none on a cache hit, those
of `performLookup` on a miss. -/
def lookupWithCacheExamined (L : GoLib) (s : Server) (searchValue : Str) : List Str :=
  match cacheLoad s.matchCache searchValue with
  | some _ => []
  | none => performLookupExamined L s searchValue

/-- What an iterator yields before `Next` returns false: every key of the range
when the iteration runs to its end, only the first `n` keys when an I/O error
stops it after `n` keys (the error is then what `iter.Error()` would report). -/
def iterYield (keys : List Str) : Option Nat → List Str
  | none => keys
  | some n => keys.take n

/-- The code of `performLookup` on an iterator that may fail: the loop runs over
the keys the iterator yields and the function returns its triple; `iter.Error()`
is not consulted and there is no error result. -/
def performLookupFaulty (L : GoLib) (s : Server) (searchValue : Str) (fault : Option Nat) :
    Bool × Str × Str :=
  let searchValue := L.ToLower searchValue
  if searchValue.length = 0 then (false, [], [])
  else
    let prefixLen := min 3 searchValue.length
    let pre := sliceTo searchValue prefixLen
    scanLoop s searchValue pre
      (iterYield (NewIterator s.db (BytesPrefix (pre ++ bytes ":"))) fault)

/-- A schedule of `demoPipeline` in which the main goroutine passes `wg.Wait()`
and takes `results` while the second chunk is still in `resultsChan`: both
workers have exited, the collector has not yet received the chunk. -/
def raceSchedule : List Action :=
  [Action.produce, Action.work 0, Action.work 0, Action.work 0, Action.produce,
   Action.work 1, Action.work 1, Action.work 1, Action.work 0, Action.work 0,
   Action.work 0, Action.collect, Action.produce, Action.work 0, Action.work 1,
   Action.work 1, Action.finish, Action.collect]

/-! ## The scanner of `loadLookupData` -/

/-- `bufio.MaxScanTokenSize`: the buffer of a scanner made by `bufio.NewScanner`
grows to this size and no further. -/
def maxScanTokenSize : Nat := 64 * 1024

/-- `dropCR` of `bufio.ScanLines`: one trailing carriage return is dropped. -/
def dropCR (line : Str) : Str :=
  if line.getLast? = some 13 then line.dropLast else line

/-- Whether a line of `n` bytes is too long for a buffer limited to `limit` bytes:
the buffer is full before the newline or the end of the file is seen. -/
def tooLong (limit : Option Nat) (n : Nat) : Bool :=
  match limit with
  | some m => decide (m ≤ n)
  | none => false

/-- Splitting of file content into lines as `bufio.ScanLines` does it: a line ends
at a newline (byte 10), the last line also at the end of the file when it is not
empty, and one trailing carriage return is dropped.  `cur` holds the bytes of the
current line read so far, last byte first.  With a buffer limit, a line that is
too long makes `Scan` return false (`bufio.ErrTooLong`): no token is yielded for
it or for anything after it. -/
def splitLines (limit : Option Nat) : Str → Str → List Str
  | cur, [] =>
    if cur = [] then []
    else if tooLong limit cur.length then []
    else [dropCR cur.reverse]
  | cur, b :: rest =>
    if b = 10 then
      if tooLong limit cur.length then []
      else dropCR cur.reverse :: splitLines limit [] rest
    else splitLines limit (b :: cur) rest

/-- The lines of a file. -/
def fileLines (data : Str) : List Str :=
  splitLines none [] data

/-- The strings `scanner.Text()` yields in the loop `for scanner.Scan()` of
`loadLookupData`, for a scanner made by `bufio.NewScanner` on the file. -/
def scanLines (data : Str) : List Str :=
  splitLines (some maxScanTokenSize) [] data

/-- `loadLookupData` on the content of the lookup file: the loop runs over what the
scanner yields, `scanner.Err()` is not consulted, and the batch is written. -/
def loadLookupFile (L : GoLib) (s : Server) (data : Str) : Server :=
  loadLookupData L s (scanLines data)

/-- A line of 65536 letters `a`. -/
def longLine : Str := List.replicate 65536 97

/-- A lookup file of three lines: `zz`, a line of 65536 bytes, and `ab`. -/
def longLineFile : Str :=
  bytes "zz" ++ [10] ++ (longLine ++ ([10] ++ (bytes "ab" ++ [10])))

/-! ## Byte order and prefixes -/

theorem bytesLess_irrefl (a : Str) : bytesLess a a = false := by
  induction a with
  | nil => rfl
  | cons x xs ih => simp [bytesLess, ih]

theorem bytesLess_trans : ∀ (a b c : Str), bytesLess a b = true → bytesLess b c = true →
    bytesLess a c = true
  | [], [], _, h, _ => by simp [bytesLess] at h
  | [], _ :: _, [], _, h => by simp [bytesLess] at h
  | [], _ :: _, _ :: _, _, _ => by simp [bytesLess]
  | _ :: _, [], _, h, _ => by simp [bytesLess] at h
  | _ :: _, _ :: _, [], _, h => by simp [bytesLess] at h
  | x :: xs, y :: ys, z :: zs, h1, h2 => by
    simp only [bytesLess] at h1 h2 ⊢
    by_cases hxy : x < y
    · by_cases hyz : y < z
      · have : x < z := by omega
        simp [this]
      · by_cases hzy : z < y
        · simp [hyz, hzy] at h2
        · have : x < z := by omega
          simp [this]
    · by_cases hyx : y < x
      · simp [hxy, hyx] at h1
      · have hxy' : x = y := by omega
        subst hxy'
        simp only [hxy, if_false] at h1
        by_cases hyz : x < z
        · simp [hyz]
        · by_cases hzy : z < x
          · simp [hyz, hzy] at h2
          · simp only [hyz, hzy, if_false] at h2 ⊢
            exact bytesLess_trans xs ys zs h1 h2

theorem bytesLess_total : ∀ (a b : Str), bytesLess a b = false → a ≠ b → bytesLess b a = true
  | [], [], _, h => by simp at h
  | [], _ :: _, h, _ => by simp [bytesLess] at h
  | _ :: _, [], _, _ => by simp [bytesLess]
  | x :: xs, y :: ys, h1, h2 => by
    simp only [bytesLess] at h1 ⊢
    by_cases hxy : x < y
    · simp [hxy] at h1
    · by_cases hyx : y < x
      · simp [hyx]
      · have hxy' : x = y := by omega
        subst hxy'
        simp only [hxy, if_false] at h1 ⊢
        exact bytesLess_total xs ys h1 (by intro h; exact h2 (by rw [h]))

theorem HasPrefix_iff (s pre : Str) : HasPrefix s pre = true ↔ ∃ t, s = pre ++ t := by
  induction pre generalizing s with
  | nil => simp [HasPrefix]
  | cons b bs ih =>
    cases s with
    | nil => simp [HasPrefix]
    | cons a as =>
      simp only [HasPrefix]
      by_cases hab : a = b
      · subst hab
        simp [ih]
      · simp [hab]

theorem TrimPrefix_append (pre t : Str) : TrimPrefix (pre ++ t) pre = t := by
  have h : HasPrefix (pre ++ t) pre = true := (HasPrefix_iff _ _).2 ⟨t, rfl⟩
  simp [TrimPrefix, h]

theorem TrimPrefix_of_HasPrefix (s pre : Str) (h : HasPrefix s pre = true) :
    TrimPrefix s pre = s.drop pre.length := by
  simp [TrimPrefix, h]

theorem bytesLess_nil_right (a : Str) : bytesLess a [] = false := by
  cases a <;> rfl

theorem HasPrefix_nil (a : Str) : HasPrefix a [] = true := by
  cases a <;> rfl

theorem range_core (p : Str) (c : Nat) (k : Str) :
    (!bytesLess k (p ++ [c]) && bytesLess k (p ++ [c + 1])) = HasPrefix k (p ++ [c]) := by
  induction p generalizing k with
  | nil =>
    cases k with
    | nil => simp [bytesLess, HasPrefix]
    | cons a as =>
      simp only [List.nil_append, bytesLess, HasPrefix, bytesLess_nil_right, HasPrefix_nil]
      by_cases h1 : a < c
      · have : a ≠ c := by omega
        simp [h1, this]
      · by_cases h2 : c < a
        · have h3 : ¬ a < c + 1 := by omega
          have h4 : a ≠ c := by omega
          simp [h1, h2, h3, h4]
        · have h3 : a = c := by omega
          subst h3
          simp
  | cons b bs ih =>
    cases k with
    | nil => simp [bytesLess, HasPrefix]
    | cons a as =>
      simp only [List.cons_append, bytesLess, HasPrefix]
      by_cases hab : a < b
      · have : a ≠ b := by omega
        simp [hab, this]
      · by_cases hba : b < a
        · have : a ≠ b := by omega
          simp [hab, hba, this]
        · have : a = b := by omega
          subst this
          simp only [hab, if_false, if_true]
          exact ih as

/-- The range of `util.BytesPrefix` holds exactly the keys beginning with the
prefix, when the prefix ends in a byte below `0xff`. -/
theorem inRange_BytesPrefix (p : Str) (c : Nat) (hc : c < 0xff) (k : Str) :
    inRange (BytesPrefix (p ++ [c])) k = HasPrefix k (p ++ [c]) := by
  have hlim : bytesPrefixLimit (p ++ [c]).reverse = some (p ++ [c + 1]) := by
    simp [bytesPrefixLimit, hc]
  simp only [inRange, BytesPrefix, hlim]
  exact range_core p c k

theorem bytes_colon : bytes ":" = [58] := by decide

theorem NewIterator_eq_filter (db : List Str) (p : Str) :
    NewIterator db (BytesPrefix (p ++ bytes ":")) =
      db.filter (fun k => HasPrefix k (p ++ bytes ":")) := by
  unfold NewIterator
  congr 1
  funext k
  rw [bytes_colon]
  exact inRange_BytesPrefix p 58 (by decide) k

theorem sliceTo_min (s : Str) : sliceTo s (min 3 s.length) = s.take 3 := by
  unfold sliceTo min
  split
  · simp
  · rename_i h
    have h3 : s.length ≤ 3 := by omega
    simp [List.take_of_length_le h3]

/-! ## The store stays sorted -/

theorem mem_dbPut (db : List Str) (key k : Str) : k ∈ dbPut db key ↔ k = key ∨ k ∈ db := by
  induction db with
  | nil => simp [dbPut]
  | cons x xs ih =>
    simp only [dbPut]
    split
    · simp
    · split
      · rename_i h
        subst h
        simp
      · simp [ih]
        tauto

theorem Ascending_dbPut (db : List Str) (key : Str) (h : Ascending db) :
    Ascending (dbPut db key) := by
  induction db with
  | nil => simp [dbPut, Ascending]
  | cons x xs ih =>
    unfold Ascending at h ih ⊢
    rw [List.pairwise_cons] at h
    simp only [dbPut]
    split
    · rename_i hlt
      rw [List.pairwise_cons]
      refine ⟨?_, List.pairwise_cons.2 h⟩
      intro b hb
      rcases List.mem_cons.1 hb with rfl | hb
      · exact hlt
      · exact bytesLess_trans _ _ _ hlt (h.1 b hb)
    · rename_i hlt
      split
      · exact List.pairwise_cons.2 h
      · rename_i hne
        rw [List.pairwise_cons]
        refine ⟨?_, ih h.2⟩
        intro b hb
        rcases (mem_dbPut xs key b).1 hb with rfl | hb
        · exact bytesLess_total _ _ (by simpa using hlt) hne
        · exact h.1 b hb

theorem Ascending_dbWrite (batch db : List Str) (h : Ascending db) :
    Ascending (dbWrite db batch) := by
  induction batch generalizing db with
  | nil => simpa [dbWrite] using h
  | cons k ks ih =>
    simp only [dbWrite, List.foldl_cons]
    exact ih _ (Ascending_dbPut db k h)

theorem mem_dbWrite (batch db : List Str) (k : Str) :
    k ∈ dbWrite db batch ↔ k ∈ batch ∨ k ∈ db := by
  induction batch generalizing db with
  | nil => simp [dbWrite]
  | cons x xs ih =>
    simp only [dbWrite, List.foldl_cons]
    have := ih (dbPut db x)
    simp only [dbWrite] at this
    rw [this, mem_dbPut]
    simp
    tauto

/-! ## A reference `sort.Slice` -/

theorem bytesLess_asymm (a b : Str) (h : bytesLess a b = true) : bytesLess b a = false := by
  cases hba : bytesLess b a with
  | false => rfl
  | true =>
    have := bytesLess_trans a b a h hba
    rw [bytesLess_irrefl] at this
    cases this

theorem perm_insertByName (r : Record) (l : List Record) : (insertByName r l).Perm (r :: l) := by
  induction l with
  | nil => exact List.Perm.refl _
  | cons x xs ih =>
    simp only [insertByName]
    split
    · exact List.Perm.refl _
    · exact ((List.Perm.cons x ih).trans (List.Perm.swap r x xs))

theorem perm_sortByName (l : List Record) : (sortByName l).Perm l := by
  induction l with
  | nil => exact List.Perm.refl _
  | cons x xs ih =>
    simp only [sortByName]
    exact (perm_insertByName x _).trans (List.Perm.cons x ih)

theorem sorted_insertByName (r : Record) (l : List Record)
    (h : l.Pairwise (fun a b => bytesLess b.Name a.Name = false)) :
    (insertByName r l).Pairwise (fun a b => bytesLess b.Name a.Name = false) := by
  induction l with
  | nil => simp [insertByName]
  | cons x xs ih =>
    rw [List.pairwise_cons] at h
    simp only [insertByName]
    split
    · rename_i hlt
      rw [List.pairwise_cons]
      refine ⟨?_, List.pairwise_cons.2 h⟩
      intro y hy
      rcases List.mem_cons.1 hy with rfl | hy
      · exact bytesLess_asymm _ _ hlt
      · cases hyr : bytesLess y.Name r.Name with
        | false => rfl
        | true =>
          have := bytesLess_trans _ _ _ hyr hlt
          rw [h.1 y hy] at this
          cases this
    · rename_i hnlt
      rw [List.pairwise_cons]
      refine ⟨?_, ih h.2⟩
      intro y hy
      rcases List.mem_cons.1 ((perm_insertByName r xs).subset hy) with rfl | hy
      · simpa using hnlt
      · exact h.1 y hy

theorem sorted_sortByName (l : List Record) :
    (sortByName l).Pairwise (fun a b => bytesLess b.Name a.Name = false) := by
  induction l with
  | nil => exact List.Pairwise.nil
  | cons x xs ih =>
    simp only [sortByName]
    exact sorted_insertByName x _ ih

/-- Insertion sort as the sort of the pipeline. -/
def refSort : SortSlice where
  sort := sortByName
  perm := perm_sortByName
  sorted := sorted_sortByName

/-- Three input records, as parsed from a file with only a `name` column. -/
def demoRecords : List Record :=
  [⟨bytes "Bob", false, [], []⟩, ⟨bytes "abcd", false, [], []⟩, ⟨bytes "abc", false, [], []⟩]

/-- A server loaded with two reference lines, two workers, batches of two. -/
def demoServer : Server :=
  NewServer refLib [] [bytes "abc", bytes "bo"] ⟨2, 2, 1⟩

/-- The pipeline of `demoServer` on `demoRecords` at its start. -/
def demoPipeline : Pipeline :=
  { server := demoServer, metrics := ⟨0, 0⟩, records := refSort.sort demoRecords, splitI := 0,
    panicked := false, recordsChan := [], recordsClosed := false,
    workers := [Worker.idle, Worker.idle], resultsChan := [], results := [], output := none }

/-- A schedule that takes `demoPipeline` to its end: both chunks are sent, worker 0
processes the first and worker 1 the second (its send waits for the collector),
both workers exit and the collector has taken both chunks when the main
goroutine goes on. -/
def demoSchedule : List Action :=
  [Action.produce, Action.work 0, Action.work 0, Action.work 0, Action.produce,
   Action.work 1, Action.work 1, Action.work 1, Action.work 0, Action.work 0,
   Action.work 0, Action.work 1, Action.collect, Action.produce, Action.work 0,
   Action.work 1, Action.collect, Action.work 1, Action.finish]

/-! ## The scan -/

theorem lookupWithCache_db (L : GoLib) (s : Server) (q : Str) :
    (lookupWithCache L s q).1.db = s.db := by
  unfold lookupWithCache
  split
  · rfl
  · simp only []
    split <;> rfl

theorem lookupWithCache_matcher (L : GoLib) (s : Server) (q : Str) :
    (lookupWithCache L s q).1.matcher = s.matcher := by
  unfold lookupWithCache
  split
  · rfl
  · simp only []
    split <;> rfl

theorem lookups_db (L : GoLib) (qs : List Str) (s : Server) : (lookups L s qs).db = s.db := by
  induction qs generalizing s with
  | nil => rfl
  | cons q qs ih =>
    simp only [lookups, List.foldl_cons]
    have := ih (lookupWithCache L s q).1
    simp only [lookups] at this
    rw [this, lookupWithCache_db]

theorem lookups_matcher (L : GoLib) (qs : List Str) (s : Server) :
    (lookups L s qs).matcher = s.matcher := by
  induction qs generalizing s with
  | nil => rfl
  | cons q qs ih =>
    simp only [lookups, List.foldl_cons]
    have := ih (lookupWithCache L s q).1
    simp only [lookups] at this
    rw [this, lookupWithCache_matcher]

theorem scanLoop_congr (s t : Server) (h : s.matcher = t.matcher) (sv pre : Str)
    (keys : List Str) : scanLoop s sv pre keys = scanLoop t sv pre keys := by
  induction keys with
  | nil => rfl
  | cons k ks ih => simp only [scanLoop, h, ih]

/-- The result of `performLookup` depends on the store and the matcher only. -/
theorem performLookup_congr (L : GoLib) (s t : Server) (hdb : s.db = t.db)
    (hm : s.matcher = t.matcher) (q : Str) : performLookup L s q = performLookup L t q := by
  simp only [performLookup, hdb, scanLoop_congr s t hm]

/-- What the iterator loop returns: the first key whose candidate passes one of
the two tests, if any. -/
theorem scanLoop_spec (s : Server) (sv pre : Str) (keys : List Str) :
    ((scanLoop s sv pre keys).1 = true →
      ∃ before key after, keys = before ++ key :: after ∧
        (∀ k ∈ before, ¬ Matches s sv (TrimPrefix k (pre ++ bytes ":"))) ∧
        Matches s sv (TrimPrefix key (pre ++ bytes ":")) ∧
        (scanLoop s sv pre keys).2.1 = TrimPrefix key (pre ++ bytes ":")) ∧
    ((scanLoop s sv pre keys).1 = false ↔
      ∀ k ∈ keys, ¬ Matches s sv (TrimPrefix k (pre ++ bytes ":"))) := by
  induction keys with
  | nil => simp [scanLoop]
  | cons k ks ih =>
    simp only [scanLoop]
    by_cases h1 : s.matcher sv (TrimPrefix k (pre ++ bytes ":")) = -1
    · by_cases h2 : s.matcher (TrimPrefix k (pre ++ bytes ":")) sv = -1
      · have hno : ¬ Matches s sv (TrimPrefix k (pre ++ bytes ":")) := by
          simp [Matches, Contained, h1, h2]
        simp only [h1, h2, ne_eq, not_true_eq_false, if_false]
        refine ⟨?_, ?_⟩
        · intro hf
          obtain ⟨before, key, after, hk, hb, hm, hv⟩ := ih.1 hf
          refine ⟨k :: before, key, after, by simp [hk], ?_, hm, hv⟩
          intro k' hk'
          rcases List.mem_cons.1 hk' with rfl | hk'
          · exact hno
          · exact hb k' hk'
        · rw [ih.2]
          simp [hno]
      · have hyes : Matches s sv (TrimPrefix k (pre ++ bytes ":")) := Or.inr h2
        simp only [h1, h2, ne_eq, not_true_eq_false, not_false_eq_true, if_false, if_true]
        refine ⟨fun _ => ⟨[], k, ks, rfl, by simp, hyes, rfl⟩, ?_⟩
        constructor
        · intro h
          cases h
        · intro h
          exact absurd hyes (h k (List.mem_cons_self _ _))
    · have hyes : Matches s sv (TrimPrefix k (pre ++ bytes ":")) := Or.inl h1
      simp only [h1, ne_eq, not_false_eq_true, if_true]
      refine ⟨fun _ => ⟨[], k, ks, rfl, by simp, hyes, rfl⟩, ?_⟩
      constructor
      · intro h
        cases h
      · intro h
        exact absurd hyes (h k (List.mem_cons_self _ _))

theorem TrimPrefix_bucket (db : List Str) (q k : Str) (hk : k ∈ bucket db q) :
    TrimPrefix k (q.take 3 ++ bytes ":") = candidate q k := by
  have hp : HasPrefix k (q.take 3 ++ bytes ":") = true := by
    simpa using (List.mem_filter.1 hk).2
  rw [TrimPrefix_of_HasPrefix _ _ hp, candidate, bytes_colon]
  simp

/-- `performLookup` on a lower-cased non-empty query is the iterator loop over
the bucket of the query. -/
theorem performLookup_eq_scan (L : GoLib) (s : Server) (q : Str) (hq : q ≠ [])
    (hlow : L.ToLower q = q) :
    performLookup L s q = scanLoop s q (q.take 3) (bucket s.db q) := by
  have hlen : q.length ≠ 0 := by simpa using hq
  simp only [performLookup, hlow, hlen, if_false, sliceTo_min, NewIterator_eq_filter, bucket]

theorem Ascending_bucket (db : List Str) (q : Str) (h : Ascending db) :
    Ascending (bucket db q) :=
  List.Pairwise.filter _ h

theorem Ascending_loadLookupData (L : GoLib) (s : Server) (lines : List Str)
    (h : Ascending s.db) : Ascending (loadLookupData L s lines).db := by
  simp only [loadLookupData]
  exact Ascending_dbWrite _ _ h

theorem lookupWithCache_miss (L : GoLib) (s : Server) (q : Str)
    (hmiss : cacheLoad s.matchCache q = none) :
    (lookupWithCache L s q).2 = performLookup L s q := by
  unfold lookupWithCache
  simp only [hmiss]
  have hc : performLookup L
      { s with cacheStats := { s.cacheStats with misses := addUint64 s.cacheStats.misses } } q
      = performLookup L s q := by
    apply performLookup_congr <;> rfl
  rw [hc]
  split <;> rfl

/-! ## The cache -/

theorem cacheLoad_filter_ne (m : List (Str × CacheEntry)) (k k' : Str) (h : k ≠ k') :
    cacheLoad (m.filter (fun p => p.1 ≠ k)) k' = cacheLoad m k' := by
  induction m with
  | nil => rfl
  | cons x xs ih =>
    obtain ⟨a, e⟩ := x
    rw [List.filter_cons]
    by_cases hak : a = k
    · have hd : ¬ (decide ((a, e).1 ≠ k) = true) := by simp [hak]
      have hne : a ≠ k' := by rw [hak]; exact h
      rw [if_neg hd, ih]
      simp [cacheLoad, hne]
    · have hd : decide ((a, e).1 ≠ k) = true := by simp [hak]
      rw [if_pos hd]
      simp only [cacheLoad, ih]

theorem cacheLoad_store (m : List (Str × CacheEntry)) (k k' : Str) (e : CacheEntry) :
    cacheLoad (cacheStore m k e) k' = if k = k' then some e else cacheLoad m k' := by
  unfold cacheStore
  by_cases h : k = k'
  · simp [cacheLoad, h]
  · simp only [cacheLoad, h, if_false]
    exact cacheLoad_filter_ne m k k' h

theorem lookupWithCache_hit (L : GoLib) (s : Server) (q : Str) (e : CacheEntry)
    (h : cacheLoad s.matchCache q = some e) :
    lookupWithCache L s q =
      ({ s with cacheStats := { s.cacheStats with hits := addUint64 s.cacheStats.hits } },
        (true, e.matchedValue, e.matchType)) := by
  unfold lookupWithCache
  simp only [h]

theorem lookupWithCache_miss_state (L : GoLib) (s : Server) (q : Str)
    (h : cacheLoad s.matchCache q = none) :
    (lookupWithCache L s q).1 =
      { s with
        matchCache :=
          if (performLookup L s q).1 then
            cacheStore s.matchCache q ⟨(performLookup L s q).2.1, (performLookup L s q).2.2⟩
          else s.matchCache
        cacheStats := { s.cacheStats with misses := addUint64 s.cacheStats.misses } } := by
  unfold lookupWithCache
  simp only [h]
  have hc : performLookup L
      { s with cacheStats := { s.cacheStats with misses := addUint64 s.cacheStats.misses } } q
      = performLookup L s q := by
    apply performLookup_congr <;> rfl
  rw [hc]
  split <;> rfl

theorem CacheOK_lookupWithCache (L : GoLib) (s : Server) (q : Str) (h : CacheOK L s) :
    CacheOK L (lookupWithCache L s q).1 := by
  intro q' e' hload
  have hcongr : performLookup L (lookupWithCache L s q).1 q' = performLookup L s q' :=
    performLookup_congr L _ _ (lookupWithCache_db L s q) (lookupWithCache_matcher L s q) q'
  rw [hcongr]
  cases hc : cacheLoad s.matchCache q with
  | some e =>
    rw [lookupWithCache_hit L s q e hc] at hload
    exact h q' e' hload
  | none =>
    rw [lookupWithCache_miss_state L s q hc] at hload
    simp only at hload
    split at hload
    · rename_i hfound
      rw [cacheLoad_store] at hload
      split at hload
      · rename_i hk
        subst hk
        cases hload
        simp only
        rw [← hfound]
      · exact h q' e' hload
    · exact h q' e' hload

theorem CacheOK_lookups (L : GoLib) (qs : List Str) (s : Server) (h : CacheOK L s) :
    CacheOK L (lookups L s qs) := by
  induction qs generalizing s with
  | nil => exact h
  | cons q qs ih =>
    simp only [lookups, List.foldl_cons]
    exact ih _ (CacheOK_lookupWithCache L s q h)

theorem CacheOK_empty (L : GoLib) (s : Server) (h : s.matchCache = []) : CacheOK L s := by
  intro q e hload
  rw [h] at hload
  simp [cacheLoad] at hload

/-- With a sound cache the cached lookup returns what the scan returns. -/
theorem lookupWithCache_eq_performLookup (L : GoLib) (s : Server) (q : Str) (h : CacheOK L s) :
    (lookupWithCache L s q).2 = performLookup L s q := by
  cases hc : cacheLoad s.matchCache q with
  | some e =>
    rw [lookupWithCache_hit L s q e hc]
    exact (h q e hc).symm
  | none => exact lookupWithCache_miss L s q hc

/-! ## Match types -/

theorem matchTypes_ne : bytes "contains_lookup" ≠ bytes "lookup_contains" := by decide

theorem scanLoop_type (s : Server) (sv pre : Str) (keys : List Str) :
    ((scanLoop s sv pre keys).1 = true →
      (Contained s (scanLoop s sv pre keys).2.1 sv →
        (scanLoop s sv pre keys).2.2 = bytes "contains_lookup") ∧
      ((scanLoop s sv pre keys).2.2 = bytes "lookup_contains" →
        ¬ Contained s (scanLoop s sv pre keys).2.1 sv ∧
          Contained s sv (scanLoop s sv pre keys).2.1) ∧
      ((scanLoop s sv pre keys).2.2 = bytes "contains_lookup" ∨
        (scanLoop s sv pre keys).2.2 = bytes "lookup_contains")) ∧
    ((scanLoop s sv pre keys).1 = false → scanLoop s sv pre keys = (false, [], [])) := by
  induction keys with
  | nil => simp [scanLoop]
  | cons k ks ih =>
    by_cases h1 : s.matcher sv (TrimPrefix k (pre ++ bytes ":")) = -1
    · by_cases h2 : s.matcher (TrimPrefix k (pre ++ bytes ":")) sv = -1
      · have hres : scanLoop s sv pre (k :: ks) = scanLoop s sv pre ks := by
          simp [scanLoop, h1, h2]
        rw [hres]
        exact ih
      · have hres : scanLoop s sv pre (k :: ks) =
            (true, TrimPrefix k (pre ++ bytes ":"), bytes "lookup_contains") := by
          simp [scanLoop, h1, h2]
        rw [hres]
        refine ⟨fun _ => ⟨?_, ?_, Or.inr rfl⟩, ?_⟩
        · intro hc
          exact absurd h1 hc
        · intro _
          exact ⟨fun hc => hc h1, h2⟩
        · intro h
          cases h
    · have hres : scanLoop s sv pre (k :: ks) =
          (true, TrimPrefix k (pre ++ bytes ":"), bytes "contains_lookup") := by
        simp [scanLoop, h1]
      rw [hres]
      refine ⟨fun _ => ⟨fun _ => rfl, ?_, Or.inl rfl⟩, ?_⟩
      · intro h
        exact absurd h matchTypes_ne
      · intro h
        cases h

theorem performLookup_type (L : GoLib) (s : Server) (q : Str) :
    ((performLookup L s q).1 = true →
      (Contained s (performLookup L s q).2.1 (L.ToLower q) →
        (performLookup L s q).2.2 = bytes "contains_lookup") ∧
      ((performLookup L s q).2.2 = bytes "lookup_contains" →
        ¬ Contained s (performLookup L s q).2.1 (L.ToLower q) ∧
          Contained s (L.ToLower q) (performLookup L s q).2.1) ∧
      ((performLookup L s q).2.2 = bytes "contains_lookup" ∨
        (performLookup L s q).2.2 = bytes "lookup_contains")) ∧
    ((performLookup L s q).1 = false → performLookup L s q = (false, [], [])) := by
  unfold performLookup
  simp only []
  split
  · simp
  · exact scanLoop_type s _ _ _

/-! ## Claims C1 to C4 -/

/-- C1. First-match lookup.  Take any index built by `loadLookupData` on an ordered
store, any state of the cache reached by earlier lookups, and a non-empty
lower-cased query `q` that is not in the cache.  The bucket of `q`, the keys
beginning with `q[0:min(3,len q)] + ":"`, is scanned in ascending key order; if
`lookupWithCache` returns found, the matched value is the candidate of the first
key of the bucket whose candidate is contained in `q` or contains `q`; and it
returns not found exactly when no candidate of the bucket passes either test. -/
theorem first_match_lookup (L : GoLib) (s0 : Server) (lines qs : List Str) (q : Str)
    (hstore : Ascending s0.db) (hq : q ≠ []) (hlow : L.ToLower q = q)
    (hmiss : cacheLoad (lookups L (loadLookupData L s0 lines) qs).matchCache q = none) :
    Ascending (bucket (loadLookupData L s0 lines).db q) ∧
    ((lookupWithCache L (lookups L (loadLookupData L s0 lines) qs) q).2.1 = true →
      ∃ before key after,
        bucket (loadLookupData L s0 lines).db q = before ++ key :: after ∧
        (∀ k ∈ before, ¬ Matches s0 q (candidate q k)) ∧
        Matches s0 q (candidate q key) ∧
        (lookupWithCache L (lookups L (loadLookupData L s0 lines) qs) q).2.2.1 =
          candidate q key) ∧
    ((lookupWithCache L (lookups L (loadLookupData L s0 lines) qs) q).2.1 = false ↔
      ∀ k ∈ bucket (loadLookupData L s0 lines).db q, ¬ Matches s0 q (candidate q k)) := by
  have hdb : (lookups L (loadLookupData L s0 lines) qs).db = (loadLookupData L s0 lines).db :=
    lookups_db L qs _
  have hmat : (lookups L (loadLookupData L s0 lines) qs).matcher = s0.matcher := by
    rw [lookups_matcher]
    rfl
  have hres : (lookupWithCache L (lookups L (loadLookupData L s0 lines) qs) q).2 =
      scanLoop s0 q (q.take 3) (bucket (loadLookupData L s0 lines).db q) := by
    rw [lookupWithCache_miss L _ q hmiss, performLookup_eq_scan L _ q hq hlow, hdb]
    exact scanLoop_congr _ _ hmat _ _ _
  have hspec := scanLoop_spec s0 q (q.take 3) (bucket (loadLookupData L s0 lines).db q)
  rw [hres]
  refine ⟨Ascending_bucket _ q (Ascending_loadLookupData L s0 lines hstore), ?_, ?_⟩
  · intro hfound
    obtain ⟨before, key, after, hk, hb, hm, hv⟩ := hspec.1 hfound
    have hmem : ∀ k ∈ before ++ key :: after,
        TrimPrefix k (q.take 3 ++ bytes ":") = candidate q k := by
      intro k hkm
      rw [← hk] at hkm
      exact TrimPrefix_bucket _ q k hkm
    refine ⟨before, key, after, hk, ?_, ?_, ?_⟩
    · intro k hkb
      rw [← hmem k (by simp [hkb])]
      exact hb k hkb
    · rw [← hmem key (by simp)]
      exact hm
    · rw [hv, hmem key (by simp)]
  · rw [hspec.2]
    constructor
    · intro h k hk
      rw [← TrimPrefix_bucket _ q k hk]
      exact h k hk
    · intro h k hk
      rw [TrimPrefix_bucket _ q k hk]
      exact h k hk

theorem first_match_lookup_witness :
    Ascending (emptyServer ⟨4, 1000, 100⟩).db ∧ bytes "abcd" ≠ [] ∧
    refLib.ToLower (bytes "abcd") = bytes "abcd" ∧
    cacheLoad (lookups refLib (loadLookupData refLib (emptyServer ⟨4, 1000, 100⟩)
      [bytes "abcd", bytes "abc"]) [bytes "abcde"]).matchCache (bytes "abcd") = none ∧
    (Ascending (bucket (loadLookupData refLib (emptyServer ⟨4, 1000, 100⟩)
        [bytes "abcd", bytes "abc"]).db (bytes "abcd")) ∧
    ((lookupWithCache refLib (lookups refLib (loadLookupData refLib (emptyServer ⟨4, 1000, 100⟩)
        [bytes "abcd", bytes "abc"]) [bytes "abcde"]) (bytes "abcd")).2.1 = true →
      ∃ before key after,
        bucket (loadLookupData refLib (emptyServer ⟨4, 1000, 100⟩)
          [bytes "abcd", bytes "abc"]).db (bytes "abcd") = before ++ key :: after ∧
        (∀ k ∈ before, ¬ Matches (emptyServer ⟨4, 1000, 100⟩) (bytes "abcd")
          (candidate (bytes "abcd") k)) ∧
        Matches (emptyServer ⟨4, 1000, 100⟩) (bytes "abcd") (candidate (bytes "abcd") key) ∧
        (lookupWithCache refLib (lookups refLib (loadLookupData refLib
          (emptyServer ⟨4, 1000, 100⟩) [bytes "abcd", bytes "abc"]) [bytes "abcde"])
          (bytes "abcd")).2.2.1 = candidate (bytes "abcd") key) ∧
    ((lookupWithCache refLib (lookups refLib (loadLookupData refLib (emptyServer ⟨4, 1000, 100⟩)
        [bytes "abcd", bytes "abc"]) [bytes "abcde"]) (bytes "abcd")).2.1 = false ↔
      ∀ k ∈ bucket (loadLookupData refLib (emptyServer ⟨4, 1000, 100⟩)
          [bytes "abcd", bytes "abc"]).db (bytes "abcd"),
        ¬ Matches (emptyServer ⟨4, 1000, 100⟩) (bytes "abcd") (candidate (bytes "abcd") k))) :=
  ⟨List.Pairwise.nil, by decide, by decide, by decide,
    first_match_lookup refLib (emptyServer ⟨4, 1000, 100⟩) [bytes "abcd", bytes "abc"]
      [bytes "abcde"] (bytes "abcd") List.Pairwise.nil (by decide) (by decide) (by decide)⟩

/-- C2, as the code behaves.  Index loaded from `["john smith", "jane doe"]` on an
empty store, for any library that leaves these lower-case ASCII strings as they
are: the lookup of `"mr john smith jr"` returns not found with empty matched value
and match type, because no key begins with `"mr :"`; the lookup of
`"john smith jr"`, which begins with the first three bytes of the reference value,
returns found, `"john smith"`, `contains_lookup` when the matcher finds
`"john smith"` in it. -/
theorem scenario1_prefix_bucket (L : GoLib) (config : Config)
    (h1 : L.ToLower (L.TrimSpace (bytes "john smith")) = bytes "john smith")
    (h2 : L.ToLower (L.TrimSpace (bytes "jane doe")) = bytes "jane doe")
    (h3 : L.ToLower (bytes "mr john smith jr") = bytes "mr john smith jr")
    (h4 : L.ToLower (bytes "john smith jr") = bytes "john smith jr")
    (hm : L.LooseIndexString (bytes "john smith jr") (bytes "john smith") ≠ -1) :
    (lookupWithCache L (NewServer L [] [bytes "john smith", bytes "jane doe"] config)
      (bytes "mr john smith jr")).2 = (false, [], []) ∧
    (lookupWithCache L (NewServer L [] [bytes "john smith", bytes "jane doe"] config)
      (bytes "john smith jr")).2 = (true, bytes "john smith", bytes "contains_lookup") := by
  have hdb : (NewServer L [] [bytes "john smith", bytes "jane doe"] config).db =
      [bytes "jan:jane doe", bytes "joh:john smith"] := by
    simp only [NewServer, loadLookupData, List.foldl, loadLine, h1, h2]
    decide
  have hcache : ∀ q, cacheLoad
      (NewServer L [] [bytes "john smith", bytes "jane doe"] config).matchCache q = none :=
    fun q => rfl
  have hmat : (NewServer L [] [bytes "john smith", bytes "jane doe"] config).matcher =
      L.LooseIndexString := rfl
  constructor
  · rw [lookupWithCache_miss L _ _ (hcache _),
      performLookup_eq_scan L _ _ (by decide) h3, hdb]
    have hb : bucket [bytes "jan:jane doe", bytes "joh:john smith"] (bytes "mr john smith jr")
        = [] := by decide
    rw [hb]
    rfl
  · rw [lookupWithCache_miss L _ _ (hcache _),
      performLookup_eq_scan L _ _ (by decide) h4, hdb]
    have hb : bucket [bytes "jan:jane doe", bytes "joh:john smith"] (bytes "john smith jr")
        = [bytes "joh:john smith"] := by decide
    have ht : TrimPrefix (bytes "joh:john smith")
        (List.take 3 (bytes "john smith jr") ++ bytes ":") = bytes "john smith" := by decide
    rw [hb]
    simp only [scanLoop, ht, hmat]
    simp [hm]

theorem scenario1_prefix_bucket_witness :
    refLib.ToLower (refLib.TrimSpace (bytes "john smith")) = bytes "john smith" ∧
    refLib.ToLower (refLib.TrimSpace (bytes "jane doe")) = bytes "jane doe" ∧
    refLib.ToLower (bytes "mr john smith jr") = bytes "mr john smith jr" ∧
    refLib.ToLower (bytes "john smith jr") = bytes "john smith jr" ∧
    refLib.LooseIndexString (bytes "john smith jr") (bytes "john smith") ≠ -1 ∧
    ((lookupWithCache refLib
        (NewServer refLib [] [bytes "john smith", bytes "jane doe"] ⟨4, 1000, 100⟩)
        (bytes "mr john smith jr")).2 = (false, [], []) ∧
     (lookupWithCache refLib
        (NewServer refLib [] [bytes "john smith", bytes "jane doe"] ⟨4, 1000, 100⟩)
        (bytes "john smith jr")).2 = (true, bytes "john smith", bytes "contains_lookup")) :=
  ⟨by decide, by decide, by decide, by decide, by decide,
    scenario1_prefix_bucket refLib ⟨4, 1000, 100⟩ (by decide) (by decide) (by decide)
      (by decide) (by decide)⟩

/-- C2 as stated fails: with the two reference lines loaded into an empty index,
the lookup of `"mr john smith jr"` returns `(false, "", "")`, not
`(true, "john smith", "contains_lookup")`. -/
theorem scenario1_counterexample :
    (lookupWithCache refLib
        (NewServer refLib [] [bytes "john smith", bytes "jane doe"] ⟨4, 1000, 100⟩)
        (bytes "mr john smith jr")).2 = (false, [], []) ∧
    (lookupWithCache refLib
        (NewServer refLib [] [bytes "john smith", bytes "jane doe"] ⟨4, 1000, 100⟩)
        (bytes "mr john smith jr")).2 ≠ (true, bytes "john smith", bytes "contains_lookup") := by
  decide

/-- C3, as the code behaves.  Index loaded from the single line `"ab"` on an empty
store, for any library that leaves lower-case ASCII strings as they are: the
lookup of `"a"` returns not found with empty matched value and match type, because
the only key is `"ab:ab"` and the scan covers the keys beginning with `"a:"`.
Index loaded from the single line `"abcd"` on an empty store: the lookup of
`"abc"` returns found, `"abcd"`, `lookup_contains`, when the matcher finds `"abc"`
in `"abcd"` and not `"abcd"` in `"abc"`. -/
theorem scenario2_prefix_bucket (L : GoLib) (config : Config)
    (h1 : L.ToLower (L.TrimSpace (bytes "ab")) = bytes "ab")
    (h2 : L.ToLower (bytes "a") = bytes "a")
    (h3 : L.ToLower (L.TrimSpace (bytes "abcd")) = bytes "abcd")
    (h4 : L.ToLower (bytes "abc") = bytes "abc")
    (hm1 : L.LooseIndexString (bytes "abc") (bytes "abcd") = -1)
    (hm2 : L.LooseIndexString (bytes "abcd") (bytes "abc") ≠ -1) :
    (lookupWithCache L (NewServer L [] [bytes "ab"] config) (bytes "a")).2 = (false, [], []) ∧
    (lookupWithCache L (NewServer L [] [bytes "abcd"] config) (bytes "abc")).2 =
      (true, bytes "abcd", bytes "lookup_contains") := by
  have hdb1 : (NewServer L [] [bytes "ab"] config).db = [bytes "ab:ab"] := by
    simp only [NewServer, loadLookupData, List.foldl, loadLine, h1]
    decide
  have hdb2 : (NewServer L [] [bytes "abcd"] config).db = [bytes "abc:abcd"] := by
    simp only [NewServer, loadLookupData, List.foldl, loadLine, h3]
    decide
  have hcache1 : cacheLoad (NewServer L [] [bytes "ab"] config).matchCache (bytes "a") = none :=
    rfl
  have hcache2 :
      cacheLoad (NewServer L [] [bytes "abcd"] config).matchCache (bytes "abc") = none := rfl
  have hmat : (NewServer L [] [bytes "abcd"] config).matcher = L.LooseIndexString := rfl
  constructor
  · rw [lookupWithCache_miss L _ _ hcache1, performLookup_eq_scan L _ _ (by decide) h2, hdb1]
    have hb : bucket [bytes "ab:ab"] (bytes "a") = [] := by decide
    rw [hb]
    rfl
  · rw [lookupWithCache_miss L _ _ hcache2, performLookup_eq_scan L _ _ (by decide) h4, hdb2]
    have hb : bucket [bytes "abc:abcd"] (bytes "abc") = [bytes "abc:abcd"] := by decide
    have ht : TrimPrefix (bytes "abc:abcd") (List.take 3 (bytes "abc") ++ bytes ":") =
        bytes "abcd" := by decide
    rw [hb]
    simp only [scanLoop, ht, hmat]
    simp [hm1, hm2]

theorem scenario2_prefix_bucket_witness :
    refLib.ToLower (refLib.TrimSpace (bytes "ab")) = bytes "ab" ∧
    refLib.ToLower (bytes "a") = bytes "a" ∧
    refLib.ToLower (refLib.TrimSpace (bytes "abcd")) = bytes "abcd" ∧
    refLib.ToLower (bytes "abc") = bytes "abc" ∧
    refLib.LooseIndexString (bytes "abc") (bytes "abcd") = -1 ∧
    refLib.LooseIndexString (bytes "abcd") (bytes "abc") ≠ -1 ∧
    ((lookupWithCache refLib (NewServer refLib [] [bytes "ab"] ⟨4, 1000, 100⟩)
        (bytes "a")).2 = (false, [], []) ∧
     (lookupWithCache refLib (NewServer refLib [] [bytes "abcd"] ⟨4, 1000, 100⟩)
        (bytes "abc")).2 = (true, bytes "abcd", bytes "lookup_contains")) :=
  ⟨by decide, by decide, by decide, by decide, by decide, by decide,
    scenario2_prefix_bucket refLib ⟨4, 1000, 100⟩ (by decide) (by decide) (by decide)
      (by decide) (by decide) (by decide)⟩

/-- C3 as stated fails: with the line `"ab"` loaded into an empty index, the lookup
of `"a"` returns `(false, "", "")`, not found with `"ab"` and `lookup_contains`. -/
theorem scenario2_counterexample :
    (lookupWithCache refLib (NewServer refLib [] [bytes "ab"] ⟨4, 1000, 100⟩)
        (bytes "a")).2 = (false, [], []) ∧
    (lookupWithCache refLib (NewServer refLib [] [bytes "ab"] ⟨4, 1000, 100⟩)
        (bytes "a")).2 ≠ (true, bytes "ab", bytes "lookup_contains") := by
  decide

/-- C4. Match type and tie-break.  In every state reached from an empty cache by
lookups, whenever `lookupWithCache` returns found with matched value `c` and match
type `t` for a query `q`: if `c` is contained in the query (as `performLookup`
lower-cases it, which is `q` itself for the lower-cased queries the callers pass)
then `t` is `contains_lookup`, also when the query is contained in `c` as well;
`t` is `lookup_contains` only if `c` is not contained in the query and the query
is contained in `c`; and `t` is one of the two. -/
theorem match_type_tie_break (L : GoLib) (s0 : Server) (qs : List Str) (q c t : Str)
    (hcache : s0.matchCache = [])
    (hres : (lookupWithCache L (lookups L s0 qs) q).2 = (true, c, t)) :
    (Contained s0 c (L.ToLower q) → t = bytes "contains_lookup") ∧
    (t = bytes "lookup_contains" →
      ¬ Contained s0 c (L.ToLower q) ∧ Contained s0 (L.ToLower q) c) ∧
    (t = bytes "contains_lookup" ∨ t = bytes "lookup_contains") := by
  have hok : CacheOK L (lookups L s0 qs) := CacheOK_lookups L qs s0 (CacheOK_empty L s0 hcache)
  rw [lookupWithCache_eq_performLookup L _ q hok,
    performLookup_congr L _ s0 (lookups_db L qs s0) (lookups_matcher L qs s0) q] at hres
  have h := (performLookup_type L s0 q).1 (by rw [hres])
  rw [hres] at h
  exact h

theorem match_type_tie_break_witness :
    (NewServer refLib [] [bytes "abc"] ⟨4, 1000, 100⟩).matchCache = [] ∧
    (lookupWithCache refLib (lookups refLib (NewServer refLib [] [bytes "abc"] ⟨4, 1000, 100⟩)
      [bytes "abc"]) (bytes "abc")).2 = (true, bytes "abc", bytes "contains_lookup") ∧
    ((Contained (NewServer refLib [] [bytes "abc"] ⟨4, 1000, 100⟩) (bytes "abc")
        (refLib.ToLower (bytes "abc")) → bytes "contains_lookup" = bytes "contains_lookup") ∧
     (bytes "contains_lookup" = bytes "lookup_contains" →
        ¬ Contained (NewServer refLib [] [bytes "abc"] ⟨4, 1000, 100⟩) (bytes "abc")
            (refLib.ToLower (bytes "abc")) ∧
          Contained (NewServer refLib [] [bytes "abc"] ⟨4, 1000, 100⟩)
            (refLib.ToLower (bytes "abc")) (bytes "abc")) ∧
     (bytes "contains_lookup" = bytes "contains_lookup" ∨
        bytes "contains_lookup" = bytes "lookup_contains")) :=
  ⟨rfl, by decide,
    match_type_tie_break refLib (NewServer refLib [] [bytes "abc"] ⟨4, 1000, 100⟩)
      [bytes "abc"] (bytes "abc") (bytes "abc") (bytes "contains_lookup") rfl (by decide)⟩

/-! ## Claims C5 to C7 -/

theorem matchTypes_ne_nil :
    bytes "contains_lookup" ≠ [] ∧ bytes "lookup_contains" ≠ [] := by decide

/-- C5. Result invariant.  In every state reached from an empty cache by any
sequence of lookups, and for every query, the triple returned by `lookupWithCache`
has an empty match type exactly when found is false, and when found is true the
match type is `contains_lookup` or `lookup_contains`, whether the call is answered
from the cache or by the scan. -/
theorem matchType_empty_iff_not_found (L : GoLib) (s0 : Server) (qs : List Str) (q : Str) :
    ((lookupWithCache L (lookups L { s0 with matchCache := [] } qs) q).2.2.2 = [] ↔
      (lookupWithCache L (lookups L { s0 with matchCache := [] } qs) q).2.1 = false) ∧
    ((lookupWithCache L (lookups L { s0 with matchCache := [] } qs) q).2.1 = true →
      (lookupWithCache L (lookups L { s0 with matchCache := [] } qs) q).2.2.2 =
          bytes "contains_lookup" ∨
        (lookupWithCache L (lookups L { s0 with matchCache := [] } qs) q).2.2.2 =
          bytes "lookup_contains") := by
  have hok : CacheOK L (lookups L { s0 with matchCache := [] } qs) :=
    CacheOK_lookups L qs _ (CacheOK_empty L _ rfl)
  rw [lookupWithCache_eq_performLookup L _ q hok]
  have h := performLookup_type L (lookups L { s0 with matchCache := [] } qs) q
  refine ⟨⟨?_, ?_⟩, fun hf => (h.1 hf).2.2⟩
  · intro hnil
    cases hf : (performLookup L (lookups L { s0 with matchCache := [] } qs) q).1 with
    | false => rfl
    | true =>
      rcases (h.1 hf).2.2 with ht | ht
      · rw [ht] at hnil
        exact absurd hnil matchTypes_ne_nil.1
      · rw [ht] at hnil
        exact absurd hnil matchTypes_ne_nil.2
  · intro hf
    rw [h.2 hf]

theorem lookupWithCache_not_found (L : GoLib) (s : Server) (q : Str)
    (h : (lookupWithCache L s q).2.1 = false) :
    cacheLoad s.matchCache q = none ∧ performLookup L s q = (false, [], []) ∧
    lookupWithCache L s q =
      ({ s with cacheStats := { s.cacheStats with misses := addUint64 s.cacheStats.misses } },
        (false, [], [])) := by
  cases hc : cacheLoad s.matchCache q with
  | some e =>
    rw [lookupWithCache_hit L s q e hc] at h
    cases h
  | none =>
    have hp : (performLookup L s q).1 = false := by
      rw [← lookupWithCache_miss L s q hc]
      exact h
    have hp' := (performLookup_type L s q).2 hp
    refine ⟨rfl, hp', ?_⟩
    apply Prod.ext
    · rw [lookupWithCache_miss_state L s q hc, hp]
      rfl
    · rw [lookupWithCache_miss L s q hc, hp']

/-- C6. Cache correctness.  For every server state and every query `q` whose
`lookupWithCache` returns found, the call that follows immediately returns the same
triple and is a cache hit: the hit counter is incremented (`uint64` addition, which
is plus one below the maximum), the miss counter and the cache are unchanged. -/
theorem repeat_found_is_cache_hit (L : GoLib) (s : Server) (q : Str)
    (hfound : (lookupWithCache L s q).2.1 = true) :
    (lookupWithCache L (lookupWithCache L s q).1 q).2 = (lookupWithCache L s q).2 ∧
    (lookupWithCache L (lookupWithCache L s q).1 q).1.cacheStats.hits =
      ((lookupWithCache L s q).1.cacheStats.hits + 1) % 2 ^ 64 ∧
    ((lookupWithCache L s q).1.cacheStats.hits + 1 < 2 ^ 64 →
      (lookupWithCache L (lookupWithCache L s q).1 q).1.cacheStats.hits =
        (lookupWithCache L s q).1.cacheStats.hits + 1) ∧
    (lookupWithCache L (lookupWithCache L s q).1 q).1.cacheStats.misses =
      (lookupWithCache L s q).1.cacheStats.misses ∧
    (lookupWithCache L (lookupWithCache L s q).1 q).1.matchCache =
      (lookupWithCache L s q).1.matchCache := by
  have hentry : cacheLoad (lookupWithCache L s q).1.matchCache q =
      some ⟨(lookupWithCache L s q).2.2.1, (lookupWithCache L s q).2.2.2⟩ := by
    cases hc : cacheLoad s.matchCache q with
    | some e =>
      rw [lookupWithCache_hit L s q e hc]
      exact hc
    | none =>
      have hp : (performLookup L s q).1 = true := by
        rw [← lookupWithCache_miss L s q hc]
        exact hfound
      rw [lookupWithCache_miss_state L s q hc, lookupWithCache_miss L s q hc]
      simp only [hp, if_true]
      rw [cacheLoad_store]
      simp
  rw [lookupWithCache_hit L _ q _ hentry]
  refine ⟨?_, rfl, ?_, rfl, rfl⟩
  · simp only
    rw [← hfound]
  · intro hlt
    simp only [addUint64]
    exact Nat.mod_eq_of_lt hlt

theorem repeat_found_is_cache_hit_witness :
    (lookupWithCache refLib (NewServer refLib [] [bytes "abc"] ⟨4, 1000, 100⟩)
      (bytes "abcd")).2.1 = true ∧
    ((lookupWithCache refLib (lookupWithCache refLib
        (NewServer refLib [] [bytes "abc"] ⟨4, 1000, 100⟩) (bytes "abcd")).1 (bytes "abcd")).2 =
      (lookupWithCache refLib (NewServer refLib [] [bytes "abc"] ⟨4, 1000, 100⟩)
        (bytes "abcd")).2 ∧
    (lookupWithCache refLib (lookupWithCache refLib
        (NewServer refLib [] [bytes "abc"] ⟨4, 1000, 100⟩) (bytes "abcd")).1
        (bytes "abcd")).1.cacheStats.hits =
      ((lookupWithCache refLib (NewServer refLib [] [bytes "abc"] ⟨4, 1000, 100⟩)
        (bytes "abcd")).1.cacheStats.hits + 1) % 2 ^ 64 ∧
    ((lookupWithCache refLib (NewServer refLib [] [bytes "abc"] ⟨4, 1000, 100⟩)
        (bytes "abcd")).1.cacheStats.hits + 1 < 2 ^ 64 →
      (lookupWithCache refLib (lookupWithCache refLib
        (NewServer refLib [] [bytes "abc"] ⟨4, 1000, 100⟩) (bytes "abcd")).1
        (bytes "abcd")).1.cacheStats.hits =
        (lookupWithCache refLib (NewServer refLib [] [bytes "abc"] ⟨4, 1000, 100⟩)
          (bytes "abcd")).1.cacheStats.hits + 1) ∧
    (lookupWithCache refLib (lookupWithCache refLib
        (NewServer refLib [] [bytes "abc"] ⟨4, 1000, 100⟩) (bytes "abcd")).1
        (bytes "abcd")).1.cacheStats.misses =
      (lookupWithCache refLib (NewServer refLib [] [bytes "abc"] ⟨4, 1000, 100⟩)
        (bytes "abcd")).1.cacheStats.misses ∧
    (lookupWithCache refLib (lookupWithCache refLib
        (NewServer refLib [] [bytes "abc"] ⟨4, 1000, 100⟩) (bytes "abcd")).1
        (bytes "abcd")).1.matchCache =
      (lookupWithCache refLib (NewServer refLib [] [bytes "abc"] ⟨4, 1000, 100⟩)
        (bytes "abcd")).1.matchCache) :=
  ⟨by decide,
    repeat_found_is_cache_hit refLib (NewServer refLib [] [bytes "abc"] ⟨4, 1000, 100⟩)
      (bytes "abcd") (by decide)⟩

theorem lookups_replicate_not_found (L : GoLib) (s : Server) (q : Str)
    (h : (lookupWithCache L s q).2.1 = false) (n : Nat) :
    (lookups L s (List.replicate n q)).db = s.db ∧
    (lookups L s (List.replicate n q)).matcher = s.matcher ∧
    (lookups L s (List.replicate n q)).matchCache = s.matchCache ∧
    (lookups L s (List.replicate n q)).cacheStats.hits = s.cacheStats.hits := by
  induction n generalizing s with
  | zero => exact ⟨rfl, rfl, rfl, rfl⟩
  | succ n ih =>
    obtain ⟨hc, hp, hstep⟩ := lookupWithCache_not_found L s q h
    have hs1 : (lookupWithCache L s q).1 =
        { s with cacheStats := { s.cacheStats with misses := addUint64 s.cacheStats.misses } } := by
      rw [hstep]
    have h1 : (lookupWithCache L (lookupWithCache L s q).1 q).2.1 = false := by
      rw [hs1]
      have hc' : cacheLoad ({ s with cacheStats :=
          { s.cacheStats with misses := addUint64 s.cacheStats.misses } } : Server).matchCache q
          = none := hc
      rw [lookupWithCache_miss L _ q hc']
      have : performLookup L ({ s with cacheStats :=
          { s.cacheStats with misses := addUint64 s.cacheStats.misses } } : Server) q =
          performLookup L s q := by
        apply performLookup_congr <;> rfl
      rw [this, hp]
    have := ih (lookupWithCache L s q).1 h1
    simp only [lookups, List.replicate_succ, List.foldl_cons] at this ⊢
    rw [hs1] at this ⊢
    exact this

/-- C7. No negative caching.  For every server state and every query `q` whose
`lookupWithCache` returns not found, the call leaves the cache as it was, and so
does every repetition: after any number `n` of such calls the next one again
returns `(false, "", "")`, increments the miss counter (`uint64` addition, plus one
below the maximum), and leaves the hit counter and the cache unchanged. -/
theorem no_negative_caching (L : GoLib) (s : Server) (q : Str)
    (hnot : (lookupWithCache L s q).2.1 = false) (n : Nat) :
    (lookupWithCache L s q).1.matchCache = s.matchCache ∧
    (lookupWithCache L (lookups L s (List.replicate n q)) q).2 = (false, [], []) ∧
    (lookupWithCache L (lookups L s (List.replicate n q)) q).1.matchCache = s.matchCache ∧
    (lookupWithCache L (lookups L s (List.replicate n q)) q).1.cacheStats.hits =
      s.cacheStats.hits ∧
    (lookupWithCache L (lookups L s (List.replicate n q)) q).1.cacheStats.misses =
      ((lookups L s (List.replicate n q)).cacheStats.misses + 1) % 2 ^ 64 ∧
    ((lookups L s (List.replicate n q)).cacheStats.misses + 1 < 2 ^ 64 →
      (lookupWithCache L (lookups L s (List.replicate n q)) q).1.cacheStats.misses =
        (lookups L s (List.replicate n q)).cacheStats.misses + 1) := by
  obtain ⟨hc, hp, hstep⟩ := lookupWithCache_not_found L s q hnot
  obtain ⟨hdb, hmat, hcache, hhits⟩ := lookups_replicate_not_found L s q hnot n
  have hcn : cacheLoad (lookups L s (List.replicate n q)).matchCache q = none := by
    rw [hcache]
    exact hc
  have hpn : performLookup L (lookups L s (List.replicate n q)) q = (false, [], []) := by
    rw [performLookup_congr L _ s hdb hmat q]
    exact hp
  have hfn : (lookupWithCache L (lookups L s (List.replicate n q)) q).2.1 = false := by
    rw [lookupWithCache_miss L _ q hcn, hpn]
  obtain ⟨_, _, hstepn⟩ := lookupWithCache_not_found L _ q hfn
  refine ⟨by rw [hstep], by rw [hstepn], ?_, ?_, ?_, ?_⟩
  · rw [hstepn]
    exact hcache
  · rw [hstepn]
    exact hhits
  · rw [hstepn]
    rfl
  · intro hlt
    rw [hstepn]
    simp only [addUint64]
    exact Nat.mod_eq_of_lt hlt

theorem no_negative_caching_witness :
    (lookupWithCache refLib (NewServer refLib [] [bytes "ab"] ⟨4, 1000, 100⟩)
      (bytes "a")).2.1 = false ∧
    ((lookupWithCache refLib (NewServer refLib [] [bytes "ab"] ⟨4, 1000, 100⟩)
        (bytes "a")).1.matchCache = (NewServer refLib [] [bytes "ab"] ⟨4, 1000, 100⟩).matchCache ∧
    (lookupWithCache refLib (lookups refLib (NewServer refLib [] [bytes "ab"] ⟨4, 1000, 100⟩)
        (List.replicate 2 (bytes "a"))) (bytes "a")).2 = (false, [], []) ∧
    (lookupWithCache refLib (lookups refLib (NewServer refLib [] [bytes "ab"] ⟨4, 1000, 100⟩)
        (List.replicate 2 (bytes "a"))) (bytes "a")).1.matchCache =
      (NewServer refLib [] [bytes "ab"] ⟨4, 1000, 100⟩).matchCache ∧
    (lookupWithCache refLib (lookups refLib (NewServer refLib [] [bytes "ab"] ⟨4, 1000, 100⟩)
        (List.replicate 2 (bytes "a"))) (bytes "a")).1.cacheStats.hits =
      (NewServer refLib [] [bytes "ab"] ⟨4, 1000, 100⟩).cacheStats.hits ∧
    (lookupWithCache refLib (lookups refLib (NewServer refLib [] [bytes "ab"] ⟨4, 1000, 100⟩)
        (List.replicate 2 (bytes "a"))) (bytes "a")).1.cacheStats.misses =
      ((lookups refLib (NewServer refLib [] [bytes "ab"] ⟨4, 1000, 100⟩)
        (List.replicate 2 (bytes "a"))).cacheStats.misses + 1) % 2 ^ 64 ∧
    ((lookups refLib (NewServer refLib [] [bytes "ab"] ⟨4, 1000, 100⟩)
        (List.replicate 2 (bytes "a"))).cacheStats.misses + 1 < 2 ^ 64 →
      (lookupWithCache refLib (lookups refLib (NewServer refLib [] [bytes "ab"] ⟨4, 1000, 100⟩)
        (List.replicate 2 (bytes "a"))) (bytes "a")).1.cacheStats.misses =
        (lookups refLib (NewServer refLib [] [bytes "ab"] ⟨4, 1000, 100⟩)
          (List.replicate 2 (bytes "a"))).cacheStats.misses + 1)) :=
  ⟨by decide,
    no_negative_caching refLib (NewServer refLib [] [bytes "ab"] ⟨4, 1000, 100⟩) (bytes "a")
      (by decide) 2⟩

/-! ## The splitter -/

theorem wrapInt64_of_range (x : Int) (h1 : -2 ^ 63 ≤ x) (h2 : x < 2 ^ 63) : wrapInt64 x = x := by
  unfold wrapInt64
  omega

theorem splitIter_stop (records : List Record) (b : Int) (i : Nat) (h : records.length ≤ i) :
    splitIter records b i = Iter.stop := by
  unfold splitIter
  have : ¬ ((i : Int) < records.length) := by omega
  simp [this]

theorem splitIter_send (records : List Record) (b : Int) (i : Nat) (hb1 : 1 ≤ b)
    (hb2 : b < 2 ^ 63) (hlen : (records.length : Int) < 2 ^ 62) (hi : i = 0 ∨ b ≤ i)
    (hlt : i < records.length) :
    splitIter records b i = Iter.send ((records.drop i).take b.toNat) ((i + b.toNat : Nat) : Int) := by
  have hw : wrapInt64 ((i : Int) + b) = (i : Int) + b := by
    apply wrapInt64_of_range <;> omega
  have hcast : (((i + b.toNat : Nat)) : Int) = (i : Int) + b := by
    have : ((b.toNat : Nat) : Int) = b := Int.toNat_of_nonneg (by omega)
    omega
  have hlt' : (i : Int) < records.length := by omega
  unfold splitIter
  simp only [hlt', if_true, hw, hcast, Int.toNat_ofNat]
  by_cases hend : (i : Int) + b > records.length
  · have hcond : 0 ≤ (i : Int) ∧ (i : Int) ≤ records.length := by omega
    simp only [hend, if_true, hcond, and_self]
    have h1 : ((records.length : Int) - i).toNat = records.length - i := by omega
    rw [h1]
    have hl : (records.drop i).length ≤ records.length - i := by simp
    have hl' : (records.drop i).length ≤ b.toNat := by
      have : (records.drop i).length = records.length - i := by simp
      omega
    rw [List.take_of_length_le hl, List.take_of_length_le hl']
  · have hcond : 0 ≤ (i : Int) ∧ (i : Int) ≤ (i : Int) + b := by omega
    simp only [hend, if_false, hcond, and_self, if_true]
    have h1 : ((i : Int) + b - i).toNat = b.toNat := by
      congr 1
      omega
    rw [h1]

/-- A run of the splitter that has ended gives the same result with more fuel. -/
theorem splitter_more_fuel (records : List Record) (b : Int) (fuel : Nat) (i : Int)
    (h : (splitter records b fuel i).2 ≠ SplitEnd.running) (k : Nat) :
    splitter records b (fuel + k) i = splitter records b fuel i := by
  induction fuel generalizing i with
  | zero => simp [splitter] at h
  | succ n ih =>
    have hn : n + 1 + k = (n + k) + 1 := by omega
    rw [hn]
    simp only [splitter] at h ⊢
    cases hs : splitIter records b i with
    | stop => rfl
    | panic => rfl
    | send chunk next =>
      rw [hs] at h
      simp only at h ⊢
      rw [ih next h]

theorem splitter_spec (records : List Record) (b : Int) (hb1 : 1 ≤ b) (hb2 : b < 2 ^ 63)
    (hlen : (records.length : Int) < 2 ^ 62) :
    ∀ (fuel i : Nat), (i = 0 ∨ b ≤ i) → records.length - i < fuel →
      (splitter records b fuel i).2 = SplitEnd.closed ∧
      (splitter records b fuel i).1.flatten = records.drop i ∧
      (∀ c ∈ (splitter records b fuel i).1, c ≠ [] ∧ (c.length : Int) ≤ b) ∧
      (∀ c ∈ (splitter records b fuel i).1.dropLast, (c.length : Int) = b) := by
  intro fuel
  induction fuel with
  | zero =>
    intro i _ h
    omega
  | succ n ih =>
    intro i hi hfuel
    by_cases hlt : i < records.length
    · have hsend := splitIter_send records b i hb1 hb2 hlen hi hlt
      have hbn : ((b.toNat : Nat) : Int) = b := Int.toNat_of_nonneg (by omega)
      have hnext : (i + b.toNat = 0 ∨ b ≤ ((i + b.toNat : Nat) : Int)) := by
        right
        omega
      have hfuel' : records.length - (i + b.toNat) < n := by omega
      obtain ⟨h1, h2, h3, h4⟩ := ih (i + b.toNat) hnext hfuel'
      simp only [splitter, hsend]
      have hclen : ((records.drop i).take b.toNat).length = Min.min b.toNat (records.length - i) := by
        simp [List.length_take, List.length_drop]
      refine ⟨h1, ?_, ?_, ?_⟩
      · rw [List.flatten_cons, h2, ← List.drop_drop]
        exact List.take_append_drop b.toNat (records.drop i)
      · intro c hc
        rcases List.mem_cons.1 hc with rfl | hc
        · constructor
          · intro hnil
            have hz := congrArg List.length hnil
            rw [hclen] at hz
            simp only [List.length_nil] at hz
            omega
          · rw [hclen]
            omega
        · exact h3 c hc
      · intro c hc
        by_cases hrest : (splitter records b n ((i + b.toNat : Nat) : Int)).1 = []
        · rw [hrest] at hc
          simp at hc
        · rw [List.dropLast_cons_of_ne_nil hrest] at hc
          rcases List.mem_cons.1 hc with rfl | hc
          · have hmore : i + b.toNat < records.length := by
              by_contra hge
              have hdrop : records.drop (i + b.toNat) = [] :=
                List.drop_eq_nil_of_le (by omega)
              rw [hdrop] at h2
              cases hl : (splitter records b n ((i + b.toNat : Nat) : Int)).1 with
              | nil => exact hrest hl
              | cons c cs =>
                have hcmem := h3 c (by rw [hl]; simp)
                rw [hl] at h2
                simp only [List.flatten_cons, List.append_eq_nil] at h2
                exact hcmem.1 h2.1
            rw [hclen]
            omega
          · exact h4 c hc
    · have hstop := splitIter_stop records b i (by omega)
      have hres : splitter records b (n + 1) i = ([], SplitEnd.closed) := by
        simp [splitter, hstop]
      rw [hres]
      refine ⟨rfl, ?_, ?_, ?_⟩
      · rw [List.drop_eq_nil_of_le (by omega)]
        rfl
      · intro c hc
        simp at hc
      · intro c hc
        simp at hc

/-! ## Claim C9 -/

/-- C9. Chunking.  For every record list (shorter than `2^62`, as every Go slice of
records is) and every batch size from 1 up (a Go `int`), the splitter loop of
`processInputFile` ends and closes `recordsChan` within `len(records) + 1`
evaluations of its condition, whatever `sort.Slice` did with equal names.  The
chunks it sent, concatenated in order, are the sorted record list, a
rearrangement of the input in which names never decrease, so their sizes sum to
`len(records)`; every chunk is non-empty and has at most `batchSize` records, and
every chunk but the last has exactly `batchSize`. -/
theorem chunking (S : SortSlice) (records : List Record) (batchSize : Int)
    (hb1 : 1 ≤ batchSize) (hb2 : batchSize < 2 ^ 63)
    (hlen : (records.length : Int) < 2 ^ 62) :
    (splitter (S.sort records) batchSize (records.length + 1) 0).2 = SplitEnd.closed ∧
    (∀ k, splitter (S.sort records) batchSize (records.length + 1 + k) 0 =
      splitter (S.sort records) batchSize (records.length + 1) 0) ∧
    (splitter (S.sort records) batchSize (records.length + 1) 0).1.flatten = S.sort records ∧
    (S.sort records).Perm records ∧
    (S.sort records).Pairwise (fun a b => bytesLess b.Name a.Name = false) ∧
    ((splitter (S.sort records) batchSize (records.length + 1) 0).1.map List.length).sum =
      records.length ∧
    (∀ c ∈ (splitter (S.sort records) batchSize (records.length + 1) 0).1,
      c ≠ [] ∧ (c.length : Int) ≤ batchSize) ∧
    (∀ c ∈ (splitter (S.sort records) batchSize (records.length + 1) 0).1.dropLast,
      (c.length : Int) = batchSize) := by
  have hl : (S.sort records).length = records.length := (S.perm records).length_eq
  have hlen' : ((S.sort records).length : Int) < 2 ^ 62 := by rw [hl]; exact hlen
  obtain ⟨h1, h2, h3, h4⟩ := splitter_spec (S.sort records) batchSize hb1 hb2 hlen'
    (records.length + 1) 0 (Or.inl rfl) (by omega)
  simp only [Nat.cast_zero, List.drop_zero] at h1 h2 h3 h4
  refine ⟨h1, ?_, h2, S.perm records, S.sorted records, ?_, h3, h4⟩
  · intro k
    exact splitter_more_fuel _ _ _ _ (by rw [h1]; decide) k
  · rw [← List.length_flatten, h2, hl]

/-! ## The counting invariant -/

theorem sum_map_set (f : Worker → Nat) (l : List Worker) (w : Nat) (a b : Worker)
    (h : l[w]? = some a) : ((l.set w b).map f).sum + f a = (l.map f).sum + f b := by
  induction l generalizing w with
  | nil => simp at h
  | cons x xs ih =>
    cases w with
    | zero =>
      simp only [List.getElem?_cons_zero, Option.some.injEq] at h
      subst h
      simp only [List.set_cons_zero, List.map_cons, List.sum_cons]
      omega
    | succ n =>
      simp only [List.getElem?_cons_succ] at h
      have := ih n h
      simp only [List.set_cons_succ, List.map_cons, List.sum_cons]
      omega

theorem mem_of_mem_set (l : List Worker) (w : Nat) (b x : Worker) (h : x ∈ l.set w b) :
    x = b ∨ x ∈ l := by
  induction l generalizing w with
  | nil => simp at h
  | cons y ys ih =>
    cases w with
    | zero =>
      simp only [List.set_cons_zero, List.mem_cons] at h
      rcases h with h | h
      · exact Or.inl h
      · exact Or.inr (List.mem_cons_of_mem _ h)
    | succ n =>
      simp only [List.set_cons_succ, List.mem_cons] at h
      rcases h with h | h
      · exact Or.inr (by rw [h]; exact List.mem_cons_self _ _)
      · rcases ih n h with h | h
        · exact Or.inl h
        · exact Or.inr (List.mem_cons_of_mem _ h)

theorem mem_of_getElem? (l : List Worker) (w : Nat) (a : Worker) (h : l[w]? = some a) :
    a ∈ l := by
  rw [List.getElem?_eq_some_iff] at h
  obtain ⟨hlt, rfl⟩ := h
  exact List.getElem_mem hlt

theorem lens_append (c : List (List Record)) (b : List Record) :
    lens (c ++ [b]) = lens c + b.length := by
  simp [lens, List.flatten_append]

theorem lens_cons (c : List (List Record)) (b : List Record) :
    lens (b :: c) = b.length + lens c := by
  simp [lens]

theorem cnt_append (a b : List Record) : cnt (a ++ b) = cnt a + cnt b := by
  simp [cnt, List.countP_append]

theorem cnt_le_length (a : List Record) : cnt a ≤ a.length := by
  unfold cnt
  exact List.countP_le_length _

theorem fillAt_length (batch : List Record) (i : Nat) (res : Bool × Str × Str) :
    (fillAt batch i res).length = batch.length := by
  unfold fillAt
  split <;> simp

theorem cnt_take_fillAt (batch : List Record) (i : Nat) (res : Bool × Str × Str)
    (hi : i < batch.length) :
    cnt ((fillAt batch i res).take (i + 1)) = cnt (batch.take i) + (if res.1 then 1 else 0) := by
  have hget : batch[i]? = some batch[i] := List.getElem?_eq_getElem hi
  unfold fillAt
  simp only [hget]
  have hlen : i < (batch.set i (fillRecord batch[i] res)).length := by simpa using hi
  have htake : (batch.set i (fillRecord batch[i] res)).take i = batch.take i := by
    rw [List.set_take]
    exact List.set_eq_of_length_le (by simp [List.length_take])
  rw [List.take_succ, List.getElem?_eq_getElem hlen, htake]
  simp only [List.getElem_set_self, Option.toList_some]
  rw [cnt_append]
  congr 1
  cases h : res.1 <;> simp [cnt, fillRecord, h]

theorem sum_wdone_le_wsize (l : List Worker) (h : ∀ w ∈ l, WorkerWF w) :
    (l.map wdone).sum ≤ (l.map wsize).sum := by
  induction l with
  | nil => simp
  | cons x xs ih =>
    have hx := h x (List.mem_cons_self _ _)
    have hxs := ih (fun w hw => h w (List.mem_cons_of_mem _ hw))
    simp only [List.map_cons, List.sum_cons]
    have : wdone x ≤ wsize x := by
      cases x <;> simp [wdone, wsize, WorkerWF] at hx ⊢
      · exact hx
      · omega
    omega

theorem sum_wmatched_le_wdone (l : List Worker) :
    (l.map wmatched).sum ≤ (l.map wdone).sum := by
  induction l with
  | nil => simp
  | cons x xs ih =>
    simp only [List.map_cons, List.sum_cons]
    have : wmatched x ≤ wdone x := by
      cases x with
      | idle => simp [wmatched, wdone]
      | exited => simp [wmatched, wdone]
      | busy b i =>
        simp only [wmatched, wdone]
        exact Nat.le_trans (cnt_le_length _) (by simp [List.length_take])
      | missed b i =>
        simp only [wmatched, wdone]
        exact Nat.le_trans (cnt_le_length _) (by simp [List.length_take])
    omega

theorem sum_eq_zero_of_allExited (f : Worker → Nat) (hf : f Worker.exited = 0)
    (l : List Worker) (h : l.all (fun w => decide (w = Worker.exited)) = true) :
    (l.map f).sum = 0 := by
  induction l with
  | nil => rfl
  | cons x xs ih =>
    simp only [List.all_cons, Bool.and_eq_true, decide_eq_true_eq] at h
    simp only [List.map_cons, List.sum_cons, h.1, hf, ih h.2]

theorem cacheProbe_config (s : Server) (q : Str) : (cacheProbe s q).1.config = s.config := by
  unfold cacheProbe
  split <;> rfl

theorem lookupAfterMiss_config (L : GoLib) (s : Server) (q : Str) :
    (lookupAfterMiss L s q).1.config = s.config := by
  unfold lookupAfterMiss
  simp only []
  split <;> rfl

theorem CountInv_stepProduce (cfg : Config) (recs : List Record) (p : Pipeline)
    (hb1 : 1 ≤ cfg.BatchSize) (hb2 : cfg.BatchSize < 2 ^ 63)
    (hlen : (recs.length : Int) < 2 ^ 62) (h : CountInv cfg recs p) :
    CountInv cfg recs (stepProduce p) := by
  unfold stepProduce
  by_cases hclosed : p.recordsClosed = true
  · rw [if_pos hclosed]
    exact h
  · rw [if_neg hclosed]
    obtain ⟨i, hi, hib, hcons, hcl⟩ := h.split
    have hnoexit : Worker.exited ∉ p.workers := fun hmem => hclosed (h.exited hmem).1
    by_cases hlt : i < recs.length
    · have hiter : splitIter p.records p.server.config.BatchSize p.splitI =
          Iter.send ((recs.drop i).take cfg.BatchSize.toNat)
            ((i + cfg.BatchSize.toNat : Nat) : Int) := by
        rw [h.records, h.config, hi]
        exact splitIter_send recs cfg.BatchSize i hb1 hb2 hlen hib hlt
      rw [hiter]
      simp only []
      split
      · have hclen : ((recs.drop i).take cfg.BatchSize.toNat).length =
            Min.min cfg.BatchSize.toNat (recs.length - i) := by
          simp [List.length_take, List.length_drop]
        have hbn : ((cfg.BatchSize.toNat : Nat) : Int) = cfg.BatchSize :=
          Int.toNat_of_nonneg (by omega)
        exact
          { config := h.config
            records := h.records
            notPanicked := h.notPanicked
            split := by
              refine ⟨i + cfg.BatchSize.toNat, rfl, Or.inr (by omega), ?_, ?_⟩
              · simp only [lens_append, hclen]
                omega
              · intro hc
                exact absurd hc hclosed
            processed := h.processed
            matched := h.matched
            exited := fun hmem => absurd hmem hnoexit
            wf := h.wf
            nworkers := h.nworkers }
      · exact h
    · have hiter : splitIter p.records p.server.config.BatchSize p.splitI = Iter.stop := by
        rw [h.records, h.config, hi]
        exact splitIter_stop recs cfg.BatchSize i (by omega)
      rw [hiter]
      exact
        { config := h.config
          records := h.records
          notPanicked := h.notPanicked
          split := ⟨i, hi, hib, hcons, fun _ => by omega⟩
          processed := h.processed
          matched := h.matched
          exited := fun hmem => absurd hmem hnoexit
          wf := h.wf
          nworkers := h.nworkers }

theorem CountInv_stepCollect (cfg : Config) (recs : List Record) (p : Pipeline)
    (h : CountInv cfg recs p) : CountInv cfg recs (stepCollect p) := by
  unfold stepCollect
  cases hr : p.resultsChan with
  | nil => exact h
  | cons batch rest =>
    obtain ⟨i, hi, hib, hcons, hcl⟩ := h.split
    have hp := h.processed
    have hm := h.matched
    rw [hr] at hcons hp hm
    simp only [lens_cons, List.flatten_cons, cnt_append] at hcons hp hm
    exact
      { config := h.config
        records := h.records
        notPanicked := h.notPanicked
        split := by
          refine ⟨i, hi, hib, ?_, hcl⟩
          simp only [List.length_append]
          omega
        processed := by
          simp only [List.length_append]
          rw [hp]
          congr 1
          omega
        matched := by
          simp only [cnt_append]
          rw [hm]
          congr 1
          omega
        exited := h.exited
        wf := h.wf
        nworkers := h.nworkers }

theorem CountInv_stepFinish (cfg : Config) (recs : List Record) (p : Pipeline)
    (h : CountInv cfg recs p) : CountInv cfg recs (stepFinish p) := by
  unfold stepFinish
  split
  · exact
      { config := h.config
        records := h.records
        notPanicked := h.notPanicked
        split := h.split
        processed := h.processed
        matched := h.matched
        exited := h.exited
        wf := h.wf
        nworkers := h.nworkers }
  · exact h

theorem CountInv_processed_le (cfg : Config) (recs : List Record) (p : Pipeline)
    (h : CountInv cfg recs p) :
    p.results.length + lens p.resultsChan + (p.workers.map wdone).sum ≤ recs.length := by
  obtain ⟨i, _, _, hcons, _⟩ := h.split
  have := sum_wdone_le_wsize p.workers h.wf
  omega

/-- A worker writes the result of position `i` and counts the record. -/
theorem CountInv_fill (cfg : Config) (recs : List Record) (p : Pipeline)
    (hlen : (recs.length : Int) < 2 ^ 62) (h : CountInv cfg recs p) (w : Nat) (wk : Worker)
    (batch : List Record) (i : Nat) (hw : p.workers[w]? = some wk)
    (hwk : wk = Worker.busy batch i ∨ wk = Worker.missed batch i) (hi : i < batch.length)
    (s1 : Server) (hs1 : s1.config = p.server.config) (res : Bool × Str × Str) :
    CountInv cfg recs
      { p with
        server := s1
        metrics := countRecord p.metrics res.1
        workers := p.workers.set w (Worker.busy (fillAt batch i res) (i + 1)) } := by
  obtain ⟨i0, hi0, hib, hcons, hcl⟩ := h.split
  have hle := CountInv_processed_le cfg recs p h
  have hmd := sum_wmatched_le_wdone p.workers
  have hS := sum_map_set wsize p.workers w wk (Worker.busy (fillAt batch i res) (i + 1)) hw
  have hD := sum_map_set wdone p.workers w wk (Worker.busy (fillAt batch i res) (i + 1)) hw
  have hM := sum_map_set wmatched p.workers w wk (Worker.busy (fillAt batch i res) (i + 1)) hw
  have hS' : wsize wk = batch.length := by rcases hwk with rfl | rfl <;> rfl
  have hD' : wdone wk = i := by rcases hwk with rfl | rfl <;> rfl
  have hM' : wmatched wk = cnt (batch.take i) := by rcases hwk with rfl | rfl <;> rfl
  have hS2 : wsize (Worker.busy (fillAt batch i res) (i + 1)) = batch.length := by
    simp only [wsize, fillAt_length]
  have hD2 : wdone (Worker.busy (fillAt batch i res) (i + 1)) = i + 1 := rfl
  have hM2 : wmatched (Worker.busy (fillAt batch i res) (i + 1)) =
      cnt (batch.take i) + (if res.1 then 1 else 0) := by
    simp only [wmatched]
    exact cnt_take_fillAt batch i res hi
  rw [hS', hS2] at hS
  rw [hD', hD2] at hD
  rw [hM', hM2] at hM
  have hcl' := cnt_le_length p.results
  have hcl'' : cnt p.resultsChan.flatten ≤ lens p.resultsChan := cnt_le_length _
  exact
    { config := hs1.trans h.config
      records := h.records
      notPanicked := h.notPanicked
      split := by
        refine ⟨i0, hi0, hib, ?_, hcl⟩
        simp only
        omega
      processed := by
        simp only [countRecord]
        rw [h.processed, wrapInt64_of_range _ (by omega) (by omega)]
        omega
      matched := by
        simp only [countRecord]
        rw [h.matched]
        cases hres : res.1
        · rw [hres] at hM
          simp only [Bool.false_eq_true, if_false] at hM ⊢
          omega
        · rw [hres] at hM
          simp only [if_true] at hM ⊢
          rw [wrapInt64_of_range _ (by omega) (by omega)]
          omega
      exited := by
        intro hmem
        rcases mem_of_mem_set _ _ _ _ hmem with hx | hx
        · cases hx
        · exact h.exited hx
      wf := by
        intro x hx
        rcases mem_of_mem_set _ _ _ _ hx with hx | hx
        · rw [hx]
          simp only [WorkerWF, fillAt_length]
          omega
        · exact h.wf x hx
      nworkers := by
        simp only [List.length_set]
        exact h.nworkers }

theorem CountInv_stepWork (L : GoLib) (cfg : Config) (recs : List Record) (p : Pipeline)
    (hlen : (recs.length : Int) < 2 ^ 62) (w : Nat) (h : CountInv cfg recs p) :
    CountInv cfg recs (stepWork L p w) := by
  unfold stepWork
  obtain ⟨i0, hi0, hib, hcons, hcl⟩ := h.split
  cases hw : p.workers[w]? with
  | none => exact h
  | some wk =>
    have hmemw : wk ∈ p.workers := mem_of_getElem? _ _ _ hw
    cases wk with
    | exited => exact h
    | idle =>
      simp only []
      have hS := fun b => sum_map_set wsize p.workers w Worker.idle b hw
      have hD := fun b => sum_map_set wdone p.workers w Worker.idle b hw
      have hM := fun b => sum_map_set wmatched p.workers w Worker.idle b hw
      cases hrc : p.recordsChan with
      | nil =>
        simp only []
        split
        · rename_i hclosed
          have hS1 := hS Worker.exited
          have hD1 := hD Worker.exited
          have hM1 := hM Worker.exited
          simp only [wsize, wdone, wmatched] at hS1 hD1 hM1
          rw [hrc] at hcons
          exact
            { config := h.config
              records := h.records
              notPanicked := h.notPanicked
              split := by
                refine ⟨i0, hi0, hib, ?_, hcl⟩
                simp only
                omega
              processed := by
                simp only
                rw [h.processed]
                omega
              matched := by
                simp only
                rw [h.matched]
                omega
              exited := fun _ => ⟨hclosed, rfl⟩
              wf := by
                intro x hx
                rcases mem_of_mem_set _ _ _ _ hx with hx | hx
                · rw [hx]
                  trivial
                · exact h.wf x hx
              nworkers := by
                simp only [List.length_set]
                exact h.nworkers }
        · exact h
      | cons chunk rest =>
        simp only []
        have hS1 := hS (Worker.busy chunk 0)
        have hD1 := hD (Worker.busy chunk 0)
        have hM1 := hM (Worker.busy chunk 0)
        simp only [wsize, wdone, wmatched, List.take_zero] at hS1 hD1 hM1
        have hc0 : cnt ([] : List Record) = 0 := rfl
        rw [hc0] at hM1
        rw [hrc, lens_cons] at hcons
        exact
          { config := h.config
            records := h.records
            notPanicked := h.notPanicked
            split := by
              refine ⟨i0, hi0, hib, ?_, hcl⟩
              simp only
              omega
            processed := by
              simp only
              rw [h.processed]
              omega
            matched := by
              simp only
              rw [h.matched]
              omega
            exited := by
              intro hmem
              rcases mem_of_mem_set _ _ _ _ hmem with hx | hx
              · cases hx
              · have := (h.exited hx).2
                rw [hrc] at this
                cases this
            wf := by
              intro x hx
              rcases mem_of_mem_set _ _ _ _ hx with hx | hx
              · rw [hx]
                simp [WorkerWF]
              · exact h.wf x hx
            nworkers := by
              simp only [List.length_set]
              exact h.nworkers }
    | busy batch i =>
      simp only []
      have hwf : i ≤ batch.length := h.wf _ hmemw
      by_cases hi : i < batch.length
      · rw [if_pos hi]
        cases hcp : cacheProbe p.server (queryAt L batch i) with
        | mk s1 o =>
          have hs1 : s1.config = p.server.config := by
            have := cacheProbe_config p.server (queryAt L batch i)
            rw [hcp] at this
            exact this
          cases o with
          | some res =>
            exact CountInv_fill cfg recs p hlen h w _ batch i hw (Or.inl rfl) hi s1 hs1 res
          | none =>
            simp only []
            have hS := sum_map_set wsize p.workers w _ (Worker.missed batch i) hw
            have hD := sum_map_set wdone p.workers w _ (Worker.missed batch i) hw
            have hM := sum_map_set wmatched p.workers w _ (Worker.missed batch i) hw
            simp only [wsize, wdone, wmatched] at hS hD hM
            exact
              { config := hs1.trans h.config
                records := h.records
                notPanicked := h.notPanicked
                split := by
                  refine ⟨i0, hi0, hib, ?_, hcl⟩
                  simp only
                  omega
                processed := by
                  simp only
                  rw [h.processed]
                  omega
                matched := by
                  simp only
                  rw [h.matched]
                  omega
                exited := by
                  intro hmem
                  rcases mem_of_mem_set _ _ _ _ hmem with hx | hx
                  · cases hx
                  · exact h.exited hx
                wf := by
                  intro x hx
                  rcases mem_of_mem_set _ _ _ _ hx with hx | hx
                  · rw [hx]
                    exact hi
                  · exact h.wf x hx
                nworkers := by
                  simp only [List.length_set]
                  exact h.nworkers }
      · rw [if_neg hi]
        have hieq : i = batch.length := by omega
        split
        · have hS := sum_map_set wsize p.workers w _ Worker.idle hw
          have hD := sum_map_set wdone p.workers w _ Worker.idle hw
          have hM := sum_map_set wmatched p.workers w _ Worker.idle hw
          simp only [wsize, wdone, wmatched] at hS hD hM
          rw [hieq, List.take_length] at hM
          exact
            { config := h.config
              records := h.records
              notPanicked := h.notPanicked
              split := by
                refine ⟨i0, hi0, hib, ?_, hcl⟩
                simp only [lens_append]
                omega
              processed := by
                simp only [lens_append]
                rw [h.processed]
                omega
              matched := by
                simp only [List.flatten_append, cnt_append, List.flatten_cons, List.flatten_nil,
                  List.append_nil]
                rw [h.matched]
                omega
              exited := by
                intro hmem
                rcases mem_of_mem_set _ _ _ _ hmem with hx | hx
                · cases hx
                · exact h.exited hx
              wf := by
                intro x hx
                rcases mem_of_mem_set _ _ _ _ hx with hx | hx
                · rw [hx]
                  trivial
                · exact h.wf x hx
              nworkers := by
                simp only [List.length_set]
                exact h.nworkers }
        · exact h
    | missed batch i =>
      simp only []
      have hi : i < batch.length := h.wf _ hmemw
      cases hla : lookupAfterMiss L p.server (queryAt L batch i) with
      | mk s1 res =>
        have hs1 : s1.config = p.server.config := by
          have := lookupAfterMiss_config L p.server (queryAt L batch i)
          rw [hla] at this
          exact this
        exact CountInv_fill cfg recs p hlen h w _ batch i hw (Or.inr rfl) hi s1 hs1 res

theorem CountInv_step (L : GoLib) (cfg : Config) (recs : List Record) (p : Pipeline)
    (hb1 : 1 ≤ cfg.BatchSize) (hb2 : cfg.BatchSize < 2 ^ 63)
    (hlen : (recs.length : Int) < 2 ^ 62) (a : Action) (h : CountInv cfg recs p) :
    CountInv cfg recs (step L p a) := by
  unfold step
  split
  · exact h
  · cases a with
    | produce => exact CountInv_stepProduce cfg recs p hb1 hb2 hlen h
    | work w => exact CountInv_stepWork L cfg recs p hlen w h
    | collect => exact CountInv_stepCollect cfg recs p h
    | finish => exact CountInv_stepFinish cfg recs p h

theorem CountInv_run (L : GoLib) (cfg : Config) (recs : List Record)
    (hb1 : 1 ≤ cfg.BatchSize) (hb2 : cfg.BatchSize < 2 ^ 63)
    (hlen : (recs.length : Int) < 2 ^ 62) (sched : List Action) (p : Pipeline)
    (h : CountInv cfg recs p) : CountInv cfg recs (run L p sched) := by
  induction sched generalizing p with
  | nil => exact h
  | cons a as ih =>
    simp only [run, List.foldl_cons]
    exact ih _ (CountInv_step L cfg recs p hb1 hb2 hlen a h)

theorem CountInv_init (S : SortSlice) (s : Server) (records : List Record) (p0 : Pipeline)
    (h : initPipeline S s records = some p0) : CountInv s.config (S.sort records) p0 := by
  unfold initPipeline at h
  split at h
  · cases h
  · simp only [Option.some.injEq] at h
    subst h
    have hz : ∀ (f : Worker → Nat), f Worker.idle = 0 → ∀ n,
        ((List.replicate n Worker.idle).map f).sum = 0 := by
      intro f hf n
      induction n with
      | zero => rfl
      | succ n ih => simp [List.replicate_succ, hf, ih]
    exact
      { config := rfl
        records := rfl
        notPanicked := rfl
        split := by
          refine ⟨0, rfl, Or.inl rfl, ?_, ?_⟩
          · simp only [hz wsize rfl, lens, List.flatten_nil, List.length_nil]
            omega
          · intro hc
            cases hc
        processed := by
          simp only [hz wdone rfl, lens, List.flatten_nil, List.length_nil]
          rfl
        matched := by
          simp only [hz wmatched rfl, cnt, List.flatten_nil, List.countP_nil]
          rfl
        exited := by
          intro hmem
          have := List.eq_of_mem_replicate hmem
          cases this
        wf := by
          intro x hx
          rw [List.eq_of_mem_replicate hx]
          trivial
        nworkers := by simp }

/-! ## Every run can be completed -/

theorem progress_produce (cfg : Config) (recs : List Record) (p : Pipeline)
    (hb1 : 1 ≤ cfg.BatchSize) (hb2 : cfg.BatchSize < 2 ^ 63)
    (hlen : (recs.length : Int) < 2 ^ 62) (h : CountInv cfg recs p)
    (hopen : ¬ p.recordsClosed = true) (hchan : p.recordsChan = []) :
    remaining (stepProduce p) < remaining p := by
  unfold stepProduce
  rw [if_neg hopen]
  obtain ⟨i, hi, hib, hcons, hcl⟩ := h.split
  have hcf : p.recordsClosed = false := by simpa using hopen
  have hrem : remaining p = 6 * (recs.length - i) + chanWeight p.recordsChan +
      (p.workers.map wmu).sum + p.resultsChan.length + 1 := by
    simp only [remaining, h.records, hi, Int.toNat_ofNat, hcf, Bool.false_eq_true, if_false]
  by_cases hlt : i < recs.length
  · have hiter : splitIter p.records p.server.config.BatchSize p.splitI =
        Iter.send ((recs.drop i).take cfg.BatchSize.toNat)
          ((i + cfg.BatchSize.toNat : Nat) : Int) := by
      rw [h.records, h.config, hi]
      exact splitIter_send recs cfg.BatchSize i hb1 hb2 hlen hib hlt
    have hroom : hasRoom p.server.config.BufferSize p.recordsChan = true := by
      rw [hchan]
      simp only [hasRoom, List.length_nil, Nat.cast_zero, decide_eq_true_eq]
      exact lt_of_lt_of_le (by decide) (le_max_right _ _)
    rw [hiter]
    simp only [hroom, if_true]
    have hclen : ((recs.drop i).take cfg.BatchSize.toNat).length =
        Min.min cfg.BatchSize.toNat (recs.length - i) := by
      simp [List.length_take, List.length_drop]
    have hbn : ((cfg.BatchSize.toNat : Nat) : Int) = cfg.BatchSize :=
      Int.toNat_of_nonneg (by omega)
    rw [hrem]
    simp only [remaining, h.records, Int.toNat_ofNat, hcf, Bool.false_eq_true, if_false,
      chanWeight, lens_append, List.length_append, List.length_singleton, hclen]
    omega
  · have hiter : splitIter p.records p.server.config.BatchSize p.splitI = Iter.stop := by
      rw [h.records, h.config, hi]
      exact splitIter_stop recs cfg.BatchSize i (by omega)
    rw [hiter, hrem]
    simp only [remaining, h.records, hi, Int.toNat_ofNat, if_true]
    omega

theorem progress_collect (p : Pipeline) (hne : p.resultsChan ≠ []) :
    remaining (stepCollect p) < remaining p := by
  unfold stepCollect
  cases hr : p.resultsChan with
  | nil => exact absurd hr hne
  | cons batch rest =>
    simp only [remaining, hr, List.length_cons]
    omega

theorem progress_work (L : GoLib) (cfg : Config) (recs : List Record) (p : Pipeline)
    (h : CountInv cfg recs p) (w : Nat) (wk : Worker) (hw : p.workers[w]? = some wk)
    (hen : match wk with
      | Worker.exited => False
      | Worker.idle => p.recordsChan ≠ [] ∨ p.recordsClosed = true
      | Worker.busy b i => i < b.length ∨ hasRoom p.server.config.BufferSize p.resultsChan = true
      | Worker.missed _ _ => True) :
    remaining (stepWork L p w) < remaining p := by
  have hmemw : wk ∈ p.workers := mem_of_getElem? _ _ _ hw
  have hwf := h.wf wk hmemw
  have hmu := fun b => sum_map_set wmu p.workers w wk b hw
  unfold stepWork
  rw [hw]
  cases wk with
  | exited => exact absurd hen id
  | idle =>
    simp only [] at hen ⊢
    cases hrc : p.recordsChan with
    | nil =>
      have hclosed : p.recordsClosed = true := by
        rcases hen with hen | hen
        · exact absurd hrc hen
        · exact hen
      simp only [hclosed, if_true]
      have := hmu Worker.exited
      simp only [remaining, wmu, hrc, hclosed, if_true] at this ⊢
      omega
    | cons chunk rest =>
      simp only []
      have := hmu (Worker.busy chunk 0)
      simp only [remaining, wmu, hrc, chanWeight, lens_cons, List.length_cons] at this ⊢
      omega
  | busy batch i =>
    simp only [] at hen ⊢
    by_cases hi : i < batch.length
    · rw [if_pos hi]
      cases hcp : cacheProbe p.server (queryAt L batch i) with
      | mk s1 o =>
        cases o with
        | some res =>
          simp only []
          have := hmu (Worker.busy (fillAt batch i res) (i + 1))
          simp only [remaining, wmu, fillAt_length] at this ⊢
          omega
        | none =>
          simp only []
          have := hmu (Worker.missed batch i)
          simp only [remaining, wmu] at this ⊢
          omega
    · rw [if_neg hi]
      have hroom : hasRoom p.server.config.BufferSize p.resultsChan = true := by
        rcases hen with hen | hen
        · exact absurd hen hi
        · exact hen
      rw [if_pos hroom]
      have := hmu Worker.idle
      simp only [remaining, wmu, List.length_append, List.length_singleton] at this ⊢
      omega
  | missed batch i =>
    simp only []
    have hi : i < batch.length := hwf
    cases hla : lookupAfterMiss L p.server (queryAt L batch i) with
    | mk s1 res =>
      simp only []
      have := hmu (Worker.busy (fillAt batch i res) (i + 1))
      simp only [remaining, wmu, fillAt_length] at this ⊢
      omega

theorem exists_not_exited (l : List Worker)
    (h : l.all (fun w => decide (w = Worker.exited)) = false) :
    ∃ (w : Nat) (wk : Worker), l[w]? = some wk ∧ wk ≠ Worker.exited := by
  induction l with
  | nil => simp at h
  | cons x xs ih =>
    by_cases hx : x = Worker.exited
    · have hxs : xs.all (fun w => decide (w = Worker.exited)) = false := by
        simpa [List.all_cons, hx] using h
      obtain ⟨w, wk, hw, hne⟩ := ih hxs
      exact ⟨w + 1, wk, by simpa using hw, hne⟩
    · exact ⟨0, x, by simp, hx⟩

/-- While some worker has not exited, some goroutine can take a step that
reduces the work left. -/
theorem progress (L : GoLib) (cfg : Config) (recs : List Record) (p : Pipeline)
    (hb1 : 1 ≤ cfg.BatchSize) (hb2 : cfg.BatchSize < 2 ^ 63)
    (hlen : (recs.length : Int) < 2 ^ 62) (h : CountInv cfg recs p)
    (hne : allExited p = false) : ∃ a, remaining (step L p a) < remaining p := by
  have hstep : ∀ a, step L p a =
      match a with
      | Action.produce => stepProduce p
      | Action.work w => stepWork L p w
      | Action.collect => stepCollect p
      | Action.finish => stepFinish p := by
    intro a
    simp only [step, h.notPanicked, Bool.false_eq_true, if_false]
  by_cases hbusy : ∃ (w : Nat) (b : List Record) (i : Nat),
      p.workers[w]? = some (Worker.busy b i) ∨
      p.workers[w]? = some (Worker.missed b i)
  · obtain ⟨w, b, i, hw | hw⟩ := hbusy
    · by_cases hen : i < b.length ∨ hasRoom p.server.config.BufferSize p.resultsChan = true
      · refine ⟨Action.work w, ?_⟩
        rw [hstep]
        exact progress_work L cfg recs p h w _ hw hen
      · refine ⟨Action.collect, ?_⟩
        rw [hstep]
        apply progress_collect
        intro hnil
        apply hen
        right
        rw [hnil]
        simp only [hasRoom, List.length_nil, Nat.cast_zero, decide_eq_true_eq]
        exact lt_of_lt_of_le (by decide) (le_max_right _ _)
    · refine ⟨Action.work w, ?_⟩
      rw [hstep]
      exact progress_work L cfg recs p h w _ hw trivial
  · obtain ⟨w, wk, hw, hwk⟩ := exists_not_exited p.workers hne
    have hidle : wk = Worker.idle := by
      cases wk with
      | idle => rfl
      | exited => exact absurd rfl hwk
      | busy b i => exact absurd ⟨w, b, i, Or.inl hw⟩ hbusy
      | missed b i => exact absurd ⟨w, b, i, Or.inr hw⟩ hbusy
    subst hidle
    by_cases hen : p.recordsChan ≠ [] ∨ p.recordsClosed = true
    · refine ⟨Action.work w, ?_⟩
      rw [hstep]
      exact progress_work L cfg recs p h w _ hw hen
    · refine ⟨Action.produce, ?_⟩
      rw [hstep]
      have hchan : p.recordsChan = [] := by
        by_contra hc
        exact hen (Or.inl hc)
      exact progress_produce cfg recs p hb1 hb2 hlen h (fun hc => hen (Or.inr hc)) hchan

/-- From every state of a run there is a schedule after which every worker has
exited. -/
theorem exists_complete_run (L : GoLib) (cfg : Config) (recs : List Record)
    (hb1 : 1 ≤ cfg.BatchSize) (hb2 : cfg.BatchSize < 2 ^ 63)
    (hlen : (recs.length : Int) < 2 ^ 62) :
    ∀ (n : Nat) (p : Pipeline), CountInv cfg recs p → remaining p ≤ n →
      ∃ sched, allExited (run L p sched) = true := by
  intro n
  induction n with
  | zero =>
    intro p h hn
    cases hall : allExited p with
    | true => exact ⟨[], hall⟩
    | false =>
      obtain ⟨a, ha⟩ := progress L cfg recs p hb1 hb2 hlen h hall
      omega
  | succ n ih =>
    intro p h hn
    cases hall : allExited p with
    | true => exact ⟨[], hall⟩
    | false =>
      obtain ⟨a, ha⟩ := progress L cfg recs p hb1 hb2 hlen h hall
      obtain ⟨sched, hs⟩ := ih (step L p a) (CountInv_step L cfg recs p hb1 hb2 hlen a h)
        (by omega)
      exact ⟨a :: sched, by simpa [run] using hs⟩

/-! ## The counters of a batch -/

theorem CountInv_final (cfg : Config) (recs : List Record) (p : Pipeline)
    (hw : 1 ≤ cfg.WorkerCount) (h : CountInv cfg recs p) (hall : allExited p = true) :
    p.metrics.ProcessedRecords = (recs.length : Int) ∧
    p.metrics.MatchedRecords = ((cnt (emitted p) : Nat) : Int) ∧
    (emitted p).length = recs.length := by
  obtain ⟨i, hi, hib, hcons, hcl⟩ := h.split
  have hS := sum_eq_zero_of_allExited wsize rfl p.workers hall
  have hD := sum_eq_zero_of_allExited wdone rfl p.workers hall
  have hM := sum_eq_zero_of_allExited wmatched rfl p.workers hall
  have hmem : Worker.exited ∈ p.workers := by
    cases hws : p.workers with
    | nil =>
      have := h.nworkers
      rw [hws] at this
      simp only [List.length_nil] at this
      omega
    | cons x xs =>
      have hall' := hall
      unfold allExited at hall'
      rw [hws] at hall'
      simp only [List.all_cons, Bool.and_eq_true, decide_eq_true_eq] at hall'
      rw [hall'.1]
      exact List.mem_cons_self _ _
  obtain ⟨hclosed, hchan⟩ := h.exited hmem
  have hge := hcl hclosed
  rw [hS, hchan] at hcons
  simp only [lens, List.flatten_nil, List.length_nil] at hcons
  refine ⟨?_, ?_, ?_⟩
  · rw [h.processed, hD]
    simp only [lens]
    omega
  · rw [h.matched, hM]
    simp only [emitted, cnt_append]
    omega
  · simp only [emitted, List.length_append]
    omega

theorem CountInv_bounds (cfg : Config) (recs : List Record) (p : Pipeline)
    (h : CountInv cfg recs p) :
    0 ≤ p.metrics.MatchedRecords ∧ p.metrics.MatchedRecords ≤ p.metrics.ProcessedRecords ∧
    p.metrics.ProcessedRecords ≤ (recs.length : Int) := by
  have hle := CountInv_processed_le cfg recs p h
  have hmd := sum_wmatched_le_wdone p.workers
  have h1 := cnt_le_length p.results
  have h2 : cnt p.resultsChan.flatten ≤ lens p.resultsChan := cnt_le_length _
  rw [h.matched, h.processed]
  omega

theorem processInputFile_some (L : GoLib) (S : SortSlice) (s : Server) (records : List Record)
    (sched : List Action) (p : Pipeline) (h : processInputFile L S s records sched = some p) :
    ∃ p0, initPipeline S s records = some p0 ∧ p = run L p0 sched := by
  unfold processInputFile at h
  cases hi : initPipeline S s records with
  | none =>
    rw [hi] at h
    cases h
  | some p0 =>
    rw [hi] at h
    simp only [Option.map_some', Option.some.injEq] at h
    exact ⟨p0, rfl, h.symm⟩

/-- The counters of a batch.  For every record list (shorter than `2^62`), batch
size from 1 up and worker count from 1 up, in every run of `processInputFile`: at
any moment `0 ≤ MatchedRecords ≤ ProcessedRecords ≤ len(records)`; once every
worker has exited (all chunks are processed and `wg.Wait()` returns),
`ProcessedRecords` equals `len(records)`, the workers have sent `len(records)`
records to `resultsChan`, and `MatchedRecords` is the number of the records sent
that have `Result = true`.  Such a run exists for every such input whose
`BufferSize` is not negative. -/
theorem batch_metrics (L : GoLib) (S : SortSlice) (s : Server) (records : List Record)
    (hb1 : 1 ≤ s.config.BatchSize) (hb2 : s.config.BatchSize < 2 ^ 63)
    (hw : 1 ≤ s.config.WorkerCount) (hlen : (records.length : Int) < 2 ^ 62) :
    (∀ sched p, processInputFile L S s records sched = some p →
      (0 ≤ p.metrics.MatchedRecords ∧
        p.metrics.MatchedRecords ≤ p.metrics.ProcessedRecords ∧
        p.metrics.ProcessedRecords ≤ (records.length : Int)) ∧
      (allExited p = true →
        p.metrics.ProcessedRecords = (records.length : Int) ∧
        (emitted p).length = records.length ∧
        p.metrics.MatchedRecords = (((emitted p).countP (fun r => r.Result) : Nat) : Int))) ∧
    (0 ≤ s.config.BufferSize →
      ∃ sched p, processInputFile L S s records sched = some p ∧ allExited p = true) := by
  have hl : (S.sort records).length = records.length := (S.perm records).length_eq
  have hlen' : ((S.sort records).length : Int) < 2 ^ 62 := by rw [hl]; exact hlen
  refine ⟨?_, ?_⟩
  · intro sched p hp
    obtain ⟨p0, hinit, rfl⟩ := processInputFile_some L S s records sched p hp
    have hrun := CountInv_run L s.config (S.sort records) hb1 hb2 hlen' sched p0
      (CountInv_init S s records p0 hinit)
    refine ⟨?_, ?_⟩
    · have := CountInv_bounds _ _ _ hrun
      rw [hl] at this
      exact this
    · intro hall
      obtain ⟨h1, h2, h3⟩ := CountInv_final _ _ _ hw hrun hall
      rw [hl] at h1 h3
      exact ⟨h1, h3, h2⟩
  · intro hbuf
    have hsome : ∃ p0, initPipeline S s records = some p0 := by
      unfold initPipeline
      rw [if_neg (by omega)]
      exact ⟨_, rfl⟩
    obtain ⟨p0, hinit⟩ := hsome
    obtain ⟨sched, hs⟩ := exists_complete_run L s.config (S.sort records) hb1 hb2 hlen'
      (remaining p0) p0 (CountInv_init S s records p0 hinit) (Nat.le_refl _)
    refine ⟨sched, run L p0 sched, ?_, hs⟩
    simp only [processInputFile, hinit, Option.map_some']

theorem batch_metrics_witness :
    1 ≤ demoServer.config.BatchSize ∧ demoServer.config.BatchSize < 2 ^ 63 ∧
    1 ≤ demoServer.config.WorkerCount ∧ (demoRecords.length : Int) < 2 ^ 62 ∧
    ((∀ sched p, processInputFile refLib refSort demoServer demoRecords sched = some p →
      (0 ≤ p.metrics.MatchedRecords ∧
        p.metrics.MatchedRecords ≤ p.metrics.ProcessedRecords ∧
        p.metrics.ProcessedRecords ≤ (demoRecords.length : Int)) ∧
      (allExited p = true →
        p.metrics.ProcessedRecords = (demoRecords.length : Int) ∧
        (emitted p).length = demoRecords.length ∧
        p.metrics.MatchedRecords = (((emitted p).countP (fun r => r.Result) : Nat) : Int))) ∧
    (0 ≤ demoServer.config.BufferSize →
      ∃ sched p, processInputFile refLib refSort demoServer demoRecords sched = some p ∧
        allExited p = true)) :=
  ⟨by decide, by decide, by decide, by decide,
    batch_metrics refLib refSort demoServer demoRecords (by decide) (by decide)
      (by decide) (by decide)⟩

theorem chunking_witness :
    (1 : Int) ≤ 2 ∧ (2 : Int) < 2 ^ 63 ∧ (demoRecords.length : Int) < 2 ^ 62 ∧
    ((splitter (refSort.sort demoRecords) 2 (demoRecords.length + 1) 0).2 = SplitEnd.closed ∧
    (∀ k, splitter (refSort.sort demoRecords) 2 (demoRecords.length + 1 + k) 0 =
      splitter (refSort.sort demoRecords) 2 (demoRecords.length + 1) 0) ∧
    (splitter (refSort.sort demoRecords) 2 (demoRecords.length + 1) 0).1.flatten =
      refSort.sort demoRecords ∧
    (refSort.sort demoRecords).Perm demoRecords ∧
    (refSort.sort demoRecords).Pairwise (fun a b => bytesLess b.Name a.Name = false) ∧
    ((splitter (refSort.sort demoRecords) 2 (demoRecords.length + 1) 0).1.map
      List.length).sum = demoRecords.length ∧
    (∀ c ∈ (splitter (refSort.sort demoRecords) 2 (demoRecords.length + 1) 0).1,
      c ≠ [] ∧ (c.length : Int) ≤ 2) ∧
    (∀ c ∈ (splitter (refSort.sort demoRecords) 2 (demoRecords.length + 1) 0).1.dropLast,
      (c.length : Int) = 2)) :=
  ⟨by decide, by decide, by decide, chunking refSort demoRecords 2 (by decide) (by decide)
    (by decide)⟩

/-! ## Where the records on the output side come from -/

/-- The cached lookup is the probe of the cache followed, on a miss, by the scan. -/
theorem lookupWithCache_eq_split (L : GoLib) (s : Server) (q : Str) :
    lookupWithCache L s q =
      match cacheProbe s q with
      | (s1, some r) => (s1, r)
      | (s1, none) => lookupAfterMiss L s1 q := by
  unfold lookupWithCache cacheProbe lookupAfterMiss
  cases cacheLoad s.matchCache q <;> rfl

theorem cacheProbe_spec (L : GoLib) (s : Server) (q : Str) (h : CacheOK L s) :
    (cacheProbe s q).1.db = s.db ∧ (cacheProbe s q).1.matcher = s.matcher ∧
    CacheOK L (cacheProbe s q).1 ∧
    ∀ res, (cacheProbe s q).2 = some res → res = performLookup L s q := by
  unfold cacheProbe
  cases hc : cacheLoad s.matchCache q with
  | some e =>
    refine ⟨rfl, rfl, ?_, ?_⟩
    · intro q' e' hl
      refine Eq.trans ?_ (h q' e' hl)
      apply performLookup_congr <;> rfl
    · intro res hres
      simp only [Option.some.injEq] at hres
      rw [← hres]
      exact (h q e hc).symm
  | none =>
    refine ⟨rfl, rfl, ?_, ?_⟩
    · intro q' e' hl
      refine Eq.trans ?_ (h q' e' hl)
      apply performLookup_congr <;> rfl
    · intro res hres
      cases hres

theorem lookupAfterMiss_found (L : GoLib) (s : Server) (q : Str)
    (hf : (performLookup L s q).1 = true) :
    lookupAfterMiss L s q =
      ({ s with matchCache := (cacheStore s.matchCache q
            ⟨(performLookup L s q).2.1, (performLookup L s q).2.2⟩) },
        performLookup L s q) := by
  simp [lookupAfterMiss, hf]

theorem lookupAfterMiss_not_found (L : GoLib) (s : Server) (q : Str)
    (hf : (performLookup L s q).1 = false) :
    lookupAfterMiss L s q = (s, performLookup L s q) := by
  simp [lookupAfterMiss, hf]

theorem lookupAfterMiss_spec (L : GoLib) (s : Server) (q : Str) (h : CacheOK L s) :
    (lookupAfterMiss L s q).1.db = s.db ∧ (lookupAfterMiss L s q).1.matcher = s.matcher ∧
    CacheOK L (lookupAfterMiss L s q).1 ∧
    (lookupAfterMiss L s q).2 = performLookup L s q := by
  cases hf : (performLookup L s q).1 with
  | false =>
    rw [lookupAfterMiss_not_found L s q hf]
    exact ⟨rfl, rfl, h, rfl⟩
  | true =>
    rw [lookupAfterMiss_found L s q hf]
    refine ⟨rfl, rfl, ?_, rfl⟩
    intro q' e' hl
    refine Eq.trans (b := performLookup L s q') ?_ ?_
    · apply performLookup_congr <;> rfl
    · simp only at hl
      rw [cacheLoad_store] at hl
      split at hl
      · rename_i hk
        subst hk
        cases hl
        simp only
        rw [← hf]
      · exact h q' e' hl

theorem splitIter_chunk_subset (records : List Record) (b i : Int) (chunk : List Record)
    (next : Int) (h : splitIter records b i = Iter.send chunk next) :
    ∀ r ∈ chunk, r ∈ records := by
  unfold splitIter at h
  by_cases h1 : i < records.length
  · rw [if_pos h1] at h
    by_cases h2 : 0 ≤ i ∧ i ≤ (if wrapInt64 (i + b) > (records.length : Int)
        then (records.length : Int) else wrapInt64 (i + b))
    · simp only [h2, and_self, if_true, Iter.send.injEq] at h
      intro r hr
      rw [← h.1] at hr
      exact List.mem_of_mem_drop (List.mem_of_mem_take hr)
    · simp only [h2, if_false] at h
      cases h
  · rw [if_neg h1] at h
    cases h

theorem getElem?_fillAt (batch : List Record) (i j : Nat) (res : Bool × Str × Str) :
    (fillAt batch i res)[j]? =
      if j = i then (batch[i]?).map (fun r => fillRecord r res) else batch[j]? := by
  unfold fillAt
  cases hb : batch[i]? with
  | none =>
    simp only [Option.map_none']
    split
    · rename_i hji
      rw [hji]
      exact hb
    · rfl
  | some r =>
    simp only [Option.map_some']
    by_cases hji : j = i
    · subst hji
      have hlt : j < batch.length := by
        rw [List.getElem?_eq_some_iff] at hb
        exact hb.1
      simp [List.getElem?_set_self hlt]
    · simp only [hji, if_false]
      exact List.getElem?_set_ne (fun h => hji h.symm)

theorem OutInv_fill (L : GoLib) (s0 : Server) (input : List Record) (p : Pipeline)
    (h : OutInv L s0 input p) (w : Nat) (wk : Worker) (batch : List Record) (i : Nat)
    (hw : p.workers[w]? = some wk)
    (hwk : wk = Worker.busy batch i ∨ wk = Worker.missed batch i)
    (s1 : Server) (hdb : s1.db = p.server.db) (hm : s1.matcher = p.server.matcher)
    (hc : CacheOK L s1) (res : Bool × Str × Str)
    (hres : res = performLookup L p.server (queryAt L batch i)) (m : Metrics) :
    OutInv L s0 input
      { p with
        server := s1
        metrics := m
        workers := p.workers.set w (Worker.busy (fillAt batch i res) (i + 1)) } := by
  have hmemw : wk ∈ p.workers := mem_of_getElem? _ _ _ hw
  have hold : ∀ (j : Nat) (r : Record), batch[j]? = some r →
      (j < i → Done L s0 input r) ∧ (i ≤ j → r ∈ input) := by
    have := h.workers wk hmemw
    rcases hwk with rfl | rfl <;> exact this
  exact
    { db := hdb.trans h.db
      matcher := hm.trans h.matcher
      cache := hc
      recs := h.recs
      chanIn := h.chanIn
      workers := by
        intro x hx
        rcases mem_of_mem_set _ _ _ _ hx with hx | hx
        · rw [hx]
          intro j r hj
          rw [getElem?_fillAt] at hj
          by_cases hji : j = i
          · subst hji
            simp only [if_true] at hj
            cases hb : batch[j]? with
            | none =>
              rw [hb] at hj
              cases hj
            | some r0 =>
              rw [hb] at hj
              simp only [Option.map_some', Option.some.injEq] at hj
              refine ⟨fun _ => ⟨r0, (hold j r0 hb).2 (Nat.le_refl _), ?_⟩, fun hlt => ?_⟩
              · rw [← hj, hres]
                simp only [expected, queryAt, hb]
                congr 1
                exact performLookup_congr L _ _ h.db h.matcher _
              · omega
          · simp only [hji, if_false] at hj
            refine ⟨fun hlt => (hold j r hj).1 (by omega), fun hle => (hold j r hj).2 (by omega)⟩
        · exact h.workers x hx
      chanOut := h.chanOut
      results := h.results
      output := h.output }

theorem OutInv_stepWork (L : GoLib) (s0 : Server) (input : List Record) (p : Pipeline)
    (w : Nat) (h : OutInv L s0 input p) : OutInv L s0 input (stepWork L p w) := by
  unfold stepWork
  cases hw : p.workers[w]? with
  | none => exact h
  | some wk =>
    have hmemw : wk ∈ p.workers := mem_of_getElem? _ _ _ hw
    have hwo := h.workers wk hmemw
    cases wk with
    | exited => exact h
    | idle =>
      simp only []
      cases hrc : p.recordsChan with
      | nil =>
        simp only []
        split
        · exact
            { db := h.db
              matcher := h.matcher
              cache := h.cache
              recs := h.recs
              chanIn := by
                intro c hc
                cases hc
              workers := by
                intro x hx
                rcases mem_of_mem_set _ _ _ _ hx with hx | hx
                · rw [hx]
                  trivial
                · exact h.workers x hx
              chanOut := h.chanOut
              results := h.results
              output := h.output }
        · exact h
      | cons chunk rest =>
        simp only []
        have hin := h.chanIn
        rw [hrc] at hin
        exact
          { db := h.db
            matcher := h.matcher
            cache := h.cache
            recs := h.recs
            chanIn := fun c hc => hin c (List.mem_cons_of_mem _ hc)
            workers := by
              intro x hx
              rcases mem_of_mem_set _ _ _ _ hx with hx | hx
              · rw [hx]
                intro j r hj
                refine ⟨fun hlt => absurd hlt (Nat.not_lt_zero _), fun _ => ?_⟩
                exact hin chunk (List.mem_cons_self _ _) r (List.getElem?_mem hj)
              · exact h.workers x hx
            chanOut := h.chanOut
            results := h.results
            output := h.output }
    | busy batch i =>
      simp only []
      by_cases hi : i < batch.length
      · rw [if_pos hi]
        have hsp := cacheProbe_spec L p.server (queryAt L batch i) h.cache
        cases hcp : cacheProbe p.server (queryAt L batch i) with
        | mk s1 o =>
          rw [hcp] at hsp
          obtain ⟨hdb, hm, hc, hr⟩ := hsp
          cases o with
          | some res =>
            exact OutInv_fill L s0 input p h w _ batch i hw (Or.inl rfl) s1 hdb hm hc res
              (hr res rfl) _
          | none =>
            simp only []
            exact
              { db := hdb.trans h.db
                matcher := hm.trans h.matcher
                cache := hc
                recs := h.recs
                chanIn := h.chanIn
                workers := by
                  intro x hx
                  rcases mem_of_mem_set _ _ _ _ hx with hx | hx
                  · rw [hx]
                    exact hwo
                  · exact h.workers x hx
                chanOut := h.chanOut
                results := h.results
                output := h.output }
      · rw [if_neg hi]
        split
        · exact
            { db := h.db
              matcher := h.matcher
              cache := h.cache
              recs := h.recs
              chanIn := h.chanIn
              workers := by
                intro x hx
                rcases mem_of_mem_set _ _ _ _ hx with hx | hx
                · rw [hx]
                  trivial
                · exact h.workers x hx
              chanOut := by
                intro c hc r hr
                rcases List.mem_append.1 hc with hc | hc
                · exact h.chanOut c hc r hr
                · simp only [List.mem_singleton] at hc
                  subst hc
                  obtain ⟨j, hj⟩ := List.getElem?_of_mem hr
                  have hjlt : j < c.length := by
                    rw [List.getElem?_eq_some_iff] at hj
                    exact hj.1
                  exact (hwo j r hj).1 (by omega)
              results := h.results
              output := h.output }
        · exact h
    | missed batch i =>
      simp only []
      have hsp := lookupAfterMiss_spec L p.server (queryAt L batch i) h.cache
      cases hla : lookupAfterMiss L p.server (queryAt L batch i) with
      | mk s1 res =>
        rw [hla] at hsp
        obtain ⟨hdb, hm, hc, hr⟩ := hsp
        exact OutInv_fill L s0 input p h w _ batch i hw (Or.inr rfl) s1 hdb hm hc res hr _

theorem OutInv_step (L : GoLib) (s0 : Server) (input : List Record) (p : Pipeline)
    (a : Action) (h : OutInv L s0 input p) : OutInv L s0 input (step L p a) := by
  unfold step
  split
  · exact h
  · cases a with
    | produce =>
      simp only []
      unfold stepProduce
      split
      · exact h
      · cases hit : splitIter p.records p.server.config.BatchSize p.splitI with
        | stop =>
          exact
            { db := h.db, matcher := h.matcher, cache := h.cache, recs := h.recs
              chanIn := h.chanIn, workers := h.workers, chanOut := h.chanOut
              results := h.results, output := h.output }
        | panic =>
          exact
            { db := h.db, matcher := h.matcher, cache := h.cache, recs := h.recs
              chanIn := h.chanIn, workers := h.workers, chanOut := h.chanOut
              results := h.results, output := h.output }
        | send chunk next =>
          simp only []
          split
          · exact
              { db := h.db, matcher := h.matcher, cache := h.cache, recs := h.recs
                chanIn := by
                  intro c hc r hr
                  rcases List.mem_append.1 hc with hc | hc
                  · exact h.chanIn c hc r hr
                  · simp only [List.mem_singleton] at hc
                    subst hc
                    exact h.recs r (splitIter_chunk_subset _ _ _ _ _ hit r hr)
                workers := h.workers, chanOut := h.chanOut
                results := h.results, output := h.output }
          · exact h
    | work w => exact OutInv_stepWork L s0 input p w h
    | collect =>
      simp only []
      unfold stepCollect
      cases hr : p.resultsChan with
      | nil => exact h
      | cons batch rest =>
        have hout := h.chanOut
        rw [hr] at hout
        exact
          { db := h.db, matcher := h.matcher, cache := h.cache, recs := h.recs
            chanIn := h.chanIn, workers := h.workers
            chanOut := fun c hc => hout c (List.mem_cons_of_mem _ hc)
            results := by
              intro r hrm
              rcases List.mem_append.1 hrm with hrm | hrm
              · exact h.results r hrm
              · exact hout batch (List.mem_cons_self _ _) r hrm
            output := h.output }
    | finish =>
      simp only []
      unfold stepFinish
      split
      · exact
          { db := h.db, matcher := h.matcher, cache := h.cache, recs := h.recs
            chanIn := h.chanIn, workers := h.workers, chanOut := h.chanOut
            results := h.results
            output := by
              intro out hout r hr
              simp only [Option.some.injEq] at hout
              rw [← hout] at hr
              exact h.results r hr }
      · exact h

theorem OutInv_run (L : GoLib) (s0 : Server) (input : List Record) (sched : List Action)
    (p : Pipeline) (h : OutInv L s0 input p) : OutInv L s0 input (run L p sched) := by
  induction sched generalizing p with
  | nil => exact h
  | cons a as ih =>
    simp only [run, List.foldl_cons]
    exact ih _ (OutInv_step L s0 input p a h)

theorem OutInv_init (L : GoLib) (S : SortSlice) (s0 s : Server) (records : List Record)
    (p0 : Pipeline) (hdb : s.db = s0.db) (hm : s.matcher = s0.matcher) (hc : CacheOK L s)
    (h : initPipeline S s records = some p0) : OutInv L s0 records p0 := by
  unfold initPipeline at h
  split at h
  · cases h
  · simp only [Option.some.injEq] at h
    subst h
    exact
      { db := hdb, matcher := hm, cache := hc
        recs := fun r hr => (S.perm records).subset hr
        chanIn := by
          intro c hc
          cases hc
        workers := by
          intro x hx
          rw [List.eq_of_mem_replicate hx]
          trivial
        chanOut := by
          intro c hc
          cases hc
        results := by
          intro r hr
          cases hr
        output := by
          intro out hout
          cases hout }

theorem Done_spec (L : GoLib) (s0 : Server) (input : List Record) (r : Record)
    (h : Done L s0 input r) :
    ∃ r0 ∈ input, r.Name = r0.Name ∧
      (r.Result, r.MatchedValue, r.MatchType) = performLookup L s0 (L.ToLower r.Name) := by
  obtain ⟨r0, hr0, rfl⟩ := h
  exact ⟨r0, hr0, rfl, rfl⟩

/-! ## Claim C8 -/

/-- C8. Batch results depend only on the name and the index.  Take any index, any
cache state reached from the empty cache by lookups, any record list and any
schedule of the goroutines of `processInputFile`.  Every record the collector has
appended to `results`, and every record the main goroutine writes out, has the
name of an input record, and its `(Result, MatchedValue, MatchType)` is what the
uncached `performLookup` returns for the lower-cased name.  So a second call on
the same engine, whatever its records and schedule, gives every name the same
triple as the first call. -/
theorem batch_results_from_lookup (L : GoLib) (S : SortSlice) (s0 : Server) (qs : List Str)
    (records : List Record) (sched : List Action) (p : Pipeline)
    (hrun : processInputFile L S (lookups L { s0 with matchCache := [] } qs) records sched =
      some p) :
    (∀ r ∈ p.results, ∃ r0 ∈ records, r.Name = r0.Name ∧
      (r.Result, r.MatchedValue, r.MatchType) = performLookup L s0 (L.ToLower r.Name)) ∧
    (∀ out, p.output = some out → ∀ r ∈ out, ∃ r0 ∈ records, r.Name = r0.Name ∧
      (r.Result, r.MatchedValue, r.MatchType) = performLookup L s0 (L.ToLower r.Name)) ∧
    (∀ (records2 : List Record) (sched2 : List Action) (p2 : Pipeline),
      processInputFile L S p.server records2 sched2 = some p2 →
      (∀ r1 ∈ p.results, ∀ r2 ∈ p2.results, r1.Name = r2.Name →
        (r1.Result, r1.MatchedValue, r1.MatchType) =
          (r2.Result, r2.MatchedValue, r2.MatchType)) ∧
      (∀ out1 out2, p.output = some out1 → p2.output = some out2 →
        ∀ r1 ∈ out1, ∀ r2 ∈ out2, r1.Name = r2.Name →
        (r1.Result, r1.MatchedValue, r1.MatchType) =
          (r2.Result, r2.MatchedValue, r2.MatchType))) := by
  obtain ⟨p0, hinit, rfl⟩ := processInputFile_some L S _ records sched p hrun
  have hcache : CacheOK L (lookups L { s0 with matchCache := [] } qs) :=
    CacheOK_lookups L qs _ (CacheOK_empty L _ rfl)
  have hdb : (lookups L { s0 with matchCache := [] } qs).db = s0.db := lookups_db L qs _
  have hm : (lookups L { s0 with matchCache := [] } qs).matcher = s0.matcher :=
    lookups_matcher L qs _
  have h1 := OutInv_run L s0 records sched p0
    (OutInv_init L S s0 _ records p0 hdb hm hcache hinit)
  have hfirst : ∀ r, Done L s0 records r → ∃ r0 ∈ records, r.Name = r0.Name ∧
      (r.Result, r.MatchedValue, r.MatchType) = performLookup L s0 (L.ToLower r.Name) :=
    fun r hr => Done_spec L s0 records r hr
  refine ⟨fun r hr => hfirst r (h1.results r hr),
    fun out hout r hr => hfirst r (h1.output out hout r hr), ?_⟩
  intro records2 sched2 p2 hrun2
  obtain ⟨p1, hinit2, rfl⟩ := processInputFile_some L S _ records2 sched2 p2 hrun2
  have h2 := OutInv_run L s0 records2 sched2 p1
    (OutInv_init L S s0 _ records2 p1 h1.db h1.matcher h1.cache hinit2)
  have hsame : ∀ r1 r2, Done L s0 records r1 → Done L s0 records2 r2 → r1.Name = r2.Name →
      (r1.Result, r1.MatchedValue, r1.MatchType) =
        (r2.Result, r2.MatchedValue, r2.MatchType) := by
    intro r1 r2 hr1 hr2 hn
    obtain ⟨_, _, _, e1⟩ := Done_spec L s0 records r1 hr1
    obtain ⟨_, _, _, e2⟩ := Done_spec L s0 records2 r2 hr2
    rw [e1, e2, hn]
  refine ⟨fun r1 hr1 r2 hr2 hn => hsame r1 r2 (h1.results r1 hr1) (h2.results r2 hr2) hn, ?_⟩
  intro out1 out2 ho1 ho2 r1 hr1 r2 hr2 hn
  exact hsame r1 r2 (h1.output out1 ho1 r1 hr1) (h2.output out2 ho2 r2 hr2) hn

theorem batch_results_from_lookup_witness :
    processInputFile refLib refSort (lookups refLib { demoServer with matchCache := [] } [])
      demoRecords demoSchedule = some (run refLib demoPipeline demoSchedule) ∧
    ((∀ r ∈ (run refLib demoPipeline demoSchedule).results, ∃ r0 ∈ demoRecords,
      r.Name = r0.Name ∧
      (r.Result, r.MatchedValue, r.MatchType) =
        performLookup refLib demoServer (refLib.ToLower r.Name)) ∧
    (∀ out, (run refLib demoPipeline demoSchedule).output = some out → ∀ r ∈ out,
      ∃ r0 ∈ demoRecords, r.Name = r0.Name ∧
      (r.Result, r.MatchedValue, r.MatchType) =
        performLookup refLib demoServer (refLib.ToLower r.Name)) ∧
    (∀ (records2 : List Record) (sched2 : List Action) (p2 : Pipeline),
      processInputFile refLib refSort (run refLib demoPipeline demoSchedule).server records2
        sched2 = some p2 →
      (∀ r1 ∈ (run refLib demoPipeline demoSchedule).results, ∀ r2 ∈ p2.results,
        r1.Name = r2.Name →
        (r1.Result, r1.MatchedValue, r1.MatchType) =
          (r2.Result, r2.MatchedValue, r2.MatchType)) ∧
      (∀ out1 out2, (run refLib demoPipeline demoSchedule).output = some out1 →
        p2.output = some out2 → ∀ r1 ∈ out1, ∀ r2 ∈ out2, r1.Name = r2.Name →
        (r1.Result, r1.MatchedValue, r1.MatchType) =
          (r2.Result, r2.MatchedValue, r2.MatchType)))) :=
  ⟨rfl, batch_results_from_lookup refLib refSort demoServer [] demoRecords demoSchedule
    (run refLib demoPipeline demoSchedule) rfl⟩

set_option maxRecDepth 100000 in
/-- The run of `demoPipeline` under `demoSchedule`: every worker exits, the three
records are counted, two of them with a match, and the main goroutine writes the
three processed records. -/
theorem demo_run_complete :
    processInputFile refLib refSort demoServer demoRecords demoSchedule =
      some (run refLib demoPipeline demoSchedule) ∧
    allExited (run refLib demoPipeline demoSchedule) = true ∧
    (run refLib demoPipeline demoSchedule).metrics = ⟨3, 2⟩ ∧
    (run refLib demoPipeline demoSchedule).output =
      some [⟨bytes "Bob", false, [], []⟩,
        ⟨bytes "abc", true, bytes "abc", bytes "contains_lookup"⟩,
        ⟨bytes "abcd", true, bytes "abc", bytes "contains_lookup"⟩] := by
  refine ⟨rfl, ?_⟩
  decide

/-! ## What a load leaves in the index -/

theorem mem_foldl_loadLine (L : GoLib) (lines : List Str) (acc : List Str) (k : Str) :
    k ∈ lines.foldl (loadLine L) acc ↔
      k ∈ acc ∨ ∃ line ∈ lines, normalized L line ≠ [] ∧ k = keyOf (normalized L line) := by
  induction lines generalizing acc with
  | nil => simp
  | cons x xs ih =>
    rw [List.foldl_cons, ih]
    have hstep : k ∈ loadLine L acc x ↔
        k ∈ acc ∨ (normalized L x ≠ [] ∧ k = keyOf (normalized L x)) := by
      unfold loadLine
      simp only []
      by_cases hx : normalized L x = []
      · have hl : ¬ (L.ToLower (L.TrimSpace x)).length > 0 := by
          unfold normalized at hx
          simp [hx]
        rw [if_neg hl]
        simp [hx]
      · have hl : (L.ToLower (L.TrimSpace x)).length > 0 := by
          unfold normalized at hx
          exact List.length_pos.2 hx
        rw [if_pos hl, sliceTo_min]
        simp only [List.mem_append, List.mem_singleton, keyOf, normalized]
        unfold normalized at hx
        simp [hx]
    rw [hstep]
    simp only [List.mem_cons, exists_eq_or_imp]
    tauto

theorem mem_loadLookupData (L : GoLib) (s : Server) (lines : List Str) (k : Str) :
    k ∈ (loadLookupData L s lines).db ↔
      k ∈ s.db ∨ ∃ line ∈ lines, normalized L line ≠ [] ∧ k = keyOf (normalized L line) := by
  simp only [loadLookupData]
  rw [mem_dbWrite, mem_foldl_loadLine]
  simp only [List.not_mem_nil, false_or]
  exact or_comm

theorem keyOf_length (v : Str) : (keyOf v).length = Min.min 3 v.length + 1 + v.length := by
  simp only [keyOf, bytes_colon, List.length_append, List.length_take, List.length_singleton]

theorem take_three_eq (v : Str) : v.take 3 = v.take (Min.min 3 v.length) := by
  rcases Nat.le_total 3 v.length with h | h
  · rw [Nat.min_eq_left h]
  · rw [Nat.min_eq_right h, List.take_length, List.take_of_length_le h]

theorem keyOf_injective (v w : Str) (h : keyOf v = keyOf w) : v = w := by
  have hl := congrArg List.length h
  rw [keyOf_length, keyOf_length] at hl
  have hlen : v.length = w.length := by omega
  have htl : (v.take 3).length = (w.take 3).length := by
    simp only [List.length_take]
    omega
  unfold keyOf at h
  rw [List.append_assoc, List.append_assoc] at h
  have h2 := (List.append_inj h htl).2
  rw [bytes_colon] at h2
  simpa using h2

theorem Ascending_nodup (keys : List Str) (h : Ascending keys) : keys.Nodup := by
  unfold Ascending at h
  refine List.Pairwise.imp ?_ h
  intro a b hab heq
  rw [heq, bytesLess_irrefl] at hab
  cases hab

/-- The index in terms of the lines the scanner yields.  After `loadLookupData` on
an empty store the keys are exactly the strings `v[0:min(3,len v)] + ":" + v` for
the non-empty normalized values `v` (trimmed, lower-cased) of the lines the
scanner has yielded.  So the key of a
non-empty value is present exactly when some line has that value; lines whose
normalized value is empty add nothing, as loading without them gives the same
store; the keys are in ascending order, each once, however often its line occurs;
and every key consists of the first `min(3,len)` bytes of its value, the
separator and the value. -/
theorem index_contents (L : GoLib) (s : Server) (lines : List Str) :
    (∀ k, k ∈ (loadLookupData L { s with db := [] } lines).db ↔
      ∃ line ∈ lines, normalized L line ≠ [] ∧
        k = (normalized L line).take 3 ++ bytes ":" ++ normalized L line) ∧
    (∀ v, v ≠ [] →
      (v.take 3 ++ bytes ":" ++ v ∈ (loadLookupData L { s with db := [] } lines).db ↔
        ∃ line ∈ lines, normalized L line = v)) ∧
    (loadLookupData L { s with db := [] } (lines.filter (fun line => normalized L line ≠ []))).db
      = (loadLookupData L { s with db := [] } lines).db ∧
    Ascending (loadLookupData L { s with db := [] } lines).db ∧
    (loadLookupData L { s with db := [] } lines).db.Nodup ∧
    (∀ k ∈ (loadLookupData L { s with db := [] } lines).db, ∃ v, v ≠ [] ∧
      k = v.take (Min.min 3 v.length) ++ bytes ":" ++ v ∧
      k.take (Min.min 3 v.length) = v.take (Min.min 3 v.length) ∧
      k.drop (Min.min 3 v.length + 1) = v) := by
  have hmem : ∀ k, k ∈ (loadLookupData L { s with db := [] } lines).db ↔
      ∃ line ∈ lines, normalized L line ≠ [] ∧ k = keyOf (normalized L line) := by
    intro k
    rw [mem_loadLookupData]
    simp
  have hasc : Ascending (loadLookupData L { s with db := [] } lines).db :=
    Ascending_loadLookupData L _ lines List.Pairwise.nil
  refine ⟨hmem, ?_, ?_, hasc, Ascending_nodup _ hasc, ?_⟩
  · intro v hv
    rw [hmem]
    constructor
    · rintro ⟨line, hl, _, hk⟩
      exact ⟨line, hl, (keyOf_injective _ _ hk).symm⟩
    · rintro ⟨line, hl, rfl⟩
      exact ⟨line, hl, hv, rfl⟩
  · have hbatch : ∀ (ls acc : List Str),
        (ls.filter (fun line => normalized L line ≠ [])).foldl (loadLine L) acc =
          ls.foldl (loadLine L) acc := by
      intro ls
      induction ls with
      | nil => intro acc; rfl
      | cons x xs ih =>
        intro acc
        by_cases hx : normalized L x = []
        · have hskip : loadLine L acc x = acc := by
            unfold loadLine
            simp only []
            have hl : ¬ (L.ToLower (L.TrimSpace x)).length > 0 := by
              unfold normalized at hx
              simp [hx]
            rw [if_neg hl]
          rw [List.filter_cons_of_neg (by simpa using hx), List.foldl_cons, hskip]
          exact ih acc
        · rw [List.filter_cons_of_pos (by simpa using hx), List.foldl_cons, List.foldl_cons]
          exact ih _
    simp only [loadLookupData, hbatch]
  · intro k hk
    obtain ⟨line, _, hne, rfl⟩ := (hmem k).1 hk
    refine ⟨normalized L line, hne, ?_, ?_, ?_⟩
    · rw [keyOf, take_three_eq]
    · rw [keyOf, List.append_assoc, ← take_three_eq, List.take_append_of_le_length
        (by simp [List.length_take]), List.take_take]
      simp
    · rw [keyOf, List.append_assoc, bytes_colon]
      have hl : Min.min 3 (normalized L line).length + 1 =
          (List.take 3 (normalized L line) ++ [58]).length := by
        simp [List.length_take]
      rw [← List.append_assoc, hl, List.drop_left]

/-- A load with empty, white-space and repeated lines on the reference library:
the store holds the one key of the one value. -/
theorem index_contents_example :
    (loadLookupData refLib (emptyServer ⟨4, 1000, 100⟩)
      [bytes "", bytes "  \t", bytes " Ab ", bytes "ab", bytes "AB"]).db = [bytes "ab:ab"] := by
  decide

theorem dbPut_of_mem (db : List Str) (key : Str) (h : Ascending db) (hk : key ∈ db) :
    dbPut db key = db := by
  induction db with
  | nil => cases hk
  | cons x xs ih =>
    unfold Ascending at h ih
    rw [List.pairwise_cons] at h
    simp only [dbPut]
    rcases List.mem_cons.1 hk with rfl | hk
    · rw [bytesLess_irrefl]
      simp
    · have hlt : bytesLess x key = true := h.1 key hk
      have hnlt : bytesLess key x = false := bytesLess_asymm _ _ hlt
      have hne : key ≠ x := by
        intro heq
        rw [heq, bytesLess_irrefl] at hlt
        cases hlt
      rw [hnlt]
      simp only [Bool.false_eq_true, if_false, hne]
      rw [ih h.2 hk]

theorem dbWrite_of_subset (batch db : List Str) (h : Ascending db) (hsub : ∀ k ∈ batch, k ∈ db) :
    dbWrite db batch = db := by
  induction batch with
  | nil => rfl
  | cons k ks ih =>
    simp only [dbWrite, List.foldl_cons]
    rw [dbPut_of_mem db k h (hsub k (List.mem_cons_self _ _))]
    exact ih (fun k' hk' => hsub k' (List.mem_cons_of_mem _ hk'))

/-! ## Claim C13 -/

/-- C13. Load idempotence.  For every store and every reference file, a second
`loadLookupData` with the same file leaves the key set as the first load left
it, so every range scan yields the same set of keys; on a store in key order, as
every store is, the second load leaves the store and every scan exactly as they
were. -/
theorem load_idempotent (L : GoLib) (s : Server) (lines : List Str) :
    (∀ k, k ∈ (loadLookupData L (loadLookupData L s lines) lines).db ↔
      k ∈ (loadLookupData L s lines).db) ∧
    (∀ r k, k ∈ NewIterator (loadLookupData L (loadLookupData L s lines) lines).db r ↔
      k ∈ NewIterator (loadLookupData L s lines).db r) ∧
    (Ascending s.db →
      (loadLookupData L (loadLookupData L s lines) lines).db = (loadLookupData L s lines).db ∧
      ∀ r, NewIterator (loadLookupData L (loadLookupData L s lines) lines).db r =
        NewIterator (loadLookupData L s lines).db r) := by
  have hmem : ∀ k, k ∈ (loadLookupData L (loadLookupData L s lines) lines).db ↔
      k ∈ (loadLookupData L s lines).db := by
    intro k
    rw [mem_loadLookupData, mem_loadLookupData]
    tauto
  refine ⟨hmem, ?_, ?_⟩
  · intro r k
    simp only [NewIterator, List.mem_filter, hmem]
  · intro hasc
    have heq : (loadLookupData L (loadLookupData L s lines) lines).db =
        (loadLookupData L s lines).db := by
      have h1 := Ascending_loadLookupData L s lines hasc
      show dbWrite (loadLookupData L s lines).db (lines.foldl (loadLine L) []) = _
      apply dbWrite_of_subset _ _ h1
      intro k hk
      rw [mem_loadLookupData]
      right
      have := (mem_foldl_loadLine L lines [] k).1 hk
      simpa using this
    exact ⟨heq, fun r => by rw [heq]⟩

/-! ## Claim C11: a value that contains the separator -/

/-- C11 at the reference line `"a:b"` and the query `"a"`.  The value is stored
under the key `"a:b:a:b"`; the scan of the prefix `"a:"` yields this key, and
`TrimPrefix` with the prefix of the query leaves the candidate `"b:a:b"`, which
`performLookup` returns as matched value although it is not the normalized value
of any loaded line. -/
theorem separator_in_value :
    (NewServer refLib [] [bytes "a:b"] ⟨4, 1000, 100⟩).db = [bytes "a:b:a:b"] ∧
    normalized refLib (bytes "a:b") = bytes "a:b" ∧
    scanCandidates refLib (NewServer refLib [] [bytes "a:b"] ⟨4, 1000, 100⟩) (bytes "a") =
      [bytes "b:a:b"] ∧
    performLookup refLib (NewServer refLib [] [bytes "a:b"] ⟨4, 1000, 100⟩) (bytes "a") =
      (true, bytes "b:a:b", bytes "lookup_contains") ∧
    (lookupWithCache refLib (NewServer refLib [] [bytes "a:b"] ⟨4, 1000, 100⟩) (bytes "a")).2 =
      (true, bytes "b:a:b", bytes "lookup_contains") ∧
    bytes "b:a:b" ∉ [bytes "a:b"].map (normalized refLib) := by
  decide

/-! ## Claims C14 and C15: the empty query -/

theorem performLookup_empty (L : GoLib) (s : Server) (hlow : L.ToLower [] = []) :
    performLookup L s [] = (false, [], []) ∧ performLookupExamined L s [] = [] := by
  simp [performLookup, performLookupExamined, hlow]

theorem cacheLoad_empty_query (L : GoLib) (s : Server) (hlow : L.ToLower [] = [])
    (h : CacheOK L s) : cacheLoad s.matchCache [] = none := by
  cases hc : cacheLoad s.matchCache [] with
  | none => rfl
  | some e =>
    have := h [] e hc
    rw [(performLookup_empty L s hlow).1] at this
    cases this

/-- C14. Scenario 3.  For every index and every cache state reached from the
empty cache by lookups, with a `ToLower` that leaves the empty string empty: the
lookup of the empty query returns `(false, "", "")`, leaves the cache as it was,
with no entry for the empty query, and examines no index candidate. -/
theorem empty_query_not_found (L : GoLib) (s0 : Server) (qs : List Str)
    (hlow : L.ToLower [] = []) :
    (lookupWithCache L (lookups L { s0 with matchCache := [] } qs) []).2 = (false, [], []) ∧
    (lookupWithCache L (lookups L { s0 with matchCache := [] } qs) []).1.matchCache =
      (lookups L { s0 with matchCache := [] } qs).matchCache ∧
    cacheLoad (lookupWithCache L (lookups L { s0 with matchCache := [] } qs) []).1.matchCache []
      = none ∧
    lookupWithCacheExamined L (lookups L { s0 with matchCache := [] } qs) [] = [] ∧
    performLookupExamined L (lookups L { s0 with matchCache := [] } qs) [] = [] := by
  have hok : CacheOK L (lookups L { s0 with matchCache := [] } qs) :=
    CacheOK_lookups L qs _ (CacheOK_empty L _ rfl)
  have hc := cacheLoad_empty_query L _ hlow hok
  have hp := performLookup_empty L (lookups L { s0 with matchCache := [] } qs) hlow
  have hst := lookupWithCache_miss_state L _ [] hc
  have hcache : (lookupWithCache L (lookups L { s0 with matchCache := [] } qs) []).1.matchCache =
      (lookups L { s0 with matchCache := [] } qs).matchCache := by
    rw [hst, hp.1]
    rfl
  refine ⟨?_, hcache, ?_, ?_, hp.2⟩
  · rw [lookupWithCache_miss L _ [] hc]
    exact hp.1
  · rw [hcache]
    exact hc
  · simp only [lookupWithCacheExamined, hc]
    exact hp.2

theorem empty_query_not_found_witness :
    refLib.ToLower [] = [] ∧
    ((lookupWithCache refLib (lookups refLib { demoServer with matchCache := [] }
        [bytes "abcd"]) []).2 = (false, [], []) ∧
    (lookupWithCache refLib (lookups refLib { demoServer with matchCache := [] }
        [bytes "abcd"]) []).1.matchCache =
      (lookups refLib { demoServer with matchCache := [] } [bytes "abcd"]).matchCache ∧
    cacheLoad (lookupWithCache refLib (lookups refLib { demoServer with matchCache := [] }
        [bytes "abcd"]) []).1.matchCache [] = none ∧
    lookupWithCacheExamined refLib (lookups refLib { demoServer with matchCache := [] }
        [bytes "abcd"]) [] = [] ∧
    performLookupExamined refLib (lookups refLib { demoServer with matchCache := [] }
        [bytes "abcd"]) [] = []) :=
  ⟨rfl, empty_query_not_found refLib demoServer [bytes "abcd"] rfl⟩

/-- C15, as the code behaves.  For every index and every cache state reached from
the empty cache by lookups, with a `ToLower` that leaves the empty string empty:
the lookup of the empty query goes through the cache probe, which finds no entry
and counts a miss, so the miss counter is incremented (`uint64` addition, plus
one below the maximum) and the hit counter is unchanged; nothing is stored and no
index candidate is examined. -/
theorem empty_query_counts_miss (L : GoLib) (s0 : Server) (qs : List Str)
    (hlow : L.ToLower [] = []) :
    (lookupWithCache L (lookups L { s0 with matchCache := [] } qs) []).1.cacheStats.hits =
      (lookups L { s0 with matchCache := [] } qs).cacheStats.hits ∧
    (lookupWithCache L (lookups L { s0 with matchCache := [] } qs) []).1.cacheStats.misses =
      ((lookups L { s0 with matchCache := [] } qs).cacheStats.misses + 1) % 2 ^ 64 ∧
    ((lookups L { s0 with matchCache := [] } qs).cacheStats.misses + 1 < 2 ^ 64 →
      (lookupWithCache L (lookups L { s0 with matchCache := [] } qs) []).1.cacheStats.misses =
        (lookups L { s0 with matchCache := [] } qs).cacheStats.misses + 1) ∧
    (lookupWithCache L (lookups L { s0 with matchCache := [] } qs) []).1.matchCache =
      (lookups L { s0 with matchCache := [] } qs).matchCache ∧
    lookupWithCacheExamined L (lookups L { s0 with matchCache := [] } qs) [] = [] := by
  have hok : CacheOK L (lookups L { s0 with matchCache := [] } qs) :=
    CacheOK_lookups L qs _ (CacheOK_empty L _ rfl)
  have hc := cacheLoad_empty_query L _ hlow hok
  have hp := performLookup_empty L (lookups L { s0 with matchCache := [] } qs) hlow
  have hst := lookupWithCache_miss_state L _ [] hc
  refine ⟨?_, ?_, ?_, ?_, ?_⟩
  · rw [hst]
  · rw [hst]
    rfl
  · intro hlt
    rw [hst]
    simp only [addUint64]
    exact Nat.mod_eq_of_lt hlt
  · rw [hst, hp.1]
    rfl
  · simp only [lookupWithCacheExamined, hc]
    exact hp.2

theorem empty_query_counts_miss_witness :
    refLib.ToLower [] = [] ∧
    ((lookupWithCache refLib (lookups refLib { demoServer with matchCache := [] }
        [bytes "abcd"]) []).1.cacheStats.hits =
      (lookups refLib { demoServer with matchCache := [] } [bytes "abcd"]).cacheStats.hits ∧
    (lookupWithCache refLib (lookups refLib { demoServer with matchCache := [] }
        [bytes "abcd"]) []).1.cacheStats.misses =
      ((lookups refLib { demoServer with matchCache := [] } [bytes "abcd"]).cacheStats.misses
        + 1) % 2 ^ 64 ∧
    ((lookups refLib { demoServer with matchCache := [] } [bytes "abcd"]).cacheStats.misses + 1
        < 2 ^ 64 →
      (lookupWithCache refLib (lookups refLib { demoServer with matchCache := [] }
        [bytes "abcd"]) []).1.cacheStats.misses =
        (lookups refLib { demoServer with matchCache := [] } [bytes "abcd"]).cacheStats.misses
          + 1) ∧
    (lookupWithCache refLib (lookups refLib { demoServer with matchCache := [] }
        [bytes "abcd"]) []).1.matchCache =
      (lookups refLib { demoServer with matchCache := [] } [bytes "abcd"]).matchCache ∧
    lookupWithCacheExamined refLib (lookups refLib { demoServer with matchCache := [] }
        [bytes "abcd"]) [] = []) :=
  ⟨rfl, empty_query_counts_miss refLib demoServer [bytes "abcd"] rfl⟩

/-- C15 as stated fails: on the freshly loaded `demoServer` the lookup of the empty
query moves the miss counter from 0 to 1. -/
theorem empty_query_counterexample :
    demoServer.cacheStats.misses = 0 ∧
    (lookupWithCache refLib demoServer []).1.cacheStats.misses = 1 ∧
    (lookupWithCache refLib demoServer []).1.cacheStats.misses ≠ demoServer.cacheStats.misses := by
  decide

/-! ## Claim C16: an iterator that fails -/

theorem scanLoop_take (s : Server) (sv pre : Str) (keys : List Str) (n : Nat)
    (h : (scanLoop s sv pre (keys.take n)).1 = true) :
    scanLoop s sv pre (keys.take n) = scanLoop s sv pre keys := by
  induction keys generalizing n with
  | nil => simp
  | cons k ks ih =>
    cases n with
    | zero => simp [scanLoop] at h
    | succ m =>
      simp only [List.take_succ_cons, scanLoop] at h ⊢
      split
      · rfl
      · split
        · rfl
        · rename_i h1 h2
          simp only [h1, h2, if_false] at h
          exact ih m h

/-- C16, as the code behaves.  When the iterator stops after `n` keys because of an
I/O error, `performLookup` returns a triple all the same: the match found among
the keys yielded before the error, which is then the result of the scan without
the error, or else `(false, "", "")`, the result of a scan without a match.  An
error before the first key always gives `(false, "", "")`.  Without an error the
function is `performLookup`. -/
theorem scan_error_not_reported (L : GoLib) (s : Server) (q : Str) (n : Nat) :
    performLookupFaulty L s q none = performLookup L s q ∧
    performLookupFaulty L s q (some 0) = (false, [], []) ∧
    ((performLookupFaulty L s q (some n)).1 = true →
      performLookupFaulty L s q (some n) = performLookup L s q) ∧
    ((performLookupFaulty L s q (some n)).1 = false →
      performLookupFaulty L s q (some n) = (false, [], [])) := by
  refine ⟨rfl, ?_, ?_, ?_⟩
  · unfold performLookupFaulty
    simp only [iterYield, List.take_zero, scanLoop]
    split <;> rfl
  · unfold performLookupFaulty performLookup
    simp only [iterYield]
    split
    · intro h
      cases h
    · intro h
      exact scanLoop_take s _ _ _ n h
  · unfold performLookupFaulty
    simp only [iterYield]
    split
    · intro _
      rfl
    · intro h
      exact (scanLoop_type s _ _ _).2 h

/-- C16 as stated fails: with the line `"abc"` loaded and the query `"abc"`, an
I/O error before the first key makes `performLookup` return `(false, "", "")`,
the no-match result, where the scan without the error finds `"abc"`. -/
theorem scan_error_counterexample :
    performLookupFaulty refLib (NewServer refLib [] [bytes "abc"] ⟨4, 1000, 100⟩) (bytes "abc")
      (some 0) = (false, [], []) ∧
    performLookupFaulty refLib (NewServer refLib [] [bytes "abc"] ⟨4, 1000, 100⟩) (bytes "abc")
      none = (true, bytes "abc", bytes "contains_lookup") := by
  decide

/-! ## Claim C17: the collector is not joined -/

set_option maxRecDepth 100000 in
/-- C17 on `demoPipeline` under `raceSchedule`.  Both workers have exited and all
three records are counted, but the main goroutine has taken `results` with the
two records of the first chunk only: the collector appends the third record
afterwards. -/
theorem collector_not_joined :
    processInputFile refLib refSort demoServer demoRecords raceSchedule =
      some (run refLib demoPipeline raceSchedule) ∧
    allExited (run refLib demoPipeline raceSchedule) = true ∧
    (run refLib demoPipeline raceSchedule).metrics.ProcessedRecords = 3 ∧
    demoRecords.length = 3 ∧
    (run refLib demoPipeline raceSchedule).output =
      some [⟨bytes "Bob", false, [], []⟩,
        ⟨bytes "abc", true, bytes "abc", bytes "contains_lookup"⟩] ∧
    (run refLib demoPipeline raceSchedule).results.length = 3 := by
  refine ⟨rfl, ?_⟩
  decide

/-! ## Claim C18: the prefix restriction -/

theorem colon_prefix_eq (a b x : Str) (ha : (58 : Nat) ∉ a) (hb : (58 : Nat) ∉ b)
    (h : HasPrefix (a ++ [58] ++ x) (b ++ [58]) = true) : a = b := by
  induction a generalizing b with
  | nil =>
    cases b with
    | nil => rfl
    | cons c bs =>
      simp only [List.nil_append, List.cons_append, HasPrefix] at h
      split at h
      · rename_i hc
        exact absurd (by rw [← hc]; exact List.mem_cons_self _ _) hb
      · cases h
  | cons d as ih =>
    cases b with
    | nil =>
      simp only [List.nil_append, List.cons_append, HasPrefix] at h
      split at h
      · rename_i hd
        exact absurd (by rw [hd]; exact List.mem_cons_self _ _) ha
      · cases h
    | cons c bs =>
      simp only [List.cons_append, HasPrefix] at h
      split at h
      · rename_i hdc
        subst hdc
        have := ih bs (fun hm => ha (List.mem_cons_of_mem _ hm))
          (fun hm => hb (List.mem_cons_of_mem _ hm)) h
        rw [this]
      · cases h

theorem performLookup_nil_of_lower (L : GoLib) (s : Server) (q : Str) (hlow : L.ToLower q = q)
    (hq : q = []) : performLookup L s q = (false, [], []) := by
  subst hq
  simp [performLookup, hlow]

/-- C18. Prefix restriction.  Take an index loaded on an empty store from lines
whose normalized values contain no `':'` (byte 58), any cache state reached from
the empty cache, and a lower-cased query `q` without `':'`.  If the lookup returns
found with matched value `c`, then `c` is the normalized value of a loaded line
and agrees with `q` on the first `min(3, len q)` bytes, indeed on the first three;
for a query shorter than three bytes `c` is `q` itself and the match type is
`contains_lookup`; and no value whose first three bytes differ from those of `q`
is ever returned, whether it occurs inside `q` or not. -/
theorem prefix_restriction (L : GoLib) (s0 : Server) (lines qs : List Str) (q c t : Str)
    (hval : ∀ line ∈ lines, (58 : Nat) ∉ normalized L line) (hq : (58 : Nat) ∉ q)
    (hlow : L.ToLower q = q)
    (hres : (lookupWithCache L
      (lookups L (loadLookupData L { s0 with db := [], matchCache := [] } lines) qs) q).2 =
        (true, c, t)) :
    (∃ line ∈ lines, c = normalized L line) ∧
    c.take (Min.min 3 q.length) = q.take (Min.min 3 q.length) ∧
    c.take 3 = q.take 3 ∧
    (q.length < 3 → c = q ∧ t = bytes "contains_lookup") ∧
    (∀ v : Str, v.take 3 ≠ q.take 3 → c ≠ v) := by
  have hok : CacheOK L
      (lookups L (loadLookupData L { s0 with db := [], matchCache := [] } lines) qs) :=
    CacheOK_lookups L qs _ (CacheOK_empty L _ rfl)
  rw [lookupWithCache_eq_performLookup L _ q hok] at hres
  have hqne : q ≠ [] := by
    intro hnil
    rw [performLookup_nil_of_lower L _ q hlow hnil] at hres
    cases hres
  have hdb : (lookups L (loadLookupData L { s0 with db := [], matchCache := [] } lines) qs).db
      = (loadLookupData L { s0 with db := [], matchCache := [] } lines).db := lookups_db L qs _
  have hscan := performLookup_eq_scan L
    (lookups L (loadLookupData L { s0 with db := [], matchCache := [] } lines) qs) q hqne hlow
  have htype := (performLookup_type L
    (lookups L (loadLookupData L { s0 with db := [], matchCache := [] } lines) qs) q).1
    (by rw [hres])
  rw [hres, hlow] at htype
  rw [hres] at hscan
  have hspec := (scanLoop_spec
    (lookups L (loadLookupData L { s0 with db := [], matchCache := [] } lines) qs) q (q.take 3)
    (bucket (lookups L (loadLookupData L { s0 with db := [], matchCache := [] } lines) qs).db
      q)).1 (by rw [← hscan])
  obtain ⟨before, key, after, hk, _, hm, hv⟩ := hspec
  rw [← hscan] at hv
  simp only at hv
  have hkey : key ∈ bucket
      (lookups L (loadLookupData L { s0 with db := [], matchCache := [] } lines) qs).db q := by
    rw [hk]
    simp
  have hkdb := (List.mem_filter.1 hkey).1
  have hkpre : HasPrefix key (q.take 3 ++ bytes ":") = true := by
    simpa using (List.mem_filter.1 hkey).2
  rw [hdb, mem_loadLookupData] at hkdb
  simp only [List.not_mem_nil, false_or] at hkdb
  obtain ⟨line, hline, hne, hkeq⟩ := hkdb
  have hvc : (58 : Nat) ∉ (normalized L line).take 3 :=
    fun hmem => hval line hline (List.mem_of_mem_take hmem)
  have hqc : (58 : Nat) ∉ q.take 3 := fun hmem => hq (List.mem_of_mem_take hmem)
  rw [hkeq, keyOf, bytes_colon] at hkpre
  have hpre := colon_prefix_eq _ _ _ hvc hqc hkpre
  have hcv : c = normalized L line := by
    rw [hv, hkeq, keyOf, ← hpre]
    exact TrimPrefix_append _ _
  have htake : c.take 3 = q.take 3 := by rw [hcv, hpre]
  refine ⟨⟨line, hline, hcv⟩, ?_, htake, ?_, ?_⟩
  · have h1 : c.take (Min.min 3 q.length) = (c.take 3).take (Min.min 3 q.length) := by
      rw [List.take_take]
      congr 1
      omega
    have h2 : q.take (Min.min 3 q.length) = (q.take 3).take (Min.min 3 q.length) := by
      rw [List.take_take]
      congr 1
      omega
    rw [h1, h2, htake]
  · intro hlt
    have hq3 : q.take 3 = q := List.take_of_length_le (by omega)
    have hlen : (c.take 3).length = q.length := by rw [htake, hq3]
    have hc3 : c.take 3 = c := by
      apply List.take_of_length_le
      rw [List.length_take] at hlen
      omega
    have hcq : c = q := by rw [← hc3, htake, hq3]
    refine ⟨hcq, ?_⟩
    apply htype.1
    rw [← hv, hcq] at hm
    rw [hcq]
    rcases hm with hm | hm <;> exact hm
  · intro v hv3 hcv'
    apply hv3
    rw [← hcv']
    exact htake

theorem prefix_restriction_witness :
    (∀ line ∈ [bytes "ab", bytes "abcd"], (58 : Nat) ∉ normalized refLib line) ∧
    (58 : Nat) ∉ bytes "ab" ∧ refLib.ToLower (bytes "ab") = bytes "ab" ∧
    (lookupWithCache refLib
      (lookups refLib (loadLookupData refLib
        { emptyServer ⟨4, 1000, 100⟩ with db := [], matchCache := [] }
        [bytes "ab", bytes "abcd"]) []) (bytes "ab")).2 =
        (true, bytes "ab", bytes "contains_lookup") ∧
    ((∃ line ∈ [bytes "ab", bytes "abcd"], bytes "ab" = normalized refLib line) ∧
    (bytes "ab").take (Min.min 3 (bytes "ab").length) =
      (bytes "ab").take (Min.min 3 (bytes "ab").length) ∧
    (bytes "ab").take 3 = (bytes "ab").take 3 ∧
    ((bytes "ab").length < 3 →
      bytes "ab" = bytes "ab" ∧ bytes "contains_lookup" = bytes "contains_lookup") ∧
    (∀ v : Str, v.take 3 ≠ (bytes "ab").take 3 → bytes "ab" ≠ v)) :=
  ⟨by decide, by decide, by decide, by decide,
    prefix_restriction refLib (emptyServer ⟨4, 1000, 100⟩) [bytes "ab", bytes "abcd"] []
      (bytes "ab") (bytes "ab") (bytes "contains_lookup") (by decide) (by decide) (by decide)
      (by decide)⟩

/-- A reference value inside the query that does not begin with the first three
bytes of the query is not found: `"smith"` is loaded, `"john smith"` is looked up. -/
theorem prefix_restriction_example :
    performLookup refLib (NewServer refLib [] [bytes "smith"] ⟨4, 1000, 100⟩)
      (bytes "john smith") = (false, [], []) ∧
    refLib.LooseIndexString (bytes "john smith") (bytes "smith") ≠ -1 := by
  decide

/-! ## Claim C19: the splitter needs a positive batch size -/

theorem splitIter_zero_batch (records : List Record) (hne : records ≠ []) :
    splitIter records 0 0 = Iter.send [] 0 := by
  have hpos : (0 : Int) < records.length := by
    have := List.length_pos.2 hne
    omega
  have hw : wrapInt64 0 = 0 := by decide
  unfold splitIter
  simp only [hpos, if_true, add_zero, hw]
  have hng : ¬ ((0 : Int) > records.length) := by omega
  simp [hng]

theorem splitter_zero_batch (records : List Record) (hne : records ≠ []) (fuel : Nat) :
    splitter records 0 fuel 0 = (List.replicate fuel [], SplitEnd.running) := by
  induction fuel with
  | zero => rfl
  | succ n ih =>
    simp only [splitter, splitIter_zero_batch records hne, ih, List.replicate_succ]

theorem splitIter_negative_batch (records : List Record) (b : Int) (hne : records ≠ [])
    (hmin : -2 ^ 63 ≤ b) (hneg : b < 0) : splitIter records b 0 = Iter.panic := by
  have hpos : (0 : Int) < records.length := by
    have := List.length_pos.2 hne
    omega
  have hw : wrapInt64 (0 + b) = b := by
    rw [Int.zero_add]
    exact wrapInt64_of_range b hmin (by omega)
  unfold splitIter
  simp only [hpos, if_true, hw]
  have hng : ¬ (b > (records.length : Int)) := by omega
  have hcond : ¬ ((0 : Int) ≤ 0 ∧ (0 : Int) ≤ b) := by omega
  simp only [hng, if_false, hcond]

theorem splitIter_empty (b i : Int) (hi : 0 ≤ i) : splitIter [] b i = Iter.stop := by
  unfold splitIter
  have : ¬ (i < (([] : List Record).length : Int)) := by
    simp only [List.length_nil, Nat.cast_zero]
    omega
  simp only [this, if_false]

/-- C19. Chunking needs a positive batch size.  For every record list (shorter
than `2^62`) and every batch size (a Go `int`), the splitter loop of
`processInputFile` ends and closes `recordsChan` if and only if the batch size is
at least 1 or the record list is empty.  With batch size 0 and a non-empty list
the loop sends the empty chunk `records[0:0]` and leaves its index at 0, so
after any number of iterations it is still running and has sent that many empty
chunks.  (With a negative batch size and a non-empty list the first slice
expression panics.) -/
theorem splitter_needs_positive_batch (records : List Record) (batchSize : Int)
    (hmin : -2 ^ 63 ≤ batchSize) (hmax : batchSize < 2 ^ 63)
    (hlen : (records.length : Int) < 2 ^ 62) :
    ((∃ fuel, (splitter records batchSize fuel 0).2 = SplitEnd.closed) ↔
      (1 ≤ batchSize ∨ records = [])) ∧
    (batchSize = 0 → records ≠ [] →
      splitIter records batchSize 0 = Iter.send [] 0 ∧
      ∀ fuel, splitter records batchSize fuel 0 = (List.replicate fuel [], SplitEnd.running)) ∧
    (batchSize < 0 → records ≠ [] →
      ∀ fuel, splitter records batchSize (fuel + 1) 0 = ([], SplitEnd.panicked)) := by
  have hneg : batchSize < 0 → records ≠ [] →
      ∀ fuel, splitter records batchSize (fuel + 1) 0 = ([], SplitEnd.panicked) := by
    intro hb hne fuel
    simp only [splitter, splitIter_negative_batch records batchSize hne hmin hb]
  have hzero : batchSize = 0 → records ≠ [] →
      splitIter records batchSize 0 = Iter.send [] 0 ∧
      ∀ fuel, splitter records batchSize fuel 0 = (List.replicate fuel [], SplitEnd.running) := by
    intro hb hne
    subst hb
    exact ⟨splitIter_zero_batch records hne, splitter_zero_batch records hne⟩
  refine ⟨⟨?_, ?_⟩, hzero, hneg⟩
  · rintro ⟨fuel, hclosed⟩
    by_contra hnot
    have hb : ¬ 1 ≤ batchSize := fun h => hnot (Or.inl h)
    have hne : records ≠ [] := fun h => hnot (Or.inr h)
    by_cases hz : batchSize = 0
    · rw [(hzero hz hne).2 fuel] at hclosed
      cases hclosed
    · cases fuel with
      | zero => simp [splitter] at hclosed
      | succ n =>
        rw [hneg (by omega) hne n] at hclosed
        cases hclosed
  · rintro (hb | hnil)
    · exact ⟨records.length + 1,
        (splitter_spec records batchSize hb hmax hlen (records.length + 1) 0 (Or.inl rfl)
          (by omega)).1⟩
    · refine ⟨1, ?_⟩
      subst hnil
      simp only [splitter, splitIter_empty batchSize 0 (Int.le_refl 0)]

theorem splitter_needs_positive_batch_witness :
    (-2 ^ 63 : Int) ≤ 0 ∧ (0 : Int) < 2 ^ 63 ∧ (demoRecords.length : Int) < 2 ^ 62 ∧
    (((∃ fuel, (splitter demoRecords 0 fuel 0).2 = SplitEnd.closed) ↔
      ((1 : Int) ≤ 0 ∨ demoRecords = [])) ∧
    ((0 : Int) = 0 → demoRecords ≠ [] →
      splitIter demoRecords 0 0 = Iter.send [] 0 ∧
      ∀ fuel, splitter demoRecords 0 fuel 0 = (List.replicate fuel [], SplitEnd.running)) ∧
    ((0 : Int) < 0 → demoRecords ≠ [] →
      ∀ fuel, splitter demoRecords 0 (fuel + 1) 0 = ([], SplitEnd.panicked))) :=
  ⟨by decide, by decide, by decide,
    splitter_needs_positive_batch demoRecords 0 (by decide) (by decide) (by decide)⟩

/-! ## Claim C12: a line the scanner cannot hold -/

theorem splitLines_cons_other (limit : Option Nat) (cur rest : Str) (b : Nat) (hb : b ≠ 10) :
    splitLines limit cur (b :: rest) = splitLines limit (b :: cur) rest := by
  simp only [splitLines, hb, if_false]

theorem splitLines_newline (limit : Option Nat) (cur rest : Str) :
    splitLines limit cur (10 :: rest) =
      if tooLong limit cur.length then []
      else dropCR cur.reverse :: splitLines limit [] rest := by
  simp only [splitLines, if_true]

theorem splitLines_replicate (limit : Option Nat) (c : Nat) (hc : c ≠ 10) (n : Nat)
    (cur rest : Str) :
    splitLines limit cur (List.replicate n c ++ rest) =
      splitLines limit (List.replicate n c ++ cur) rest := by
  induction n generalizing cur with
  | zero => rfl
  | succ m ih =>
    have h1 : List.replicate (m + 1) c ++ rest = c :: (List.replicate m c ++ rest) := rfl
    have h2 : List.replicate (m + 1) c ++ cur = List.replicate m c ++ (c :: cur) := by
      rw [List.replicate_succ', List.append_assoc]
      rfl
    rw [h1, splitLines_cons_other limit cur _ c hc, ih, h2]

theorem tooLong_none (n : Nat) : tooLong none n = false := rfl

theorem tooLong_some (m n : Nat) : tooLong (some m) n = decide (m ≤ n) := rfl

theorem splitLines_prefix (m : Nat) (data : Str) :
    ∀ cur : Str, splitLines (some m) cur data <+: splitLines none cur data := by
  induction data with
  | nil =>
    intro cur
    simp only [splitLines, tooLong_none, Bool.false_eq_true, if_false]
    by_cases hc : cur = []
    · simp only [hc, if_true]
      exact List.prefix_refl _
    · simp only [hc, if_false]
      by_cases ht : tooLong (some m) cur.length = true
      · simp only [ht, if_true]
        exact List.nil_prefix
      · simp only [ht, if_false]
        exact List.prefix_refl _
  | cons b rest ih =>
    intro cur
    simp only [splitLines, tooLong_none, Bool.false_eq_true, if_false]
    by_cases hb : b = 10
    · simp only [hb, if_true]
      by_cases ht : tooLong (some m) cur.length = true
      · simp only [ht, if_true]
        exact List.nil_prefix
      · simp only [ht, if_false]
        exact (List.prefix_cons_inj _).2 (ih [])
    · simp only [hb, if_false]
      exact ih (b :: cur)

theorem splitLines_short (m : Nat) (data : Str) :
    ∀ cur : Str, cur.length + data.length < m →
      splitLines (some m) cur data = splitLines none cur data := by
  induction data with
  | nil =>
    intro cur h
    have ht : tooLong (some m) cur.length = false := by
      rw [tooLong_some]
      exact decide_eq_false (by omega)
    simp only [splitLines, tooLong_none, ht]
  | cons b rest ih =>
    intro cur h
    have hl : (b :: rest).length = rest.length + 1 := rfl
    have ht : tooLong (some m) cur.length = false := by
      rw [tooLong_some]
      exact decide_eq_false (by omega)
    simp only [splitLines, tooLong_none, ht]
    by_cases hb : b = 10
    · simp only [hb, if_true, Bool.false_eq_true, if_false]
      rw [ih [] (by simp only [List.length_nil]; omega)]
    · simp only [hb, if_false]
      exact ih (b :: cur) (by simp only [List.length_cons]; omega)

/-- What the scanner yields is always an initial part of the lines of the file. -/
theorem scanLines_prefix_fileLines (data : Str) : scanLines data <+: fileLines data :=
  splitLines_prefix maxScanTokenSize data []

/-- On a file shorter than the scanner's buffer limit the scanner yields every line
of the file. -/
theorem scanLines_eq_fileLines (data : Str) (h : data.length < maxScanTokenSize) :
    scanLines data = fileLines data :=
  splitLines_short maxScanTokenSize data [] (by simp only [List.length_nil]; omega)

/-- Every key the load puts into an empty store is the key of a line of the file:
the scanner yields lines of the file only. -/
theorem loadLookupFile_keys_from_file (L : GoLib) (cfg : Config) (data k : Str)
    (h : k ∈ (loadLookupFile L (emptyServer cfg) data).db) :
    ∃ line ∈ fileLines data, normalized L line ≠ [] ∧ k = keyOf (normalized L line) := by
  have hk : k ∈ (loadLookupData L { emptyServer cfg with db := [] } (scanLines data)).db := h
  obtain ⟨line, hline, hne, hkey⟩ :=
    ((index_contents L (emptyServer cfg) (scanLines data)).1 k).1 hk
  exact ⟨line, (scanLines_prefix_fileLines data).subset hline, hne, hkey⟩

theorem splitLines_longLine (limit : Option Nat) (rest : Str) :
    splitLines limit [] (longLine ++ (10 :: rest)) =
      if tooLong limit 65536 then []
      else dropCR longLine.reverse :: splitLines limit [] rest := by
  unfold longLine
  rw [splitLines_replicate limit 97 (by decide) 65536, splitLines_newline, List.append_nil,
    List.length_replicate]

theorem longLineFile_eq :
    longLineFile = 122 :: 122 :: 10 :: (longLine ++ (10 :: (bytes "ab" ++ [10]))) := by
  have hzz : bytes "zz" = [122, 122] := by decide
  unfold longLineFile
  rw [hzz]
  rfl

theorem scanLines_longLineFile : scanLines longLineFile = [bytes "zz"] := by
  have hzz : bytes "zz" = [122, 122] := by decide
  have hshort : tooLong (some maxScanTokenSize) ([122, 122] : Str).length = false := by decide
  have hcr : dropCR ([122, 122] : Str).reverse = [122, 122] := by decide
  have hlong : tooLong (some maxScanTokenSize) 65536 = true := by decide
  unfold scanLines
  rw [longLineFile_eq, splitLines_cons_other _ _ _ _ (by decide),
    splitLines_cons_other _ _ _ _ (by decide), splitLines_newline, hshort, splitLines_longLine,
    hlong, hcr, hzz]
  simp only [Bool.false_eq_true, if_false, if_true]

theorem fileLines_longLineFile : bytes "ab" ∈ fileLines longLineFile := by
  have htail : splitLines none [] (bytes "ab" ++ [10]) = [bytes "ab"] := by decide
  have hnone : ∀ n : Nat, tooLong none n = false := fun _ => rfl
  unfold fileLines
  rw [longLineFile_eq, splitLines_cons_other _ _ _ _ (by decide),
    splitLines_cons_other _ _ _ _ (by decide), splitLines_newline, hnone, splitLines_longLine,
    hnone, htail]
  simp only [Bool.false_eq_true, if_false]
  exact List.mem_cons_of_mem _ (List.mem_cons_of_mem _ (List.mem_singleton.2 rfl))

/-- C12 at a lookup file with a line of 65536 bytes between the lines `zz` and
`ab`.  `ab` is a line of the file with the non-empty normalized value `ab`, but the
scanner yields `zz` only: at the long line `Scan` returns false, `loadLookupData`
takes this for the end of the file and writes its batch, and the store holds the
key of `zz` alone.  The key `"ab:ab"` is not in the index. -/
theorem long_line_ends_load :
    bytes "ab" ∈ fileLines longLineFile ∧
    normalized refLib (bytes "ab") = bytes "ab" ∧
    scanLines longLineFile = [bytes "zz"] ∧
    (loadLookupFile refLib (emptyServer ⟨4, 1000, 100⟩) longLineFile).db = [bytes "zz:zz"] ∧
    bytes "ab:ab" ∉ (loadLookupFile refLib (emptyServer ⟨4, 1000, 100⟩) longLineFile).db := by
  have hdb : (loadLookupFile refLib (emptyServer ⟨4, 1000, 100⟩) longLineFile).db =
      [bytes "zz:zz"] := by
    unfold loadLookupFile
    rw [scanLines_longLineFile]
    decide
  refine ⟨fileLines_longLineFile, by decide, scanLines_longLineFile, hdb, ?_⟩
  rw [hdb]
  decide

/-- On a file whose lines are all short the scanner yields the lines of the file:
here three lines, one with a carriage return, one empty. -/
theorem scanLines_example :
    scanLines (bytes "ab" ++ [13, 10] ++ [10] ++ bytes "cd") = [bytes "ab", [], bytes "cd"] ∧
    fileLines (bytes "ab" ++ [13, 10] ++ [10] ++ bytes "cd") = [bytes "ab", [], bytes "cd"] := by
  decide

/-! ## Claim C10: the counters and the records written out -/

set_option maxRecDepth 100000 in
/-- C10 on `demoPipeline` under `raceSchedule`.  Every worker has exited and all
chunks are processed: `ProcessedRecords` is 3, the number of records, and
`MatchedRecords` is 2.  The main goroutine has taken `results` before the
collector received the second chunk, so the output holds two records, one of them
with `Result = true`: `MatchedRecords` is not the number of output records with
`Result = true`. -/
theorem matched_count_and_output :
    processInputFile refLib refSort demoServer demoRecords raceSchedule =
      some (run refLib demoPipeline raceSchedule) ∧
    1 ≤ demoServer.config.BatchSize ∧ 1 ≤ demoServer.config.WorkerCount ∧
    allExited (run refLib demoPipeline raceSchedule) = true ∧
    (run refLib demoPipeline raceSchedule).metrics.ProcessedRecords = demoRecords.length ∧
    (run refLib demoPipeline raceSchedule).metrics.MatchedRecords = 2 ∧
    (run refLib demoPipeline raceSchedule).output.map
      (fun out => (out.length, out.countP (fun r => r.Result))) = some (2, 1) := by
  refine ⟨rfl, ?_⟩
  decide

end Lookup
